import Mathlib

/-!
# Ranked sorted set (skip list + rank dictionary)

A shallow embedding of `internals/skiplist.go`, `internals/dict.go` and
`sorted_set.go`, followed by the properties proved about it.

Conventions of the embedding.

* Go pointers to `Node` are indices into a store `heap : List Node`; a new node
  is allocated at index `heap.length`; `none` is the nil pointer.  Nodes that
  are unlinked stay in the store as garbage, as they do in Go until collected.
* The content of a Go map is an association list with pairwise distinct keys;
  `range` lists the keys in list order, which is one of the orders Go may pick.
* A value of type `map[string]bool` is a reference.  The skip list stores and
  hands out such values and never looks inside them, so its model is parametric
  in the type `μ` of the non-nil map values; `none` is the nil map.  With
  `μ := Nat` a map value is the address of a map object in a `MapStore`, and the
  store is part of the state a callback reads and writes: a callback's write to
  its argument is a change of the store, seen under every node that holds the
  address, and it stays when the callback panics afterwards.  The sorted set
  makes a fresh map for every node it creates and its closures return the map
  they are given, so no two nodes hold the same map; there a map is identified
  with its content (`μ := MapContent`).
* A call returns its result together with the state it leaves behind, also
  when it panics (`Except.error`), so that "fails without mutating" can be
  stated.
* What a closure can read and write is an explicit state `ε` passed to and
  returned from the callback, also when the callback panics.
* `while`-style loops over the links take a bound on the number of condition
  evaluations (the size of the store) and report `Fault.fuel` if it is hit.
* The outcomes of the comparison
  `float32(rand.Int() & 0xFFFF) < levelJumpProbability * 0xFFFF` for the
  successive draws of one call are given by `draws : Nat → Bool`.
-/

set_option autoImplicit false

namespace SSet

/-! ## Data model -/

/-- Ways in which a call can end without returning. -/
inductive Fault where
  /-- an explicit `panic("...")` of the source -/
  | precondition (msg : String)
  /-- a Go run-time panic: nil dereference, index out of range, write to a nil map -/
  | runtime
  /-- a loop of the model used up its iteration bound -/
  | fuel
deriving DecidableEq, Repr

/-- Content of a non-nil Go `map[string]bool`: its bindings, in iteration order. -/
abbrev MapContent := List (String × Bool)

/-- Go `map[string]bool` read as its content; `none` is the nil map. -/
abbrev MemberMap := Option MapContent

/-- Go `len(m)`. -/
def mapLen : MemberMap → Nat
  | none => 0
  | some l => l.length

/-- Keys in the order `for k := range m` visits them. -/
def mapKeys : MemberMap → List String
  | none => []
  | some l => l.map Prod.fst

/-- Association-list update: replace the binding of `k` or append one. -/
def assocSet {ν : Type} (k : String) (v : ν) : List (String × ν) → List (String × ν)
  | [] => [(k, v)]
  | (k1, v1) :: rest => if k1 = k then (k, v) :: rest else (k1, v1) :: assocSet k v rest

/-- Association-list removal of the binding of `k`. -/
def assocDelete {ν : Type} (k : String) (l : List (String × ν)) : List (String × ν) :=
  l.filter (fun e => decide (e.1 ≠ k))

/-- Association-list lookup, Go `v, ok := m[k]`. -/
def assocLookup {ν : Type} (k : String) : List (String × ν) → Option ν
  | [] => none
  | (k1, v1) :: rest => if k1 = k then some v1 else assocLookup k rest

/-- Go `m[k] = v`; panics on the nil map. -/
def mapAssign (m : MemberMap) (k : String) (v : Bool) : Except Fault MemberMap :=
  match m with
  | none => .error .runtime
  | some l => .ok (some (assocSet k v l))

/-- Go `delete(m, k)`; a no-op on the nil map. -/
def mapDelete (m : MemberMap) (k : String) : MemberMap :=
  match m with
  | none => none
  | some l => some (assocDelete k l)

/-- Source `type Dictionary map[string]int` (never nil after `SortedSet.Init`). -/
abbrev Dictionary := List (String × Int)

/-- Source `type Node struct`.  A value of type `μ` stands for a non-nil
`map[string]bool` and `none` for the nil map: `μ` is `Nat` when maps are
objects addressed in a `MapStore`, and `MapContent` when each node is the only
holder of its map and the map is identified with its content. -/
structure Node (μ : Type) where
  Next : List (Option Nat)
  Key : Int
  Values : Option μ
deriving DecidableEq, Repr

/-- Source `type SkipList struct`; `heap` is the store the pointers refer to.
The field `levelJumpProbability` is read only by the comparison whose outcomes
are supplied as `draws`, and is not carried. -/
structure SkipList (μ : Type) where
  heap : List (Node μ)
  header : Option Nat
  maxLevels : Int
  currentLevel : Int
  minKey : Int
deriving DecidableEq, Repr

/-- Callback `func(map[string]bool) map[string]bool`.  The state `ε` is what
the closure can read and write besides its argument: its captured variables
and, when maps are addressed objects, the store holding them.  The state the
callback leaves is returned also when it panics. -/
abbrev Modifier (μ ε : Type) := Option μ → ε → Except Fault (Option μ) × ε

/-- Callback `func(map[string]bool) (bool, map[string]bool)`, with state `ε` as
for `Modifier`. -/
abbrev Decider (μ ε : Type) := Option μ → ε → Except Fault (Bool × Option μ) × ε

variable {μ : Type}

/-! ## Store access -/

/-- Read `p.Next[i]`: `none` when `p` is dangling or `i` is out of range. -/
def nextAt (heap : List (Node μ)) (p i : Nat) : Option (Option Nat) :=
  match heap[p]? with
  | none => none
  | some n => n.Next[i]?

/-- Read `p.Key`. -/
def keyAt (heap : List (Node μ)) (p : Nat) : Option Int :=
  match heap[p]? with
  | none => none
  | some n => some n.Key

/-- Read `p.Values`. -/
def valuesAt (heap : List (Node μ)) (p : Nat) : Option (Option μ) :=
  match heap[p]? with
  | none => none
  | some n => some n.Values

/-- Write `p.Next[i] = v`. -/
def setNext (heap : List (Node μ)) (p i : Nat) (v : Option Nat) : Option (List (Node μ)) :=
  match heap[p]? with
  | none => none
  | some n =>
    if i < n.Next.length then some (heap.set p { n with Next := n.Next.set i v }) else none

/-- Write `p.Values = v`. -/
def setValues (heap : List (Node μ)) (p : Nat) (v : Option μ) : Option (List (Node μ)) :=
  match heap[p]? with
  | none => none
  | some n => some (heap.set p { n with Values := v })

/-- Go `int` arithmetic result reduced to 64-bit two's complement. -/
def wrapInt (x : Int) : Int := (x + 2 ^ 63) % 2 ^ 64 - 2 ^ 63

/-! ## Skip list -/

/-- Source `createNewNode`: the new node record (the caller stores it). -/
def createNewNode (s : SkipList μ) (key : Int) (initialValues : Option μ) : Node μ :=
  { Next := List.replicate s.maxLevels.toNat none, Key := key, Values := initialValues }

/-- Source `SkipList.Init`. -/
def SkipList.Init (s : SkipList μ) (maxLevels : Int) (minKey : Int) :
    Except Fault Unit × SkipList μ :=
  if maxLevels < 1 then
    (.error (.precondition "Maximum number of levels should be greater than or equal to 1"), s)
  else
    let s1 : SkipList μ :=
      { s with currentLevel := -1, maxLevels := maxLevels, minKey := minKey }
    (.ok (), { s1 with heap := s1.heap ++ [createNewNode s1 (wrapInt (minKey - 1)) none],
                       header := some s1.heap.length })

/-- The zero value `SkipList{}`. -/
def SkipList.zero : SkipList μ :=
  { heap := [], header := none, maxLevels := 0, currentLevel := 0, minKey := 0 }

/-- Loop of `generateRandLevel`: the draw is evaluated before the level bound. -/
def generateRandLevelLoop (maxLevels : Int) (draws : Nat → Bool) : Nat → Nat → Except Fault Nat
  | 0, _ => .error .fuel
  | fuel + 1, level =>
    if draws level && decide ((level : Int) < maxLevels - 1) then
      generateRandLevelLoop maxLevels draws fuel (level + 1)
    else .ok level

/-- Source `generateRandLevel`; the body runs at most `maxLevels - 1` times. -/
def generateRandLevel (s : SkipList μ) (draws : Nat → Bool) : Except Fault Nat :=
  generateRandLevelLoop s.maxLevels draws (s.maxLevels.toNat + 1) 0

/-- Inner loop `for current.Next[i] != nil && current.Next[i].Key < key`. -/
def advance (heap : List (Node μ)) (i : Nat) (key : Int) : Nat → Nat → Except Fault Nat
  | 0, _ => .error .fuel
  | fuel + 1, current =>
    match nextAt heap current i with
    | none => .error .runtime
    | some none => .ok current
    | some (some q) =>
      match keyAt heap q with
      | none => .error .runtime
      | some k => if k < key then advance heap i key fuel q else .ok current

/-- Descent of `AddOrModify`: levels `n-1 .. 0`, recording `updateArray[i] = current`. -/
def descendAdd (heap : List (Node μ)) (key : Int) :
    Nat → Nat → List (Option Nat) → Except Fault (Nat × List (Option Nat))
  | 0, current, updateArray => .ok (current, updateArray)
  | i + 1, current, updateArray =>
    match advance heap i key heap.length current with
    | .error f => .error f
    | .ok c =>
      if i < updateArray.length then descendAdd heap key i c (updateArray.set i (some c))
      else .error .runtime

/-- Loop `for i := s.currentLevel + 1; i <= levels; i++ { updateArray[i] = s.header }`. -/
def raiseUpdate (header : Nat) : Nat → Nat → List (Option Nat) → Except Fault (List (Option Nat))
  | 0, _, updateArray => .ok updateArray
  | n + 1, i, updateArray =>
    if i < updateArray.length then raiseUpdate header n (i + 1) (updateArray.set i (some header))
    else .error .runtime

/-- Loop `for i := 0; i <= levels; i++` linking the new node in. -/
def splice (node : Nat) (updateArray : List (Option Nat)) :
    Nat → Nat → List (Node μ) → Except Fault Unit × List (Node μ)
  | 0, _, heap => (.ok (), heap)
  | n + 1, i, heap =>
    match updateArray[i]? with
    | some (some p) =>
      match nextAt heap p i with
      | none => (.error .runtime, heap)
      | some nx =>
        match setNext heap node i nx with
        | none => (.error .runtime, heap)
        | some heap1 =>
          match setNext heap1 p i (some node) with
          | none => (.error .runtime, heap1)
          | some heap2 => splice node updateArray n (i + 1) heap2
    | _ => (.error .runtime, heap)

/-- Block of `AddOrModify` that creates and links a new node. -/
def insertNode (s : SkipList μ) (hdr : Nat) (key : Int) (value : Option μ)
    (updateArray : List (Option Nat)) (draws : Nat → Bool) : Except Fault Unit × SkipList μ :=
  match generateRandLevel s draws with
  | .error f => (.error f, s)
  | .ok levels =>
    let node := s.heap.length
    let s1 : SkipList μ := { s with heap := s.heap ++ [createNewNode s key value] }
    if s.currentLevel < (levels : Int) then
      match raiseUpdate hdr ((levels : Int) - s.currentLevel).toNat (s.currentLevel + 1).toNat
          updateArray with
      | .error f => (.error f, s1)
      | .ok ua =>
        let s2 : SkipList μ := { s1 with currentLevel := levels }
        match splice node ua (levels + 1) 0 s2.heap with
        | (r, heap2) => (r, { s2 with heap := heap2 })
    else
      match splice node updateArray (levels + 1) 0 s1.heap with
      | (r, heap2) => (r, { s1 with heap := heap2 })

/-- Source `SkipList.AddOrModify`. -/
def SkipList.AddOrModify {ε : Type} (s : SkipList μ) (key : Int) (value : Option μ)
    (modifier : Option (Modifier μ ε)) (env : ε) (draws : Nat → Bool) :
    Except Fault Unit × SkipList μ × ε :=
  if key < s.minKey then
    (.error (.precondition "key must be greater than or equal to minKey"), s, env)
  else
    match s.header with
    | none => (.error .runtime, s, env)
    | some hdr =>
      match descendAdd s.heap key (s.currentLevel + 1).toNat hdr
          (List.replicate s.maxLevels.toNat none) with
      | .error f => (.error f, s, env)
      | .ok (current, updateArray) =>
        match nextAt s.heap current 0 with
        | none => (.error .runtime, s, env)
        | some none =>
          match insertNode s hdr key value updateArray draws with
          | (r, s1) => (r, s1, env)
        | some (some q) =>
          match keyAt s.heap q with
          | none => (.error .runtime, s, env)
          | some k =>
            if k ≠ key then
              match insertNode s hdr key value updateArray draws with
              | (r, s1) => (r, s1, env)
            else
              match modifier with
              | some f =>
                match valuesAt s.heap q with
                | none => (.error .runtime, s, env)
                | some vals =>
                  match f vals env with
                  | (.error e, env1) => (.error e, s, env1)
                  | (.ok v, env1) =>
                    match setValues s.heap q v with
                    | none => (.error .runtime, s, env1)
                    | some heap1 => (.ok (), { s with heap := heap1 }, env1)
              | none =>
                match setValues s.heap q value with
                | none => (.error .runtime, s, env)
                | some heap1 => (.ok (), { s with heap := heap1 }, env)

/-- Descent of `DeleteOrModify`: records `updateArray[i]` and `nodeToDelete` at the
levels where the node after `current` carries `key`. -/
def descendDelete (heap : List (Node μ)) (key : Int) :
    Nat → Nat → List (Option Nat) → Option Nat →
    Except Fault (List (Option Nat) × Option Nat)
  | 0, _, updateArray, nodeToDelete => .ok (updateArray, nodeToDelete)
  | i + 1, current, updateArray, nodeToDelete =>
    match advance heap i key heap.length current with
    | .error f => .error f
    | .ok c =>
      match nextAt heap c i with
      | none => .error .runtime
      | some none => descendDelete heap key i c updateArray nodeToDelete
      | some (some q) =>
        match keyAt heap q with
        | none => .error .runtime
        | some k =>
          if k = key then
            if i < updateArray.length then
              descendDelete heap key i c (updateArray.set i (some c)) (some q)
            else .error .runtime
          else descendDelete heap key i c updateArray nodeToDelete

/-- Loop `for i := 0; i <= s.currentLevel && updateArray[i] != nil; i++`. -/
def unlink (nodeToDelete : Nat) (updateArray : List (Option Nat)) :
    Nat → Nat → List (Node μ) → Except Fault Unit × List (Node μ)
  | 0, _, heap => (.ok (), heap)
  | n + 1, i, heap =>
    match updateArray[i]? with
    | none => (.error .runtime, heap)
    | some none => (.ok (), heap)
    | some (some p) =>
      match nextAt heap nodeToDelete i with
      | none => (.error .runtime, heap)
      | some nx =>
        match setNext heap p i nx with
        | none => (.error .runtime, heap)
        | some heap1 => unlink nodeToDelete updateArray n (i + 1) heap1

/-- Loop `for i := s.currentLevel; i >= 0; i--` recomputing the level. -/
def shrinkLevel (heap : List (Node μ)) (hdr : Nat) : Nat → Int → Except Fault Int
  | 0, newCurrentLevel => .ok newCurrentLevel
  | i + 1, newCurrentLevel =>
    match nextAt heap hdr i with
    | none => .error .runtime
    | some none => shrinkLevel heap hdr i ((i : Int) - 1)
    | some (some _) => shrinkLevel heap hdr i newCurrentLevel

/-- Tail of `DeleteOrModify` once the node is to be removed. -/
def removeNode (s : SkipList μ) (hdr nodeToDelete : Nat) (updateArray : List (Option Nat)) :
    Except Fault Bool × SkipList μ :=
  match unlink nodeToDelete updateArray (s.currentLevel + 1).toNat 0 s.heap with
  | (.error f, heap1) => (.error f, { s with heap := heap1 })
  | (.ok _, heap1) =>
    match shrinkLevel heap1 hdr (s.currentLevel + 1).toNat s.currentLevel with
    | .error f => (.error f, { s with heap := heap1 })
    | .ok newCurrentLevel => (.ok true, { s with heap := heap1, currentLevel := newCurrentLevel })

/-- Source `SkipList.DeleteOrModify`. -/
def SkipList.DeleteOrModify {ε : Type} (s : SkipList μ) (key : Int)
    (modifyOrDelete : Option (Decider μ ε)) (env : ε) : Except Fault Bool × SkipList μ × ε :=
  if key < s.minKey then
    (.error (.precondition "Key must be greater than or equal to minKey"), s, env)
  else
    match s.header with
    | none => (.error .runtime, s, env)
    | some hdr =>
      match descendDelete s.heap key (s.currentLevel + 1).toNat hdr
          (List.replicate s.maxLevels.toNat none) none with
      | .error f => (.error f, s, env)
      | .ok (_, none) => (.ok false, s, env)
      | .ok (updateArray, some nodeToDelete) =>
        match modifyOrDelete with
        | none =>
          match removeNode s hdr nodeToDelete updateArray with
          | (r, s1) => (r, s1, env)
        | some f =>
          match valuesAt s.heap nodeToDelete with
          | none => (.error .runtime, s, env)
          | some vals =>
            match f vals env with
            | (.error e, env1) => (.error e, s, env1)
            | (.ok (needToDelete, modifiedValue), env1) =>
              if !needToDelete then
                match setValues s.heap nodeToDelete modifiedValue with
                | none => (.error .runtime, s, env1)
                | some heap1 => (.ok false, { s with heap := heap1 }, env1)
              else
                match removeNode s hdr nodeToDelete updateArray with
                | (r, s1) => (r, s1, env1)

/-- Descent of `SearchRange` (no bookkeeping). -/
def descend (heap : List (Node μ)) (key : Int) : Nat → Nat → Except Fault Nat
  | 0, current => .ok current
  | i + 1, current =>
    match advance heap i key heap.length current with
    | .error f => .error f
    | .ok c => descend heap key i c

/-- Counting loop `for current != nil && current.Key < keyMax`. -/
def countRange (heap : List (Node μ)) (keyMax : Int) : Nat → Option Nat → Nat → Except Fault Nat
  | 0, _, _ => .error .fuel
  | _ + 1, none, numberOfNodes => .ok numberOfNodes
  | fuel + 1, some p, numberOfNodes =>
    match keyAt heap p with
    | none => .error .runtime
    | some k =>
      if k < keyMax then
        match nextAt heap p 0 with
        | none => .error .runtime
        | some nx => countRange heap keyMax fuel nx (numberOfNodes + 1)
      else .ok numberOfNodes

/-- Copy loop `for i, node := 0, startNode; i < numberOfNodes; i, node = i+1, node.Next[0]`. -/
def collectValues (heap : List (Node μ)) : Nat → Option Nat → Except Fault (List (Option μ))
  | 0, _ => .ok []
  | _ + 1, none => .error .runtime
  | n + 1, some p =>
    match valuesAt heap p with
    | none => .error .runtime
    | some vals =>
      match nextAt heap p 0 with
      | none => .error .runtime
      | some nx =>
        match collectValues heap n nx with
        | .error f => .error f
        | .ok rest => .ok (vals :: rest)

/-- Source `SkipList.SearchRange`. -/
def SkipList.SearchRange (s : SkipList μ) (keyMin keyMax : Int) :
    Except Fault (List (Option μ)) × SkipList μ :=
  if keyMin < s.minKey ∨ keyMax < s.minKey then
    (.error (.precondition "keyMin and keyMax must be greater than or equal to minKey"), s)
  else if keyMin ≥ keyMax then
    (.error (.precondition "keyMin must be less than keyMax"), s)
  else
    match s.header with
    | none => (.error .runtime, s)
    | some hdr =>
      match descend s.heap keyMin (s.currentLevel + 1).toNat hdr with
      | .error f => (.error f, s)
      | .ok current =>
        match nextAt s.heap current 0 with
        | none => (.error .runtime, s)
        | some none => (.ok [], s)
        | some (some start) =>
          match countRange s.heap keyMax s.heap.length (some start) 0 with
          | .error f => (.error f, s)
          | .ok numberOfNodes => (collectValues s.heap numberOfNodes (some start), s)

/-- Descent of `SearchOrModify`: stops at the first level whose next node carries `key`. -/
def searchDescend (heap : List (Node μ)) (key : Int) : Nat → Nat → Except Fault (Option Nat)
  | 0, _ => .ok none
  | i + 1, current =>
    match advance heap i key heap.length current with
    | .error f => .error f
    | .ok c =>
      match nextAt heap c i with
      | none => .error .runtime
      | some none => searchDescend heap key i c
      | some (some q) =>
        match keyAt heap q with
        | none => .error .runtime
        | some k => if k = key then .ok (some q) else searchDescend heap key i c

/-- Source `SkipList.SearchOrModify`. -/
def SkipList.SearchOrModify {ε : Type} (s : SkipList μ) (key : Int)
    (modifier : Option (Modifier μ ε)) (env : ε) : Except Fault (Option μ) × SkipList μ × ε :=
  if key < s.minKey then
    (.error (.precondition "key must be greater than or equal to minKey"), s, env)
  else
    match s.header with
    | none => (.error .runtime, s, env)
    | some hdr =>
      match searchDescend s.heap key (s.currentLevel + 1).toNat hdr with
      | .error f => (.error f, s, env)
      | .ok none => (.ok none, s, env)
      | .ok (some q) =>
        match valuesAt s.heap q with
        | none => (.error .runtime, s, env)
        | some vals =>
          match modifier with
          | none => (.ok vals, s, env)
          | some f =>
            match f vals env with
            | (.error e, env1) => (.error e, s, env1)
            | (.ok v, env1) =>
              match setValues s.heap q v with
              | none => (.error .runtime, s, env1)
              | some heap1 => (.ok v, { s with heap := heap1 }, env1)

/-- Walk `for current != nil { ...; current = current.Next[i] }` of `DebugPrint`:
the nodes of level `i` from `current` on. -/
def levelWalk (heap : List (Node μ)) (i : Nat) : Nat → Option Nat → Except Fault (List Nat)
  | 0, _ => .error .fuel
  | _ + 1, none => .ok []
  | fuel + 1, some p =>
    match nextAt heap p i with
    | none => .error .runtime
    | some nx =>
      match levelWalk heap i fuel nx with
      | .error f => .error f
      | .ok rest => .ok (p :: rest)

/-! ## Sorted set -/

/-- Source `const maxLevels = 32`. -/
def maxLevels : Int := 32

/-- Source `const minKey = 0`. -/
def minKey : Int := 0

/-- Source `type SortedSet struct`.  The mutex is a pointer to an object whose
lock state is not modelled (calls are taken one at a time); `none` is nil.
The maps of its skip list are identified with their contents: `Add` makes a
fresh map for each node it creates, the closures of `Add` and `Remove` return
the map they are given (or nil), and `Get` and `GetRange` copy the keys out, so
no map is held by two nodes or by a caller. -/
structure SortedSet where
  dict : Option Dictionary
  skiplist : SkipList MapContent
  rwMutex : Option Unit
deriving DecidableEq, Repr

/-- Go `val, ok := s.dict[member]` (reading a nil map finds nothing). -/
def dictLookup (d : Option Dictionary) (member : String) : Option Int :=
  match d with
  | none => none
  | some l => assocLookup member l

/-- The zero value `SortedSet{}`. -/
def SortedSet.zero : SortedSet :=
  { dict := none, skiplist := SkipList.zero, rwMutex := none }

/-- Source `SortedSet.Init`. -/
def SortedSet.Init (_s : SortedSet) : Except Fault Unit × SortedSet :=
  let s1 : SortedSet := { dict := some [], skiplist := SkipList.zero, rwMutex := some () }
  match s1.skiplist.Init maxLevels minKey with
  | (r, sl) => (r, { s1 with skiplist := sl })

/-- Closure passed by `Add`: `currentVal[member] = true; return currentVal`. -/
def addModifier (member : String) : Modifier MapContent Unit :=
  fun currentVal env =>
    match mapAssign currentVal member true with
    | .error f => (.error f, env)
    | .ok v => (.ok v, env)

/-- Closure passed by `Remove`; its captured variable is `deleted`. -/
def removeDecider (member : String) : Decider MapContent Bool :=
  fun memberMap _deleted =>
    let memberMap1 := mapDelete memberMap member
    if mapLen memberMap1 = 0 then (.ok (true, none), true)
    else (.ok (false, memberMap1), true)

/-- Source `SortedSet.Add`. -/
def SortedSet.Add (s : SortedSet) (member : String) (rank : Int) (draws : Nat → Bool) :
    Except Fault Bool × SortedSet :=
  if rank < 0 then
    (.error (.precondition "Rank must be greater than or equal to zero"), s)
  else
    match s.rwMutex with
    | none => (.error .runtime, s)
    | some _ =>
      match dictLookup s.dict member with
      | some _ => (.ok false, s)
      | none =>
        match s.dict with
        | none => (.error .runtime, s)
        | some d =>
          let s1 : SortedSet := { s with dict := some (assocSet member rank d) }
          match s1.skiplist.AddOrModify rank (some [(member, true)])
              (some (addModifier member)) () draws with
          | (.error f, sl, _) => (.error f, { s1 with skiplist := sl })
          | (.ok _, sl, _) => (.ok true, { s1 with skiplist := sl })

/-- Source `SortedSet.Remove`. -/
def SortedSet.Remove (s : SortedSet) (member : String) : Except Fault Bool × SortedSet :=
  match s.rwMutex with
  | none => (.error .runtime, s)
  | some _ =>
    match dictLookup s.dict member with
    | none => (.ok false, s)
    | some val =>
      let s1 : SortedSet := { s with dict := s.dict.map (assocDelete member) }
      match s1.skiplist.DeleteOrModify val (some (removeDecider member)) false with
      | (.error f, sl, _) => (.error f, { s1 with skiplist := sl })
      | (.ok _, sl, deleted) => (.ok deleted, { s1 with skiplist := sl })

/-- Source `SortedSet.Get`. -/
def SortedSet.Get (s : SortedSet) (rank : Int) : Except Fault (List String) × SortedSet :=
  if rank < 0 then
    (.error (.precondition "Rank must be greater than or equal to zero"), s)
  else
    match s.rwMutex with
    | none => (.error .runtime, s)
    | some _ =>
      match s.skiplist.SearchOrModify rank (none : Option (Modifier MapContent Unit)) () with
      | (.error f, sl, _) => (.error f, { s with skiplist := sl })
      | (.ok memberMap, sl, _) => (.ok (mapKeys memberMap), { s with skiplist := sl })

/-- The two loops of `GetRange` that size and fill `members`. -/
def fillMembers : List MemberMap → List String
  | [] => []
  | memberMap :: rest => mapKeys memberMap ++ fillMembers rest

/-- Source `SortedSet.GetRange`. -/
def SortedSet.GetRange (s : SortedSet) (rankMin rankMax : Int) :
    Except Fault (List String) × SortedSet :=
  if rankMin < 0 ∨ rankMax < 0 then
    (.error (.precondition "rankMin and rankMax must be greater than equal to zero"), s)
  else if rankMin ≥ rankMax then
    (.error (.precondition "rankMin must be less than rankMax"), s)
  else
    match s.rwMutex with
    | none => (.error .runtime, s)
    | some _ =>
      match s.skiplist.SearchRange rankMin rankMax with
      | (.error f, sl) => (.error f, { s with skiplist := sl })
      | (.ok searchResult, sl) => (.ok (fillMembers searchResult), { s with skiplist := sl })

/-- Source `SortedSet.Exists`. -/
def SortedSet.Exists (s : SortedSet) (member : String) : Except Fault Bool × SortedSet :=
  match s.rwMutex with
  | none => (.error .runtime, s)
  | some _ => (.ok (dictLookup s.dict member).isSome, s)

/-- Source `SortedSet.GetRank`. -/
def SortedSet.GetRank (s : SortedSet) (member : String) : Except Fault Int × SortedSet :=
  match s.rwMutex with
  | none => (.error .runtime, s)
  | some _ =>
    match dictLookup s.dict member with
    | some val => (.ok val, s)
    | none => (.ok (-1), s)

/-- States of a sorted set obtained from `Init` by `Add` and `Remove` calls,
whatever levels are drawn and whether or not a call panics. -/
inductive Reachable : SortedSet → Prop
  | init (s0 : SortedSet) : Reachable (SortedSet.Init s0).2
  | add (s : SortedSet) (member : String) (rank : Int) (draws : Nat → Bool) :
      Reachable s → Reachable (s.Add member rank draws).2
  | remove (s : SortedSet) (member : String) :
      Reachable s → Reachable (s.Remove member).2

/-! ## Representation of the linked structure -/

/-- One live node as the abstraction sees it: where it is stored, what it
holds, and the highest level it is linked into. -/
structure Entry (μ : Type) where
  ptr : Nat
  key : Int
  vals : Option μ
  height : Nat

/-- Pointers of the entries linked into level `i`, in list order. -/
def chainOf (L : List (Entry μ)) (i : Nat) : List Nat :=
  (L.filter (fun e => decide (i ≤ e.height))).map Entry.ptr

/-- Following `Next[i]` from `p` visits exactly the nodes of the list and then
reaches nil. -/
def Chain (heap : List (Node μ)) (i : Nat) : Nat → List Nat → Prop
  | p, [] => nextAt heap p i = some none
  | p, q :: rest => nextAt heap p i = some (some q) ∧ Chain heap i q rest

/-- The last node of `p :: l`. -/
def lastFrom : Nat → List Nat → Nat
  | p, [] => p
  | _, q :: rest => lastFrom q rest

/-- The store of `s` holds the skip list whose live nodes, in ascending key
order, are `L`, with header `hdr`. -/
structure Rep (s : SkipList μ) (hdr : Nat) (L : List (Entry μ)) : Prop where
  header_eq : s.header = some hdr
  maxLevels_pos : 1 ≤ s.maxLevels
  size : L.length < s.heap.length
  nodup : (hdr :: L.map Entry.ptr).Nodup
  key_eq : ∀ e ∈ L, keyAt s.heap e.ptr = some e.key
  vals_eq : ∀ e ∈ L, valuesAt s.heap e.ptr = some e.vals
  height_lt : ∀ e ∈ L, (e.height : Int) < s.maxLevels
  sorted : L.Pairwise (fun a b => a.key < b.key)
  chain : ∀ i : Nat, (i : Int) < s.maxLevels → Chain s.heap i hdr (chainOf L i)
  level_ge : ∀ e ∈ L, (e.height : Int) ≤ s.currentLevel
  level_top : s.currentLevel = -1 ∨ ∃ e ∈ L, (e.height : Int) = s.currentLevel

/-- The live nodes split around `key`: `Lo` holds the smaller keys, `Hi` the
others, and every level below `M` is the chain of `Lo` followed by that of `Hi`. -/
structure Split (heap : List (Node μ)) (hdr : Nat) (key : Int) (M : Nat) (Lo Hi : List (Entry μ)) :
    Prop where
  chain : ∀ i : Nat, i < M → Chain heap i hdr (chainOf Lo i ++ chainOf Hi i)
  lo : ∀ e ∈ Lo, keyAt heap e.ptr = some e.key ∧ e.key < key
  hi : ∀ e ∈ Hi, keyAt heap e.ptr = some e.key ∧ key ≤ e.key
  size : Lo.length < heap.length

/-- Rightmost node of level `i` whose key is below the split key (the header if none). -/
def predAt (hdr : Nat) (Lo : List (Entry μ)) (i : Nat) : Nat := lastFrom hdr (chainOf Lo i)

/-- Highest level any entry is linked into; `-1` for no entries. -/
def maxHeight : List (Entry μ) → Int
  | [] => -1
  | e :: rest => max (e.height : Int) (maxHeight rest)

/-- Starting at `cur` and following `Next[i]` visits exactly the nodes of the list. -/
def Walk (heap : List (Node μ)) (i : Nat) : Option Nat → List Nat → Prop
  | cur, [] => cur = none
  | cur, p :: rest => cur = some p ∧ ∃ nx, nextAt heap p i = some nx ∧ Walk heap i nx rest

/-! ## Inspection of the structure and the facade invariant -/

/-- Pointers of the nodes linked into level `i`, in link order: the inner walk
of `DebugPrint` for row `i`. -/
def SkipList.levelNodes (s : SkipList μ) (i : Nat) : Except Fault (List Nat) :=
  match s.header with
  | none => .error .runtime
  | some hdr =>
    match nextAt s.heap hdr i with
    | none => .error .runtime
    | some cur => levelWalk s.heap i s.heap.length cur

/-- Read `Key` and `Values` of each listed node. -/
def readNodes (heap : List (Node μ)) : List Nat → Except Fault (List (Int × Option μ))
  | [] => .ok []
  | p :: rest =>
    match heap[p]? with
    | none => .error .runtime
    | some n =>
      match readNodes heap rest with
      | .error f => .error f
      | .ok l => .ok ((n.Key, n.Values) :: l)

/-- Key and member set of every node linked into level 0, in link order. -/
def SkipList.contents (s : SkipList μ) : Except Fault (List (Int × Option μ)) :=
  match s.levelNodes 0 with
  | .error f => .error f
  | .ok ps => readNodes s.heap ps

/-- Members held by the entries whose key is `r`. -/
def membersAt (L : List (Entry MapContent)) (r : Int) : List String :=
  fillMembers ((L.filter (fun e => decide (e.key = r))).map Entry.vals)

/-- Members held by the entries whose key lies in `[lo, hi)`, in list order. -/
def membersIn (L : List (Entry MapContent)) (lo hi : Int) : List String :=
  fillMembers ((L.filter (fun e => decide (lo ≤ e.key ∧ e.key < hi))).map Entry.vals)

/-- The sorted set `s` consists of the live nodes `L` and the dictionary `d`,
and the two agree. -/
structure Model (s : SortedSet) (hdr : Nat) (L : List (Entry MapContent)) (d : Dictionary) :
    Prop where
  mutex : s.rwMutex = some ()
  minKey : s.skiplist.minKey = 0
  rep : Rep s.skiplist hdr L
  dict_eq : s.dict = some d
  dict_nodup : (d.map Prod.fst).Nodup
  ranks : ∀ e ∈ L, 0 ≤ e.key
  members : ∀ e ∈ L, ∃ l, e.vals = some l ∧ l ≠ [] ∧ (l.map Prod.fst).Nodup
  agree : ∀ m r, assocLookup m d = some r ↔ m ∈ membersAt L r

/-! ## Concrete states used to instantiate the theorems -/

/-- Draws that never promote: every new node gets level 0. -/
def neverPromote : Nat → Bool := fun _ => false

/-- Draws that always promote: every new node gets the top level. -/
def alwaysPromote : Nat → Bool := fun _ => true

/-- A freshly initialised sorted set. -/
def fresh : SortedSet := (SortedSet.Init SortedSet.zero).2

/-- The set after `Add("Hello",5); Add("World",5); Add("World2",6)`. -/
def scenario : SortedSet :=
  (((fresh.Add "Hello" 5 neverPromote).2.Add "World" 5 alwaysPromote).2.Add
    "World2" 6 alwaysPromote).2

/-! ## Skip list: reachable states and inspection -/

/-- States of a skip list obtained from a successful `Init` by `AddOrModify`,
`SearchOrModify` and `DeleteOrModify` calls with any arguments, callbacks and
draws, whether or not a call panics. -/
inductive SkipList.Reachable : SkipList μ → Prop
  | init (s0 : SkipList μ) (maxLevels minKey : Int) :
      1 ≤ maxLevels → SkipList.Reachable (s0.Init maxLevels minKey).2
  | add {ε : Type} (s : SkipList μ) (key : Int) (value : Option μ)
      (modifier : Option (Modifier μ ε)) (env : ε) (draws : Nat → Bool) :
      SkipList.Reachable s →
      SkipList.Reachable (s.AddOrModify key value modifier env draws).2.1
  | search {ε : Type} (s : SkipList μ) (key : Int) (modifier : Option (Modifier μ ε)) (env : ε) :
      SkipList.Reachable s → SkipList.Reachable (s.SearchOrModify key modifier env).2.1
  | delete {ε : Type} (s : SkipList μ) (key : Int) (modifyOrDelete : Option (Decider μ ε))
      (env : ε) :
      SkipList.Reachable s → SkipList.Reachable (s.DeleteOrModify key modifyOrDelete env).2.1

/-- Inner loop of `DebugPrint`: the text written for the nodes of level `i`
from `current` on, each as `strconv.Itoa(current.Key) + ","`. -/
def debugRow (heap : List (Node μ)) (i : Nat) : Nat → Option Nat → Except Fault String
  | 0, _ => .error .fuel
  | _ + 1, none => .ok ""
  | fuel + 1, some p =>
    match keyAt heap p with
    | none => .error .runtime
    | some k =>
      match nextAt heap p i with
      | none => .error .runtime
      | some nx =>
        match debugRow heap i fuel nx with
        | .error f => .error f
        | .ok rest => .ok (toString k ++ "," ++ rest)

/-- Outer loop of `DebugPrint`: rows `i, i+1, ..` for `n` levels. -/
def debugRows (s : SkipList μ) : Nat → Nat → Except Fault (List String)
  | 0, _ => .ok []
  | n + 1, i =>
    match s.header with
    | none => .error .runtime
    | some hdr =>
      match nextAt s.heap hdr i with
      | none => .error .runtime
      | some current =>
        match debugRow s.heap i s.heap.length current with
        | .error f => .error f
        | .ok body =>
          match debugRows s n (i + 1) with
          | .error f => .error f
          | .ok rest => .ok ((toString i ++ ":" ++ body) :: rest)

/-- Source `SkipList.DebugPrint`. -/
def SkipList.DebugPrint (s : SkipList μ) : Except Fault (List String) :=
  if s.currentLevel + 1 < 0 then .error .runtime
  else debugRows s (s.currentLevel + 1).toNat 0

/-- Text of a list of keys as `DebugPrint` writes it. -/
def renderKeys : List Int → String
  | [] => ""
  | k :: rest => toString k ++ "," ++ renderKeys rest

/-- Value bound to key `k` in a list of (key, value) pairs. -/
def lookupKey (k : Int) : List (Int × Option μ) → Option (Option μ)
  | [] => none
  | (k1, v1) :: rest => if k1 = k then some v1 else lookupKey k rest

/-- Keys and member sets of the nodes linked into level `i`, in link order. -/
def SkipList.levelContents (s : SkipList μ) (i : Nat) : Except Fault (List (Int × Option μ)) :=
  match s.levelNodes i with
  | .error f => .error f
  | .ok ps => readNodes s.heap ps

/-- The list of the `DebugPrint` test: `Init(1, 0.5, 0)` and keys 5, 6, 7. -/
def debugList : SkipList MapContent :=
  ((((SkipList.zero.Init 1 0).2.AddOrModify 5 (some [("p", true)])
    (none : Option (Modifier MapContent Unit)) () alwaysPromote).2.1.AddOrModify 6
        (some [("p", true)])
    (none : Option (Modifier MapContent Unit)) () alwaysPromote).2.1.AddOrModify 7
        (some [("p", true)])
    (none : Option (Modifier MapContent Unit)) () alwaysPromote).2.1

/-- Draws that promote three times and then stop. -/
def promoteThrice : Nat → Bool := fun n => decide (n < 3)

/-- A list with five levels holding key 5 (linked into levels 0..3) and key 6
(level 0 only). -/
def tallList : SkipList MapContent :=
  (((SkipList.zero.Init 5 0).2.AddOrModify 5 (some [("a", true)])
    (none : Option (Modifier MapContent Unit)) () promoteThrice).2.1.AddOrModify 6
        (some [("b", true)])
    (none : Option (Modifier MapContent Unit)) () neverPromote).2.1

/-! ## Sequences of calls on the sorted set -/

/-- One call of the public interface of the sorted set, with its arguments. -/
inductive Call where
  | Add (member : String) (rank : Int)
  | Remove (member : String)
  | Get (rank : Int)
  | GetRange (rankMin rankMax : Int)
  | Exists (member : String)
  | GetRank (member : String)

/-- The arguments meet the preconditions of the call: a rank that is not
negative for `Add` and `Get`, and `0 ≤ rankMin < rankMax` for `GetRange`. -/
def Call.valid : Call → Bool
  | .Add _ rank => decide (0 ≤ rank)
  | .Remove _ => true
  | .Get rank => decide (0 ≤ rank)
  | .GetRange rankMin rankMax => decide (0 ≤ rankMin ∧ rankMin < rankMax)
  | .Exists _ => true
  | .GetRank _ => true

/-- What a call hands back to its caller: the returned value, or the panic. -/
inductive Reply where
  | flag (r : Except Fault Bool)
  | rank (r : Except Fault Int)
  | members (r : Except Fault (List String))

/-- The call returned a value (it did not panic). -/
def Reply.returned : Reply → Bool
  | .flag (.ok _) => true
  | .rank (.ok _) => true
  | .members (.ok _) => true
  | _ => false

/-- Runs one call on `s`; `draws` are the random draws `generateRandLevel`
sees if the call inserts a node. -/
def SortedSet.call (s : SortedSet) (draws : Nat → Bool) : Call → Reply × SortedSet
  | .Add member rank => (.flag (s.Add member rank draws).1, (s.Add member rank draws).2)
  | .Remove member => (.flag (s.Remove member).1, (s.Remove member).2)
  | .Get rank => (.members (s.Get rank).1, (s.Get rank).2)
  | .GetRange rankMin rankMax =>
    (.members (s.GetRange rankMin rankMax).1, (s.GetRange rankMin rankMax).2)
  | .Exists member => (.flag (s.Exists member).1, (s.Exists member).2)
  | .GetRank member => (.rank (s.GetRank member).1, (s.GetRank member).2)

/-- Runs the calls in order from `s` and collects what each one hands back;
`levels n` are the draws seen by the `n`-th call. -/
def SortedSet.run (s : SortedSet) : List Call → (Nat → Nat → Bool) → List Reply
  | [], _ => []
  | c :: cs, levels =>
    (s.call (levels 0) c).1 :: SortedSet.run (s.call (levels 0) c).2 cs (fun n => levels (n + 1))

/-- The state a run of the calls from `s` ends in. -/
def SortedSet.runState (s : SortedSet) : List Call → (Nat → Nat → Bool) → SortedSet
  | [], _ => s
  | c :: cs, levels =>
    SortedSet.runState (s.call (levels 0) c).2 cs (fun n => levels (n + 1))

/-- Two sorted sets hold the same members under the same ranks, whatever the
shapes of their skip lists. -/
def SameMembers (s1 s2 : SortedSet) : Prop :=
  ∃ hdr1 L1 hdr2 L2 d, Model s1 hdr1 L1 d ∧ Model s2 hdr2 L2 d ∧
    ∀ r, membersAt L1 r = membersAt L2 r

/-- The calls of the usage example, followed by a removal and more reads. -/
def sampleCalls : List Call :=
  [.Add "Hello" 5, .Add "World" 5, .Add "World2" 6, .Add "World" 9, .Get 5, .GetRange 5 7,
    .Exists "World", .GetRank "World2", .Remove "Hello", .Remove "Hello", .Get 5,
    .GetRange 0 10, .GetRank "Hello"]

/-! ## Maps as shared objects -/

/-- The `map[string]bool` objects of the program, by address: `store[a]` is the
content of the map at address `a`.  A `map[string]bool` value is `some a`, or
`none` for the nil map; copying the value copies the address, not the content. -/
abbrev MapStore := List MapContent

/-- Content of the map a value of type `map[string]bool` denotes. -/
def readMap (store : MapStore) : Option Nat → MemberMap
  | none => none
  | some a => store[a]?

/-- A write to the map object at address `a`: its content `m` becomes `f m`,
for every holder of the address. -/
def writeMap (store : MapStore) (a : Nat) (f : MapContent → MapContent) : MapStore :=
  match store[a]? with
  | none => store
  | some m => store.set a (f m)

/-- The skip list read as a finite map from keys to the contents of the maps
its level-0 nodes hold. -/
def SkipList.mapContents (s : SkipList Nat) (store : MapStore) :
    Except Fault (List (Int × MemberMap)) :=
  match s.contents with
  | .error f => .error f
  | .ok nodes => .ok (nodes.map (fun kv => (kv.1, readMap store kv.2)))

/-- The callback `func(v map[string]bool) map[string]bool { v["z"] = true; return v }`,
of the shape `SortedSet.Add` and the tests `ModificationInSearch` and
`ModificationInAddition` pass: it writes to the map it is given (a panic when
that map is nil) and returns that map. -/
def writeZ : Modifier Nat MapStore := fun v store =>
  match v with
  | none => (.error .runtime, store)
  | some a => (.ok (some a), writeMap store a (assocSet "z" true))

/-- The callback `func(v map[string]bool) (bool, map[string]bool) { delete(v, "p");
return shouldDelete, v }`, of the shape the test `ModificationInDeletion` passes. -/
def dropP (shouldDelete : Bool) : Decider Nat MapStore := fun v store =>
  match v with
  | none => (.ok (shouldDelete, none), store)
  | some a => (.ok (shouldDelete, some a), writeMap store a (assocDelete "p"))

/-- A callback that writes `v["z"] = true` and then panics at run time. -/
def writeZThenPanic : Modifier Nat MapStore := fun v store =>
  match v with
  | none => (.error .runtime, store)
  | some a => (.error .runtime, writeMap store a (assocSet "z" true))

/-- A decider that writes `v["z"] = true` and then panics at run time. -/
def decideZThenPanic : Decider Nat MapStore := fun v store =>
  match v with
  | none => (.error .runtime, store)
  | some a => (.error .runtime, writeMap store a (assocSet "z" true))

/-- One map object, `m := map[string]bool{"p": true}`, at address 0. -/
def sharedStore : MapStore := [[("p", true)]]

/-- The list after `Init(5, 0.5, 0); AddOrModify(5, m, nil); AddOrModify(6, m, nil);
AddOrModify(7, nil, nil)`: keys 5 and 6 hold the same map `m`, key 7 holds the nil map. -/
def sharedList : SkipList Nat :=
  ((((SkipList.zero.Init 5 0).2.AddOrModify 5 (some 0)
    (none : Option (Modifier Nat MapStore)) sharedStore neverPromote).2.1.AddOrModify 6 (some 0)
    (none : Option (Modifier Nat MapStore)) sharedStore alwaysPromote).2.1.AddOrModify 7 none
    (none : Option (Modifier Nat MapStore)) sharedStore neverPromote).2.1

/-! # Properties -/

/-! ## Store lemmas -/

theorem nextAt_isSome_lt {heap : List (Node μ)} {p i : Nat} {v : Option Nat}
    (h : nextAt heap p i = some v) : p < heap.length := by
  unfold nextAt at h
  cases hp : heap[p]? with
  | none => simp [hp] at h
  | some n => exact (List.getElem?_eq_some.mp hp).1

theorem keyAt_isSome_lt {heap : List (Node μ)} {p : Nat} {k : Int}
    (h : keyAt heap p = some k) : p < heap.length := by
  unfold keyAt at h
  cases hp : heap[p]? with
  | none => simp [hp] at h
  | some n => exact (List.getElem?_eq_some.mp hp).1

theorem setNext_some {heap : List (Node μ)} {p i : Nat} {w : Option Nat} (v : Option Nat)
    (h : nextAt heap p i = some w) : ∃ heap1, setNext heap p i v = some heap1 := by
  unfold nextAt at h
  unfold setNext
  cases hp : heap[p]? with
  | none => simp [hp] at h
  | some n =>
    simp only [hp] at h
    have hi : i < n.Next.length := (List.getElem?_eq_some.mp h).1
    simp [hi]

theorem setNext_length {heap heap1 : List (Node μ)} {p i : Nat} {v : Option Nat}
    (h : setNext heap p i v = some heap1) : heap1.length = heap.length := by
  unfold setNext at h
  cases hp : heap[p]? with
  | none => simp [hp] at h
  | some n =>
    simp only [hp] at h
    split at h
    · cases h; simp
    · cases h

theorem nextAt_setNext {heap heap1 : List (Node μ)} {p i : Nat} {v : Option Nat}
    (h : setNext heap p i v = some heap1) (q j : Nat) :
    nextAt heap1 q j = if q = p ∧ j = i then some v else nextAt heap q j := by
  unfold setNext at h
  cases hp : heap[p]? with
  | none => simp [hp] at h
  | some n =>
    simp only [hp] at h
    split at h
    · rename_i hi
      cases h
      have hpl : p < heap.length := (List.getElem?_eq_some.mp hp).1
      unfold nextAt
      by_cases hq : q = p
      · subst hq
        simp only [List.getElem?_set_self hpl, true_and]
        by_cases hj : j = i
        · subst hj; simp [List.getElem?_set_self hi]
        · simp [hj, hp, List.getElem?_set_ne (Ne.symm hj)]
      · simp [hq, List.getElem?_set_ne (Ne.symm hq)]
    · cases h

theorem keyAt_setNext {heap heap1 : List (Node μ)} {p i : Nat} {v : Option Nat}
    (h : setNext heap p i v = some heap1) (q : Nat) : keyAt heap1 q = keyAt heap q := by
  unfold setNext at h
  cases hp : heap[p]? with
  | none => simp [hp] at h
  | some n =>
    simp only [hp] at h
    split at h
    · cases h
      have hpl : p < heap.length := (List.getElem?_eq_some.mp hp).1
      unfold keyAt
      by_cases hq : q = p
      · subst hq; simp [List.getElem?_set_self hpl, hp]
      · simp [List.getElem?_set_ne (Ne.symm hq)]
    · cases h

theorem valuesAt_setNext {heap heap1 : List (Node μ)} {p i : Nat} {v : Option Nat}
    (h : setNext heap p i v = some heap1) (q : Nat) : valuesAt heap1 q = valuesAt heap q := by
  unfold setNext at h
  cases hp : heap[p]? with
  | none => simp [hp] at h
  | some n =>
    simp only [hp] at h
    split at h
    · cases h
      have hpl : p < heap.length := (List.getElem?_eq_some.mp hp).1
      unfold valuesAt
      by_cases hq : q = p
      · subst hq; simp [List.getElem?_set_self hpl, hp]
      · simp [List.getElem?_set_ne (Ne.symm hq)]
    · cases h

theorem nextAt_setValues {heap heap1 : List (Node μ)} {p : Nat} {v : Option μ}
    (h : setValues heap p v = some heap1) (q j : Nat) : nextAt heap1 q j = nextAt heap q j := by
  unfold setValues at h
  cases hp : heap[p]? with
  | none => simp [hp] at h
  | some n =>
    simp only [hp] at h
    cases h
    have hpl : p < heap.length := (List.getElem?_eq_some.mp hp).1
    unfold nextAt
    by_cases hq : q = p
    · subst hq; simp [List.getElem?_set_self hpl, hp]
    · simp [List.getElem?_set_ne (Ne.symm hq)]

theorem keyAt_setValues {heap heap1 : List (Node μ)} {p : Nat} {v : Option μ}
    (h : setValues heap p v = some heap1) (q : Nat) : keyAt heap1 q = keyAt heap q := by
  unfold setValues at h
  cases hp : heap[p]? with
  | none => simp [hp] at h
  | some n =>
    simp only [hp] at h
    cases h
    have hpl : p < heap.length := (List.getElem?_eq_some.mp hp).1
    unfold keyAt
    by_cases hq : q = p
    · subst hq; simp [List.getElem?_set_self hpl, hp]
    · simp [List.getElem?_set_ne (Ne.symm hq)]

theorem valuesAt_setValues {heap heap1 : List (Node μ)} {p : Nat} {v : Option μ}
    (h : setValues heap p v = some heap1) (q : Nat) :
    valuesAt heap1 q = if q = p then some v else valuesAt heap q := by
  unfold setValues at h
  cases hp : heap[p]? with
  | none => simp [hp] at h
  | some n =>
    simp only [hp] at h
    cases h
    have hpl : p < heap.length := (List.getElem?_eq_some.mp hp).1
    unfold valuesAt
    by_cases hq : q = p
    · subst hq; simp [List.getElem?_set_self hpl]
    · simp [hq, List.getElem?_set_ne (Ne.symm hq)]

theorem setValues_length {heap heap1 : List (Node μ)} {p : Nat} {v : Option μ}
    (h : setValues heap p v = some heap1) : heap1.length = heap.length := by
  unfold setValues at h
  cases hp : heap[p]? with
  | none => simp [hp] at h
  | some n => simp only [hp] at h; cases h; simp

theorem setValues_some {heap : List (Node μ)} {p : Nat} {w : Option μ} (v : Option μ)
    (h : valuesAt heap p = some w) : ∃ heap1, setValues heap p v = some heap1 := by
  unfold valuesAt at h
  unfold setValues
  cases hp : heap[p]? with
  | none => simp [hp] at h
  | some n => simp

theorem nextAt_append_old {heap : List (Node μ)} (n : Node μ) {p : Nat} (i : Nat)
    (hp : p < heap.length) : nextAt (heap ++ [n]) p i = nextAt heap p i := by
  unfold nextAt
  rw [List.getElem?_append_left hp]

theorem keyAt_append_old {heap : List (Node μ)} (n : Node μ) {p : Nat}
    (hp : p < heap.length) : keyAt (heap ++ [n]) p = keyAt heap p := by
  unfold keyAt
  rw [List.getElem?_append_left hp]

theorem valuesAt_append_old {heap : List (Node μ)} (n : Node μ) {p : Nat}
    (hp : p < heap.length) : valuesAt (heap ++ [n]) p = valuesAt heap p := by
  unfold valuesAt
  rw [List.getElem?_append_left hp]

theorem getElem?_append_new (heap : List (Node μ)) (n : Node μ) :
    (heap ++ [n])[heap.length]? = some n := by
  simp

theorem valuesAt_isSome_lt {heap : List (Node μ)} {p : Nat} {v : Option μ}
    (h : valuesAt heap p = some v) : p < heap.length := by
  unfold valuesAt at h
  cases hp : heap[p]? with
  | none => simp [hp] at h
  | some n => exact (List.getElem?_eq_some.mp hp).1

/-! ### Chains -/

theorem chainOf_nil (i : Nat) : chainOf ([] : List (Entry μ)) i = [] := rfl

theorem chainOf_append (A B : List (Entry μ)) (i : Nat) :
    chainOf (A ++ B) i = chainOf A i ++ chainOf B i := by
  simp [chainOf]

theorem chainOf_cons (e : Entry μ) (B : List (Entry μ)) (i : Nat) :
    chainOf (e :: B) i = if i ≤ e.height then e.ptr :: chainOf B i else chainOf B i := by
  by_cases h : i ≤ e.height <;> simp [chainOf, List.filter_cons, h]

theorem mem_chainOf {L : List (Entry μ)} {i q : Nat} :
    q ∈ chainOf L i ↔ ∃ e ∈ L, i ≤ e.height ∧ e.ptr = q := by
  simp [chainOf, and_assoc]

theorem chainOf_sublist (L : List (Entry μ)) (i : Nat) :
    (chainOf L i).Sublist (L.map Entry.ptr) := by
  unfold chainOf
  exact List.Sublist.map _ (List.filter_sublist _)

theorem chainOf_length_le (L : List (Entry μ)) (i : Nat) : (chainOf L i).length ≤ L.length := by
  have := (chainOf_sublist L i).length_le
  simpa using this

theorem chainOf_eq_nil_of_lt {L : List (Entry μ)} {i : Nat} (h : ∀ e ∈ L, e.height < i) :
    chainOf L i = [] := by
  unfold chainOf
  rw [List.map_eq_nil_iff, List.filter_eq_nil_iff]
  intro e he
  have := h e he
  simp; omega

theorem lastFrom_mem (p : Nat) (l : List Nat) : lastFrom p l ∈ p :: l := by
  induction l generalizing p with
  | nil => simp [lastFrom]
  | cons q rest ih =>
    have := ih q
    simp only [lastFrom]
    exact List.mem_cons_of_mem _ this

theorem lastFrom_append (p : Nat) (A B : List Nat) :
    lastFrom p (A ++ B) = lastFrom (lastFrom p A) B := by
  induction A generalizing p with
  | nil => rfl
  | cons q rest ih => simpa [lastFrom] using ih q

theorem Chain.lt_length {heap : List (Node μ)} {i p : Nat} {l : List Nat}
    (h : Chain heap i p l) : ∀ q ∈ p :: l, q < heap.length := by
  induction l generalizing p with
  | nil =>
    intro q hq
    simp at hq; subst hq
    exact nextAt_isSome_lt h
  | cons a rest ih =>
    intro q hq
    rcases List.mem_cons.mp hq with rfl | hq
    · exact nextAt_isSome_lt h.1
    · exact ih h.2 q hq

theorem Chain.frame {heap heap1 : List (Node μ)} {i p : Nat} {l : List Nat}
    (h : Chain heap i p l) (hf : ∀ q ∈ p :: l, nextAt heap1 q i = nextAt heap q i) :
    Chain heap1 i p l := by
  induction l generalizing p with
  | nil =>
    show nextAt heap1 p i = some none
    rw [hf p (by simp)]; exact h
  | cons a rest ih =>
    refine ⟨?_, ih h.2 (fun q hq => hf q (List.mem_cons_of_mem _ hq))⟩
    rw [hf p (by simp)]; exact h.1

theorem Chain.next_last {heap : List (Node μ)} {i p : Nat} {A B : List Nat}
    (h : Chain heap i p (A ++ B)) : nextAt heap (lastFrom p A) i = some B.head? := by
  induction A generalizing p with
  | nil =>
    cases B with
    | nil => exact h
    | cons b B1 => exact h.1
  | cons a rest ih => exact ih h.2

theorem Chain.tail {heap : List (Node μ)} {i p : Nat} {A B : List Nat}
    (h : Chain heap i p (A ++ B)) : Chain heap i (lastFrom p A) B := by
  induction A generalizing p with
  | nil => exact h
  | cons a rest ih => exact ih h.2

/-- Linking `node` in after the last node of `p :: A`. -/
theorem Chain.insert {heap heap1 : List (Node μ)} {i p node : Nat} {A B : List Nat}
    (h : Chain heap i p (A ++ B)) (hnd : (p :: (A ++ B)).Nodup) (hfresh : node ∉ p :: (A ++ B))
    (h1 : nextAt heap1 (lastFrom p A) i = some (some node))
    (h2 : nextAt heap1 node i = some B.head?)
    (hf : ∀ q, q ≠ lastFrom p A → q ≠ node → nextAt heap1 q i = nextAt heap q i) :
    Chain heap1 i p (A ++ node :: B) := by
  induction A generalizing p with
  | nil =>
    simp only [lastFrom, List.nil_append] at h1 h hnd hfresh ⊢
    refine ⟨h1, ?_⟩
    cases B with
    | nil => exact h2
    | cons b B1 =>
      refine ⟨h2, ?_⟩
      refine Chain.frame h.2 ?_
      intro q hq
      apply hf
      · simp only [lastFrom]
        rintro rfl
        exact (List.nodup_cons.mp hnd).1 hq
      · rintro rfl
        exact hfresh (List.mem_cons_of_mem _ hq)
  | cons a rest ih =>
    simp only [lastFrom, List.cons_append] at h1 h hnd hfresh hf ⊢
    refine ⟨?_, ih h.2 (List.nodup_cons.mp hnd).2 (fun hm => hfresh (List.mem_cons_of_mem _ hm)) h1
        hf⟩
    rw [hf p ?_ ?_]
    · exact h.1
    · intro hp
      have hm : lastFrom a rest ∈ a :: rest := lastFrom_mem a rest
      have hm2 : lastFrom a rest ∈ a :: (rest ++ B) := by
        rcases List.mem_cons.mp hm with hx | hx
        · rw [hx]; simp
        · exact List.mem_cons_of_mem _ (List.mem_append_left _ hx)
      rw [← hp] at hm2
      exact (List.nodup_cons.mp hnd).1 hm2
    · rintro rfl
      exact hfresh (by simp)

/-- Bypassing the node `d` that follows the last node of `p :: A`. -/
theorem Chain.remove {heap heap1 : List (Node μ)} {i p d : Nat} {A B : List Nat}
    (h : Chain heap i p (A ++ d :: B)) (hnd : (p :: (A ++ d :: B)).Nodup)
    (h1 : nextAt heap1 (lastFrom p A) i = some B.head?)
    (hf : ∀ q, q ≠ lastFrom p A → nextAt heap1 q i = nextAt heap q i) :
    Chain heap1 i p (A ++ B) := by
  induction A generalizing p with
  | nil =>
    simp only [lastFrom, List.nil_append] at h1 h hnd hf ⊢
    cases B with
    | nil => exact h1
    | cons b B1 =>
      refine ⟨h1, ?_⟩
      refine Chain.frame h.2.2 ?_
      intro q hq
      apply hf
      rintro rfl
      exact (List.nodup_cons.mp hnd).1 (List.mem_cons_of_mem _ hq)
  | cons a rest ih =>
    simp only [lastFrom, List.cons_append] at h1 h hnd hf ⊢
    refine ⟨?_, ih h.2 (List.nodup_cons.mp hnd).2 h1 hf⟩
    rw [hf p ?_]
    · exact h.1
    · intro hp
      have hm : lastFrom a rest ∈ a :: rest := lastFrom_mem a rest
      have hm2 : lastFrom a rest ∈ a :: (rest ++ d :: B) := by
        rcases List.mem_cons.mp hm with hx | hx
        · rw [hx]; simp
        · exact List.mem_cons_of_mem _ (List.mem_append_left _ hx)
      rw [← hp] at hm2
      exact (List.nodup_cons.mp hnd).1 hm2

/-! ### The descent -/

theorem advance_from_mem {heap : List (Node μ)} {i : Nat} {key : Int} {A B : List Nat}
    {p0 q fuel : Nat}
    (h : Chain heap i p0 (A ++ B))
    (hA : ∀ a ∈ A, ∃ k, keyAt heap a = some k ∧ k < key)
    (hB : ∀ b, B.head? = some b → ∃ k, keyAt heap b = some k ∧ ¬ k < key)
    (hq : q ∈ p0 :: A) (hfuel : A.length < fuel) :
    advance heap i key fuel q = .ok (lastFrom p0 A) := by
  induction A generalizing p0 q fuel with
  | nil =>
    simp only [List.mem_singleton] at hq
    subst hq
    cases fuel with
    | zero => simp at hfuel
    | succ f =>
      have hn : nextAt heap q i = some B.head? := Chain.next_last (A := []) h
      unfold advance
      rw [hn]
      cases hb : B.head? with
      | none => rfl
      | some b =>
        obtain ⟨k, hk, hlt⟩ := hB b hb
        simp [hk, hlt, lastFrom]
  | cons a rest ih =>
    cases fuel with
    | zero => simp at hfuel
    | succ f =>
      have hrest : ∀ x ∈ rest, ∃ k, keyAt heap x = some k ∧ k < key :=
        fun x hx => hA x (List.mem_cons_of_mem _ hx)
      have hlen : rest.length < f := by simp at hfuel; omega
      rcases List.mem_cons.mp hq with rfl | hq
      · obtain ⟨k, hk, hlt⟩ := hA a (by simp)
        unfold advance
        rw [h.1]
        simp only [hk, hlt, if_true, lastFrom]
        exact ih h.2 hrest (by simp) hlen
      · simp only [lastFrom]
        exact ih h.2 hrest hq (by omega)

theorem chainOf_succ_subset {L : List (Entry μ)} {i q : Nat} (h : q ∈ chainOf L (i + 1)) :
    q ∈ chainOf L i := by
  obtain ⟨e, he, hh, hp⟩ := mem_chainOf.mp h
  exact mem_chainOf.mpr ⟨e, he, by omega, hp⟩

theorem predAt_succ_mem (hdr : Nat) (Lo : List (Entry μ)) (i : Nat) :
    predAt hdr Lo (i + 1) ∈ hdr :: chainOf Lo i := by
  have h := lastFrom_mem hdr (chainOf Lo (i + 1))
  rcases List.mem_cons.mp h with h | h
  · unfold predAt; rw [h]; simp
  · exact List.mem_cons_of_mem _ (chainOf_succ_subset h)

theorem Split.lo_keys {heap : List (Node μ)} {hdr : Nat} {key : Int} {M : Nat}
    {Lo Hi : List (Entry μ)}
    (sp : Split heap hdr key M Lo Hi) (i : Nat) :
    ∀ a ∈ chainOf Lo i, ∃ k, keyAt heap a = some k ∧ k < key := by
  intro a ha
  obtain ⟨e, he, _, hp⟩ := mem_chainOf.mp ha
  subst hp
  exact ⟨e.key, sp.lo e he⟩

theorem Split.hi_head {heap : List (Node μ)} {hdr : Nat} {key : Int} {M : Nat}
    {Lo Hi : List (Entry μ)}
    (sp : Split heap hdr key M Lo Hi) (i : Nat) :
    ∀ b, (chainOf Hi i).head? = some b → ∃ e ∈ Hi, e.ptr = b ∧ keyAt heap b = some e.key ∧
      key ≤ e.key := by
  intro b hb
  have hm : b ∈ chainOf Hi i := List.mem_of_mem_head? hb
  obtain ⟨e, he, _, hp⟩ := mem_chainOf.mp hm
  subst hp
  exact ⟨e, he, rfl, (sp.hi e he).1, (sp.hi e he).2⟩

theorem Split.advance_eq {heap : List (Node μ)} {hdr : Nat} {key : Int} {M : Nat}
    {Lo Hi : List (Entry μ)}
    (sp : Split heap hdr key M Lo Hi) {i : Nat} (hi : i < M) :
    advance heap i key heap.length (predAt hdr Lo (i + 1)) = .ok (predAt hdr Lo i) := by
  refine advance_from_mem (sp.chain i hi) (sp.lo_keys i) ?_ (predAt_succ_mem hdr Lo i) ?_
  · intro b hb
    obtain ⟨e, _, _, hk, hle⟩ := sp.hi_head i b hb
    exact ⟨e.key, hk, by omega⟩
  · have := chainOf_length_le Lo i
    have := sp.size
    omega

theorem Split.next_pred {heap : List (Node μ)} {hdr : Nat} {key : Int} {M : Nat}
    {Lo Hi : List (Entry μ)}
    (sp : Split heap hdr key M Lo Hi) {i : Nat} (hi : i < M) :
    nextAt heap (predAt hdr Lo i) i = some (chainOf Hi i).head? :=
  Chain.next_last (sp.chain i hi)

theorem Split.descendAdd_eq {heap : List (Node μ)} {hdr : Nat} {key : Int} {M : Nat}
    {Lo Hi : List (Entry μ)} (sp : Split heap hdr key M Lo Hi) (n : Nat) (hn : n ≤ M)
    (ua : List (Option Nat)) (hua : ua.length = M) :
    ∃ ua1, descendAdd heap key n (predAt hdr Lo n) ua = .ok (predAt hdr Lo 0, ua1) ∧
      ua1.length = M ∧
      ∀ j, ua1[j]? = if j < n then some (some (predAt hdr Lo j)) else ua[j]? := by
  induction n generalizing ua with
  | zero => exact ⟨ua, rfl, hua, fun j => by simp⟩
  | succ n ih =>
    obtain ⟨ua1, h1, h2, h3⟩ := ih (by omega) (ua.set n (some (predAt hdr Lo n)))
        (by simpa using hua)
    refine ⟨ua1, ?_, h2, ?_⟩
    · unfold descendAdd
      rw [sp.advance_eq (by omega)]
      simp only
      rw [if_pos (by omega)]
      exact h1
    · intro j
      rw [h3 j]
      by_cases hj : j < n
      · simp [hj, Nat.lt_succ_of_lt hj]
      · by_cases hj2 : j = n
        · subst hj2
          simp [List.getElem?_set_self (by omega : j < ua.length)]
        · have : ¬ j < n + 1 := by omega
          simp [hj, this, List.getElem?_set_ne (Ne.symm hj2)]

theorem Split.descend_eq {heap : List (Node μ)} {hdr : Nat} {key : Int} {M : Nat}
    {Lo Hi : List (Entry μ)} (sp : Split heap hdr key M Lo Hi) (n : Nat) (hn : n ≤ M) :
    descend heap key n (predAt hdr Lo n) = .ok (predAt hdr Lo 0) := by
  induction n with
  | zero => rfl
  | succ n ih =>
    unfold descend
    rw [sp.advance_eq (by omega)]
    exact ih (by omega)

theorem Split.probe_absent {heap : List (Node μ)} {hdr : Nat} {key : Int} {M : Nat}
    {Lo Hi : List (Entry μ)} (sp : Split heap hdr key M Lo Hi) (hgt : ∀ x ∈ Hi, key < x.key)
    {i : Nat} (hi : i < M) :
    nextAt heap (predAt hdr Lo i) i = some none ∨
      ∃ b k, nextAt heap (predAt hdr Lo i) i = some (some b) ∧ keyAt heap b = some k ∧ key < k := by
  rw [sp.next_pred hi]
  cases hb : (chainOf Hi i).head? with
  | none => exact Or.inl rfl
  | some b =>
    obtain ⟨e, he, _, hk, _⟩ := sp.hi_head i b hb
    exact Or.inr ⟨b, e.key, rfl, hk, hgt e he⟩

theorem Split.probe_present {heap : List (Node μ)} {hdr : Nat} {key : Int} {M : Nat}
    {Lo Hi : List (Entry μ)} {e : Entry μ} (sp : Split heap hdr key M Lo (e :: Hi))
    (hkey : e.key = key) (hgt : ∀ x ∈ Hi, key < x.key) {i : Nat} (hi : i < M) :
    (i ≤ e.height ∧ nextAt heap (predAt hdr Lo i) i = some (some e.ptr) ∧
        keyAt heap e.ptr = some key) ∨
    (¬ i ≤ e.height ∧ (nextAt heap (predAt hdr Lo i) i = some none ∨
      ∃ b k, nextAt heap (predAt hdr Lo i) i = some (some b) ∧ keyAt heap b = some k ∧
        key < k)) := by
  rw [sp.next_pred hi]
  by_cases hh : i ≤ e.height
  · left
    refine ⟨hh, by simp [chainOf_cons, hh], ?_⟩
    rw [← hkey]; exact (sp.hi e (by simp)).1
  · right
    refine ⟨hh, ?_⟩
    simp only [chainOf_cons, hh, if_false]
    cases hb : (chainOf Hi i).head? with
    | none => exact Or.inl rfl
    | some b =>
      have hm : b ∈ chainOf Hi i := List.mem_of_mem_head? hb
      obtain ⟨x, hx, _, hp⟩ := mem_chainOf.mp hm
      subst hp
      exact Or.inr ⟨x.ptr, x.key, rfl, (sp.hi x (List.mem_cons_of_mem _ hx)).1, hgt x hx⟩

theorem Split.descendDelete_absent {heap : List (Node μ)} {hdr : Nat} {key : Int} {M : Nat}
    {Lo Hi : List (Entry μ)} (sp : Split heap hdr key M Lo Hi) (hgt : ∀ x ∈ Hi, key < x.key)
    (n : Nat) (hn : n ≤ M) (ua : List (Option Nat)) (nd : Option Nat) :
    descendDelete heap key n (predAt hdr Lo n) ua nd = .ok (ua, nd) := by
  induction n with
  | zero => rfl
  | succ n ih =>
    unfold descendDelete
    rw [sp.advance_eq (by omega)]
    simp only
    rcases sp.probe_absent hgt (by omega : n < M) with h | ⟨b, k, h, hk, hlt⟩
    · rw [h]; exact ih (by omega)
    · rw [h]
      simp only [hk]
      rw [if_neg (by omega)]
      exact ih (by omega)

theorem Split.descendDelete_present {heap : List (Node μ)} {hdr : Nat} {key : Int} {M : Nat}
    {Lo Hi : List (Entry μ)} {e : Entry μ} (sp : Split heap hdr key M Lo (e :: Hi))
    (hkey : e.key = key) (hgt : ∀ x ∈ Hi, key < x.key)
    (n : Nat) (hn : n ≤ M) (ua : List (Option Nat)) (hua : ua.length = M) (nd : Option Nat) :
    ∃ ua1, descendDelete heap key n (predAt hdr Lo n) ua nd =
        .ok (ua1, if n = 0 then nd else some e.ptr) ∧
      ua1.length = M ∧
      ∀ j, ua1[j]? = if j < n ∧ j ≤ e.height then some (some (predAt hdr Lo j)) else ua[j]? := by
  induction n generalizing ua nd with
  | zero => exact ⟨ua, rfl, hua, fun j => by simp⟩
  | succ n ih =>
    rcases sp.probe_present hkey hgt (by omega : n < M) with ⟨hh, h, hk⟩ | ⟨hh, h⟩
    · obtain ⟨ua1, h1, h2, h3⟩ := ih (by omega) (ua.set n (some (predAt hdr Lo n)))
        (by simpa using hua) (some e.ptr)
      refine ⟨ua1, ?_, h2, ?_⟩
      · unfold descendDelete
        rw [sp.advance_eq (by omega)]
        simp only [h, hk, if_true]
        rw [if_pos (by omega), h1]
        simp
      · intro j
        rw [h3 j]
        by_cases hj : j < n
        · have hjn : j ≠ n := by omega
          simp [hj, Nat.lt_succ_of_lt hj, List.getElem?_set_ne (Ne.symm hjn)]
        · by_cases hj2 : j = n
          · subst hj2
            simp [hh, List.getElem?_set_self (by omega : j < ua.length)]
          · have : ¬ j < n + 1 := by omega
            simp [hj, this, List.getElem?_set_ne (Ne.symm hj2)]
    · have hn0 : n ≠ 0 := by omega
      obtain ⟨ua1, h1, h2, h3⟩ := ih (by omega) ua hua nd
      refine ⟨ua1, ?_, h2, ?_⟩
      · unfold descendDelete
        rw [sp.advance_eq (by omega)]
        simp only
        rcases h with h | ⟨b, k, h, hk, hlt⟩
        · rw [h]; simp only; rw [h1]; simp [hn0]
        · rw [h]
          simp only [hk]
          rw [if_neg (by omega), h1]
          simp [hn0]
      · intro j
        rw [h3 j]
        by_cases hj : j < n
        · simp [hj, Nat.lt_succ_of_lt hj]
        · have : ¬ (j < n + 1 ∧ j ≤ e.height) := by omega
          simp [hj, this]

theorem Split.searchDescend_absent {heap : List (Node μ)} {hdr : Nat} {key : Int} {M : Nat}
    {Lo Hi : List (Entry μ)} (sp : Split heap hdr key M Lo Hi) (hgt : ∀ x ∈ Hi, key < x.key)
    (n : Nat) (hn : n ≤ M) :
    searchDescend heap key n (predAt hdr Lo n) = .ok none := by
  induction n with
  | zero => rfl
  | succ n ih =>
    unfold searchDescend
    rw [sp.advance_eq (by omega)]
    simp only
    rcases sp.probe_absent hgt (by omega : n < M) with h | ⟨b, k, h, hk, hlt⟩
    · rw [h]; exact ih (by omega)
    · rw [h]
      simp only [hk]
      rw [if_neg (by omega)]
      exact ih (by omega)

theorem Split.searchDescend_present {heap : List (Node μ)} {hdr : Nat} {key : Int} {M : Nat}
    {Lo Hi : List (Entry μ)} {e : Entry μ} (sp : Split heap hdr key M Lo (e :: Hi))
    (hkey : e.key = key) (hgt : ∀ x ∈ Hi, key < x.key)
    (n : Nat) (hn : n ≤ M) (hpos : 0 < n) :
    searchDescend heap key n (predAt hdr Lo n) = .ok (some e.ptr) := by
  induction n with
  | zero => omega
  | succ n ih =>
    unfold searchDescend
    rw [sp.advance_eq (by omega)]
    simp only
    rcases sp.probe_present hkey hgt (by omega : n < M) with ⟨hh, h, hk⟩ | ⟨hh, h⟩
    · rw [h]; simp [hk]
    · have hn0 : 0 < n := by omega
      rcases h with h | ⟨b, k, h, hk, hlt⟩
      · rw [h]; exact ih (by omega) hn0
      · rw [h]
        simp only [hk]
        rw [if_neg (by omega)]
        exact ih (by omega) hn0

/-! ### The loops that rewrite links -/

theorem generateRandLevelLoop_ok (maxLevels : Int) (draws : Nat → Bool) (fuel level : Nat)
    (hlevel : (level : Int) < maxLevels) (hfuel : maxLevels.toNat < fuel + level) :
    ∃ lvl, generateRandLevelLoop maxLevels draws fuel level = .ok lvl ∧
      (lvl : Int) < maxLevels := by
  induction fuel generalizing level with
  | zero => omega
  | succ f ih =>
    unfold generateRandLevelLoop
    by_cases hc : (draws level && decide ((level : Int) < maxLevels - 1)) = true
    · rw [if_pos hc]
      have hlt : (level : Int) < maxLevels - 1 := by
        simp only [Bool.and_eq_true, decide_eq_true_eq] at hc
        exact hc.2
      exact ih (level + 1) (by push_cast; omega) (by omega)
    · rw [if_neg hc]
      exact ⟨level, rfl, hlevel⟩

theorem generateRandLevel_ok (s : SkipList μ) (draws : Nat → Bool) (h : 1 ≤ s.maxLevels) :
    ∃ lvl, generateRandLevel s draws = .ok lvl ∧ (lvl : Int) < s.maxLevels :=
  generateRandLevelLoop_ok s.maxLevels draws _ 0 (by simpa using h) (by omega)

theorem raiseUpdate_eq (hdr : Nat) (n i : Nat) (ua : List (Option Nat)) (h : i + n ≤ ua.length) :
    ∃ ua1, raiseUpdate hdr n i ua = .ok ua1 ∧ ua1.length = ua.length ∧
      ∀ j, ua1[j]? = if i ≤ j ∧ j < i + n then some (some hdr) else ua[j]? := by
  induction n generalizing i ua with
  | zero =>
    refine ⟨ua, rfl, rfl, fun j => ?_⟩
    have : ¬ (i ≤ j ∧ j < i) := by omega
    simp [this]
  | succ n ih =>
    obtain ⟨ua1, h1, h2, h3⟩ := ih (i + 1) (ua.set i (some hdr)) (by simp; omega)
    refine ⟨ua1, ?_, by simpa using h2, ?_⟩
    · unfold raiseUpdate
      rw [if_pos (by omega)]
      exact h1
    · intro j
      rw [h3 j]
      by_cases hj : j = i
      · subst hj
        have : ¬ (j + 1 ≤ j ∧ j < j + 1 + n) := by omega
        simp [this, List.getElem?_set_self (by omega : j < ua.length)]
      · rw [List.getElem?_set_ne (Ne.symm hj)]
        by_cases hr : i + 1 ≤ j ∧ j < i + 1 + n
        · have : i ≤ j ∧ j < i + (n + 1) := by omega
          simp [hr, this]
        · have : ¬ (i ≤ j ∧ j < i + (n + 1)) := by omega
          simp [hr, this]

theorem splice_eq {hdr node : Nat} {ua : List (Option Nat)} (A B : Nat → List Nat)
    (hnd : ∀ j, (hdr :: (A j ++ B j)).Nodup) (hfresh : ∀ j, node ∉ hdr :: (A j ++ B j))
    (n i : Nat) (heap : List (Node μ))
    (hua : ∀ j, i ≤ j → j < i + n → ua[j]? = some (some (lastFrom hdr (A j))))
    (hchain : ∀ j, i ≤ j → j < i + n → Chain heap j hdr (A j ++ B j))
    (hnode : ∀ j, i ≤ j → j < i + n → ∃ w, nextAt heap node j = some w) :
    ∃ heap1, splice node ua n i heap = (.ok (), heap1) ∧ heap1.length = heap.length ∧
      (∀ q, keyAt heap1 q = keyAt heap q) ∧ (∀ q, valuesAt heap1 q = valuesAt heap q) ∧
      (∀ j, i ≤ j → j < i + n → Chain heap1 j hdr (A j ++ node :: B j)) ∧
      (∀ j, ¬ (i ≤ j ∧ j < i + n) → ∀ q, nextAt heap1 q j = nextAt heap q j) := by
  induction n generalizing i heap with
  | zero =>
    exact ⟨heap, rfl, rfl, fun _ => rfl, fun _ => rfl, fun j h1 h2 => by omega, fun _ _ _ => rfl⟩
  | succ n ih =>
    have hp := hua i (le_refl _) (by omega)
    have hc := hchain i (le_refl _) (by omega)
    have hnx : nextAt heap (lastFrom hdr (A i)) i = some (B i).head? := Chain.next_last hc
    obtain ⟨w, hw⟩ := hnode i (le_refl _) (by omega)
    obtain ⟨heapa, ha⟩ := setNext_some (B i).head? hw
    have hpne : lastFrom hdr (A i) ≠ node := by
      intro heq
      have hm := lastFrom_mem hdr (A i)
      rw [heq] at hm
      apply hfresh i
      rcases List.mem_cons.mp hm with h | h
      · rw [h]; simp
      · exact List.mem_cons_of_mem _ (List.mem_append_left _ h)
    have hpa : nextAt heapa (lastFrom hdr (A i)) i = some (B i).head? := by
      rw [nextAt_setNext ha]; simp [hpne, hnx]
    obtain ⟨heapb, hb⟩ := setNext_some (some node) hpa
    have hnb : ∀ q j, nextAt heapb q j =
        if q = lastFrom hdr (A i) ∧ j = i then some (some node)
        else if q = node ∧ j = i then some (B i).head? else nextAt heap q j := by
      intro q j
      rw [nextAt_setNext hb, nextAt_setNext ha]
    obtain ⟨heap1, h1, h2, h3, h4, h5, h6⟩ := ih (i + 1) heapb
      (fun j hj1 hj2 => hua j (by omega) (by omega))
      (fun j hj1 hj2 => by
        refine Chain.frame (hchain j (by omega) (by omega)) ?_
        intro q _
        rw [hnb q j]
        have : j ≠ i := by omega
        simp [this])
      (fun j hj1 hj2 => by
        obtain ⟨w1, hw1⟩ := hnode j (by omega) (by omega)
        refine ⟨w1, ?_⟩
        rw [hnb node j]
        have : j ≠ i := by omega
        simp [this, hw1])
    refine ⟨heap1, ?_, ?_, ?_, ?_, ?_, ?_⟩
    · unfold splice
      simp only [hp, hnx, ha, hb]
      exact h1
    · rw [h2, setNext_length hb, setNext_length ha]
    · intro q; rw [h3, keyAt_setNext hb, keyAt_setNext ha]
    · intro q; rw [h4, valuesAt_setNext hb, valuesAt_setNext ha]
    · intro j hj1 hj2
      by_cases hji : j = i
      · subst hji
        have hcb : Chain heapb j hdr (A j ++ node :: B j) := by
          refine Chain.insert hc (hnd j) (hfresh j) ?_ ?_ ?_
          · rw [hnb]; simp
          · rw [hnb]; simp [Ne.symm hpne]
          · intro q hq1 hq2
            rw [hnb]; simp [hq1, hq2]
        exact Chain.frame hcb (fun q _ => h6 j (by omega) q)
      · exact h5 j (by omega) (by omega)
    · intro j hj q
      rw [h6 j (by omega) q, hnb q j]
      have : j ≠ i := by omega
      simp [this]

theorem unlink_eq {hdr d h : Nat} {ua : List (Option Nat)} {M : Nat} (A B : Nat → List Nat)
    (hnd : ∀ j, (hdr :: (A j ++ d :: B j)).Nodup)
    (hua_lo : ∀ j, j ≤ h → ua[j]? = some (some (lastFrom hdr (A j))))
    (hua_hi : ∀ j, h < j → j < M → ua[j]? = some none)
    (n i : Nat) (heap : List (Node μ)) (hi : i ≤ h + 1) (hcover : h + 1 ≤ i + n) (hM : i + n ≤ M)
    (hchain : ∀ j, i ≤ j → j ≤ h → Chain heap j hdr (A j ++ d :: B j)) :
    ∃ heap1, unlink d ua n i heap = (.ok (), heap1) ∧ heap1.length = heap.length ∧
      (∀ q, keyAt heap1 q = keyAt heap q) ∧ (∀ q, valuesAt heap1 q = valuesAt heap q) ∧
      (∀ j, i ≤ j → j ≤ h → Chain heap1 j hdr (A j ++ B j)) ∧
      (∀ j, ¬ (i ≤ j ∧ j ≤ h) → ∀ q, nextAt heap1 q j = nextAt heap q j) := by
  induction n generalizing i heap with
  | zero =>
    exact ⟨heap, rfl, rfl, fun _ => rfl, fun _ => rfl, fun j h1 h2 => by omega, fun _ _ _ => rfl⟩
  | succ n ih =>
    by_cases hih : i ≤ h
    · have hp := hua_lo i hih
      have hc := hchain i (le_refl _) hih
      have hdn : nextAt heap d i = some (B i).head? := by
        have hc2 : Chain heap i hdr ((A i ++ [d]) ++ B i) := by simpa using hc
        have := Chain.next_last hc2
        rwa [lastFrom_append] at this
      have hnx : nextAt heap (lastFrom hdr (A i)) i = some (some d) := by
        have := Chain.next_last hc
        simpa using this
      obtain ⟨heapa, ha⟩ := setNext_some (B i).head? hnx
      obtain ⟨heap1, h1, h2, h3, h4, h5, h6⟩ := ih (i + 1) heapa (by omega) (by omega) (by omega)
        (fun j hj1 hj2 => by
          refine Chain.frame (hchain j (by omega) hj2) ?_
          intro q _
          rw [nextAt_setNext ha]
          have : j ≠ i := by omega
          simp [this])
      refine ⟨heap1, ?_, ?_, ?_, ?_, ?_, ?_⟩
      · unfold unlink
        simp only [hp, hdn, ha]
        exact h1
      · rw [h2, setNext_length ha]
      · intro q; rw [h3, keyAt_setNext ha]
      · intro q; rw [h4, valuesAt_setNext ha]
      · intro j hj1 hj2
        by_cases hji : j = i
        · subst hji
          have hcb : Chain heapa j hdr (A j ++ B j) := by
            refine Chain.remove hc (hnd j) ?_ ?_
            · rw [nextAt_setNext ha]; simp
            · intro q hq
              rw [nextAt_setNext ha]; simp [hq]
          exact Chain.frame hcb (fun q _ => h6 j (by omega) q)
        · exact h5 j (by omega) hj2
      · intro j hj q
        rw [h6 j (by omega) q, nextAt_setNext ha]
        have : j ≠ i := by omega
        simp [this]
    · have hieq : i = h + 1 := by omega
      refine ⟨heap, ?_, rfl, fun _ => rfl, fun _ => rfl, fun j h1 h2 => by omega, fun _ _ _ => rfl⟩
      unfold unlink
      rw [hua_hi i (by omega) (by omega)]

theorem shrinkLevel_eq {heap : List (Node μ)} {hdr : Nat} (c : Int) (hc1 : -1 ≤ c) (n : Nat)
    (ncl : Int)
    (hnil : ∀ i : Nat, i < n → c < i → nextAt heap hdr i = some none)
    (hsome : ∀ i : Nat, i < n → (i : Int) ≤ c → ∃ q, nextAt heap hdr i = some (some q)) :
    shrinkLevel heap hdr n ncl = .ok (if (n : Int) ≤ c + 1 then ncl else c) := by
  induction n generalizing ncl with
  | zero =>
    unfold shrinkLevel
    rw [if_pos (by push_cast; omega)]
  | succ n ih =>
    have ih1 := fun x => ih x (fun i hi => hnil i (by omega)) (fun i hi => hsome i (by omega))
    unfold shrinkLevel
    by_cases hc : c < (n : Int)
    · rw [hnil n (by omega) hc]
      simp only
      rw [ih1]
      congr 1
      push_cast
      split_ifs <;> omega
    · obtain ⟨q, hq⟩ := hsome n (by omega) (by omega)
      rw [hq]
      simp only
      rw [ih1]
      congr 1
      push_cast
      split_ifs <;> omega

/-! ### From the invariant to the split around a key -/

theorem sorted_split (L : List (Entry μ)) (hs : L.Pairwise (fun a b => a.key < b.key)) (key : Int) :
    ∃ Lo Hi, L = Lo ++ Hi ∧ (∀ e ∈ Lo, e.key < key) ∧
      ((∀ x ∈ Hi, key < x.key) ∨
        ∃ e Hi1, Hi = e :: Hi1 ∧ e.key = key ∧ ∀ x ∈ Hi1, key < x.key) := by
  induction L with
  | nil => exact ⟨[], [], rfl, by simp, Or.inl (by simp)⟩
  | cons a rest ih =>
    have hs1 := List.pairwise_cons.mp hs
    by_cases h1 : a.key < key
    · obtain ⟨Lo, Hi, h, hlo, hhi⟩ := ih hs1.2
      refine ⟨a :: Lo, Hi, by rw [h]; rfl, ?_, hhi⟩
      intro e he
      rcases List.mem_cons.mp he with rfl | he
      · exact h1
      · exact hlo e he
    · by_cases h2 : a.key = key
      · refine ⟨[], a :: rest, rfl, by simp, Or.inr ⟨a, rest, rfl, h2, ?_⟩⟩
        intro x hx
        rw [← h2]; exact hs1.1 x hx
      · refine ⟨[], a :: rest, rfl, by simp, Or.inl ?_⟩
        intro x hx
        rcases List.mem_cons.mp hx with rfl | hx
        · omega
        · have := hs1.1 x hx
          omega

theorem Rep.toSplit {s : SkipList μ} {hdr : Nat} {Lo Hi : List (Entry μ)}
    (rep : Rep s hdr (Lo ++ Hi))
    {key : Int} (hlo : ∀ e ∈ Lo, e.key < key) (hhi : ∀ e ∈ Hi, key ≤ e.key) :
    Split s.heap hdr key s.maxLevels.toNat Lo Hi where
  chain := by
    intro i hi
    have := rep.chain i (by omega)
    rwa [chainOf_append] at this
  lo := fun e he => ⟨rep.key_eq e (List.mem_append_left _ he), hlo e he⟩
  hi := fun e he => ⟨rep.key_eq e (List.mem_append_right _ he), hhi e he⟩
  size := by
    have := rep.size
    simp at this
    omega

theorem Rep.level_bounds {s : SkipList μ} {hdr : Nat} {L : List (Entry μ)} (rep : Rep s hdr L) :
    -1 ≤ s.currentLevel ∧ s.currentLevel < s.maxLevels := by
  rcases rep.level_top with h | ⟨e, he, h⟩
  · have := rep.maxLevels_pos
    omega
  · have := rep.height_lt e he
    omega

theorem Rep.predAt_top {s : SkipList μ} {hdr : Nat} {Lo Hi : List (Entry μ)}
    (rep : Rep s hdr (Lo ++ Hi)) : predAt hdr Lo (s.currentLevel + 1).toNat = hdr := by
  unfold predAt
  rw [chainOf_eq_nil_of_lt]
  · rfl
  · intro e he
    have := rep.level_ge e (List.mem_append_left _ he)
    have := rep.level_bounds.1
    omega

theorem Rep.predAt_above {s : SkipList μ} {hdr : Nat} {Lo Hi : List (Entry μ)}
    (rep : Rep s hdr (Lo ++ Hi)) {j : Nat} (hj : s.currentLevel < (j : Int)) :
    predAt hdr Lo j = hdr := by
  unfold predAt
  rw [chainOf_eq_nil_of_lt]
  · rfl
  · intro e he
    have := rep.level_ge e (List.mem_append_left _ he)
    omega

theorem Rep.ptr_lt {s : SkipList μ} {hdr : Nat} {L : List (Entry μ)} (rep : Rep s hdr L) :
    ∀ e ∈ L, e.ptr < s.heap.length :=
  fun e he => keyAt_isSome_lt (rep.key_eq e he)

theorem Rep.hdr_lt {s : SkipList μ} {hdr : Nat} {L : List (Entry μ)} (rep : Rep s hdr L) :
    hdr < s.heap.length :=
  (rep.chain 0 (by have := rep.maxLevels_pos; omega)).lt_length hdr (by simp)

theorem Rep.chain_nodup {s : SkipList μ} {hdr : Nat} {L : List (Entry μ)} (rep : Rep s hdr L)
    (i : Nat) : (hdr :: chainOf L i).Nodup :=
  List.Nodup.sublist (List.Sublist.cons₂ hdr (chainOf_sublist L i)) rep.nodup

theorem Rep.not_mem_chain {s : SkipList μ} {hdr : Nat} {L : List (Entry μ)} (rep : Rep s hdr L)
    (i : Nat) : s.heap.length ∉ hdr :: chainOf L i := by
  intro hm
  rcases List.mem_cons.mp hm with h | h
  · have := rep.hdr_lt; omega
  · obtain ⟨e, he, _, hp⟩ := mem_chainOf.mp h
    have := rep.ptr_lt e he
    omega

/-! ### Insertion -/

theorem nextAt_append_new (heap : List (Node μ)) (s : SkipList μ) (key : Int) (value : Option μ)
    (j : Nat) (hj : j < s.maxLevels.toNat) :
    nextAt (heap ++ [createNewNode s key value]) heap.length j = some none := by
  unfold nextAt
  simp [createNewNode, List.getElem?_replicate, hj]

theorem keyAt_append_new (heap : List (Node μ)) (s : SkipList μ) (key : Int) (value : Option μ) :
    keyAt (heap ++ [createNewNode s key value]) heap.length = some key := by
  unfold keyAt
  simp [createNewNode]

theorem valuesAt_append_new (heap : List (Node μ)) (s : SkipList μ) (key : Int) (value : Option μ) :
    valuesAt (heap ++ [createNewNode s key value]) heap.length = some value := by
  unfold valuesAt
  simp [createNewNode]

theorem Rep.insert_build {s : SkipList μ} {hdr : Nat} {Lo Hi : List (Entry μ)}
    (rep : Rep s hdr (Lo ++ Hi)) {key : Int} (value : Option μ)
    (hlo : ∀ e ∈ Lo, e.key < key) (hhi : ∀ e ∈ Hi, key < e.key)
    {lvl : Nat} (hlvl : (lvl : Int) < s.maxLevels) {heap1 : List (Node μ)}
    (hlen : heap1.length = s.heap.length + 1)
    (hkey : ∀ q, keyAt heap1 q = keyAt (s.heap ++ [createNewNode s key value]) q)
    (hval : ∀ q, valuesAt heap1 q = valuesAt (s.heap ++ [createNewNode s key value]) q)
    (hch : ∀ j, 0 ≤ j → j < 0 + (lvl + 1) →
      Chain heap1 j hdr (chainOf Lo j ++ s.heap.length :: chainOf Hi j))
    (hfr : ∀ j, ¬ (0 ≤ j ∧ j < 0 + (lvl + 1)) →
      ∀ q, nextAt heap1 q j = nextAt (s.heap ++ [createNewNode s key value]) q j)
    {cl : Int} (hcl : cl = max s.currentLevel lvl) :
    Rep { s with heap := heap1, currentLevel := cl } hdr
      (Lo ++ ⟨s.heap.length, key, value, lvl⟩ :: Hi) where
  header_eq := rep.header_eq
  maxLevels_pos := rep.maxLevels_pos
  size := by
    have := rep.size
    simp at this ⊢
    omega
  nodup := by
    have hold := rep.nodup
    have hnew : s.heap.length ∉ hdr :: (Lo ++ Hi).map Entry.ptr := by
      intro hm
      rcases List.mem_cons.mp hm with h | h
      · have := rep.hdr_lt; omega
      · obtain ⟨e, he, hp⟩ := List.mem_map.mp h
        have := rep.ptr_lt e he
        omega
    have hp : (hdr :: (Lo ++ ⟨s.heap.length, key, value, lvl⟩ :: Hi).map Entry.ptr).Perm
        (s.heap.length :: hdr :: (Lo ++ Hi).map Entry.ptr) := by
      simp only [List.map_append, List.map_cons]
      exact @List.perm_middle _ s.heap.length (hdr :: Lo.map Entry.ptr) (Hi.map Entry.ptr)
    exact hp.nodup_iff.mpr (List.nodup_cons.mpr ⟨hnew, hold⟩)
  key_eq := by
    intro e he
    show keyAt heap1 e.ptr = some e.key
    rw [hkey]
    rcases List.mem_append.mp he with h | h
    · have h1 := List.mem_append_left Hi h
      rw [keyAt_append_old _ (rep.ptr_lt e h1)]; exact rep.key_eq e h1
    · rcases List.mem_cons.mp h with rfl | h
      · exact keyAt_append_new _ _ _ _
      · have h1 := List.mem_append_right Lo h
        rw [keyAt_append_old _ (rep.ptr_lt e h1)]; exact rep.key_eq e h1
  vals_eq := by
    intro e he
    show valuesAt heap1 e.ptr = some e.vals
    rw [hval]
    rcases List.mem_append.mp he with h | h
    · have h1 := List.mem_append_left Hi h
      rw [valuesAt_append_old _ (rep.ptr_lt e h1)]; exact rep.vals_eq e h1
    · rcases List.mem_cons.mp h with rfl | h
      · exact valuesAt_append_new _ _ _ _
      · have h1 := List.mem_append_right Lo h
        rw [valuesAt_append_old _ (rep.ptr_lt e h1)]; exact rep.vals_eq e h1
  height_lt := by
    intro e he
    rcases List.mem_append.mp he with h | h
    · exact rep.height_lt e (List.mem_append_left Hi h)
    · rcases List.mem_cons.mp h with rfl | h
      · exact hlvl
      · exact rep.height_lt e (List.mem_append_right Lo h)
  sorted := by
    have hs := List.pairwise_append.mp rep.sorted
    refine List.pairwise_append.mpr ⟨hs.1, List.pairwise_cons.mpr ⟨fun x hx => hhi x hx, hs.2.1⟩,
        ?_⟩
    intro a ha b hb
    rcases List.mem_cons.mp hb with rfl | hb
    · exact hlo a ha
    · exact hs.2.2 a ha b hb
  chain := by
    intro i hi
    show Chain heap1 i hdr _
    rw [chainOf_append, chainOf_cons]
    by_cases hil : i ≤ lvl
    · simp only [hil, if_true]
      exact hch i (by omega) (by omega)
    · simp only [hil, if_false]
      have hc := rep.chain i hi
      rw [chainOf_append] at hc
      refine Chain.frame hc ?_
      intro q hq
      rw [hfr i (by omega) q, nextAt_append_old _ _ (hc.lt_length q hq)]
  level_ge := by
    intro e he
    show (e.height : Int) ≤ cl
    rcases List.mem_append.mp he with h | h
    · have := rep.level_ge e (List.mem_append_left Hi h); omega
    · rcases List.mem_cons.mp h with rfl | h
      · simp only; omega
      · have := rep.level_ge e (List.mem_append_right Lo h); omega
  level_top := by
    right
    show ∃ e ∈ _, (e.height : Int) = cl
    by_cases h : s.currentLevel < (lvl : Int)
    · exact ⟨⟨s.heap.length, key, value, lvl⟩, by simp, by simp only; omega⟩
    · rcases rep.level_top with h1 | ⟨e, he, h1⟩
      · omega
      · refine ⟨e, ?_, by omega⟩
        rcases List.mem_append.mp he with h2 | h2
        · exact List.mem_append_left _ h2
        · exact List.mem_append_right _ (List.mem_cons_of_mem _ h2)

theorem Rep.insertNode_eq {s : SkipList μ} {hdr : Nat} {Lo Hi : List (Entry μ)}
    (rep : Rep s hdr (Lo ++ Hi)) {key : Int} (value : Option μ) (draws : Nat → Bool)
    (hlo : ∀ e ∈ Lo, e.key < key) (hhi : ∀ e ∈ Hi, key < e.key)
    (ua : List (Option Nat)) (hlen : ua.length = s.maxLevels.toNat)
    (hua : ∀ j, j < (s.currentLevel + 1).toNat → ua[j]? = some (some (predAt hdr Lo j))) :
    ∃ lvl s1, insertNode s hdr key value ua draws = (.ok (), s1) ∧
      generateRandLevel s draws = .ok lvl ∧
      Rep s1 hdr (Lo ++ ⟨s.heap.length, key, value, lvl⟩ :: Hi) ∧
      s1.maxLevels = s.maxLevels ∧ s1.minKey = s.minKey ∧
      s1.currentLevel = max s.currentLevel lvl := by
  obtain ⟨lvl, hgen, hlvl⟩ := generateRandLevel_ok s draws rep.maxLevels_pos
  have hb := rep.level_bounds
  -- the update array that reaches the linking loop
  have hua2 : ∃ ua2, (if s.currentLevel < (lvl : Int) then
        raiseUpdate hdr ((lvl : Int) - s.currentLevel).toNat (s.currentLevel + 1).toNat ua
      else .ok ua) = .ok ua2 ∧
      ∀ j, 0 ≤ j → j < 0 + (lvl + 1) → ua2[j]? = some (some (lastFrom hdr (chainOf Lo j))) := by
    by_cases hc : s.currentLevel < (lvl : Int)
    · obtain ⟨ua2, h1, _, h3⟩ := raiseUpdate_eq hdr ((lvl : Int) - s.currentLevel).toNat
        (s.currentLevel + 1).toNat ua (by omega)
      refine ⟨ua2, by rw [if_pos hc]; exact h1, ?_⟩
      intro j _ hj
      rw [h3 j]
      by_cases hjc : j < (s.currentLevel + 1).toNat
      · rw [if_neg (by omega)]; exact hua j hjc
      · rw [if_pos (by omega)]
        have := rep.predAt_above (j := j) (by omega)
        unfold predAt at this
        rw [this]
    · refine ⟨ua, by rw [if_neg hc], ?_⟩
      intro j _ hj
      exact hua j (by omega)
  obtain ⟨ua2, hraise, hua2⟩ := hua2
  have hsp := @splice_eq _ hdr s.heap.length ua2
    (fun j => chainOf Lo j) (fun j => chainOf Hi j)
    (fun j => by have := rep.chain_nodup j; rwa [chainOf_append] at this)
    (fun j => by have := rep.not_mem_chain j; rwa [chainOf_append] at this)
    (lvl + 1) 0 (s.heap ++ [createNewNode s key value]) hua2
    (fun j _ hj => by
      have hc := rep.chain j (by omega)
      rw [chainOf_append] at hc
      exact Chain.frame hc (fun q hq => nextAt_append_old _ _ (hc.lt_length q hq)))
    (fun j _ hj => ⟨none, nextAt_append_new _ _ _ _ _ (by omega)⟩)
  obtain ⟨heap1, hs1, hs2, hs3, hs4, hs5, hs6⟩ := hsp
  have hlen1 : heap1.length = s.heap.length + 1 := by rw [hs2]; simp
  by_cases hc : s.currentLevel < (lvl : Int)
  · rw [if_pos hc] at hraise
    refine ⟨lvl, { s with heap := heap1, currentLevel := lvl }, ?_, hgen, ?_, rfl, rfl, ?_⟩
    · unfold insertNode
      simp only [hgen, hc, if_true, hraise, hs1]
    · exact rep.insert_build value hlo hhi hlvl hlen1 hs3 hs4 hs5 hs6 (by omega)
    · show (lvl : Int) = _
      omega
  · rw [if_neg hc] at hraise
    cases hraise
    refine ⟨lvl, { s with heap := heap1 }, ?_, hgen, ?_, rfl, rfl, ?_⟩
    · unfold insertNode
      simp only [hgen, hc, if_false, hs1]
    · exact rep.insert_build value hlo hhi hlvl hlen1 hs3 hs4 hs5 hs6 (by omega)
    · show s.currentLevel = _
      omega

/-! ### Replacing a value, removing a node -/

theorem maxHeight_ge (L : List (Entry μ)) : ∀ e ∈ L, (e.height : Int) ≤ maxHeight L := by
  induction L with
  | nil => simp
  | cons a rest ih =>
    intro e he
    rcases List.mem_cons.mp he with rfl | he
    · simp [maxHeight]
    · have := ih e he
      simp only [maxHeight]; omega

theorem maxHeight_top (L : List (Entry μ)) :
    maxHeight L = -1 ∨ ∃ e ∈ L, (e.height : Int) = maxHeight L := by
  induction L with
  | nil => exact Or.inl rfl
  | cons a rest ih =>
    right
    by_cases h : maxHeight rest ≤ (a.height : Int)
    · exact ⟨a, by simp, by simp only [maxHeight]; omega⟩
    · rcases ih with h1 | ⟨e, he, h1⟩
      · omega
      · exact ⟨e, List.mem_cons_of_mem _ he, by simp only [maxHeight]; omega⟩

theorem Chain.head {heap : List (Node μ)} {i p : Nat} {l : List Nat} (h : Chain heap i p l) :
    nextAt heap p i = some l.head? :=
  Chain.next_last (A := []) h

theorem Rep.ptr_ne_mid {s : SkipList μ} {hdr : Nat} {Lo Hi : List (Entry μ)} {e : Entry μ}
    (rep : Rep s hdr (Lo ++ e :: Hi)) : ∀ x ∈ Lo ++ Hi, x.ptr ≠ e.ptr := by
  have hn := (List.nodup_cons.mp rep.nodup).2
  simp only [List.map_append, List.map_cons] at hn
  have hn2 := (@List.perm_middle _ e.ptr (Lo.map Entry.ptr)
    (Hi.map Entry.ptr)).nodup_iff.mp hn
  have hn3 := (List.nodup_cons.mp hn2).1
  intro x hx hxe
  apply hn3
  rw [← hxe, ← List.map_append]
  exact List.mem_map_of_mem _ hx

theorem Rep.setValues_build {s : SkipList μ} {hdr : Nat} {Lo Hi : List (Entry μ)} {e : Entry μ}
    (rep : Rep s hdr (Lo ++ e :: Hi)) {v : Option μ} {heap1 : List (Node μ)}
    (hset : setValues s.heap e.ptr v = some heap1) :
    Rep { s with heap := heap1 } hdr (Lo ++ { e with vals := v } :: Hi) where
  header_eq := rep.header_eq
  maxLevels_pos := rep.maxLevels_pos
  size := by
    have := rep.size
    simp [setValues_length hset] at this ⊢
    omega
  nodup := by
    have := rep.nodup
    simpa using this
  key_eq := by
    intro x hx
    show keyAt heap1 x.ptr = some x.key
    rw [keyAt_setValues hset]
    rcases List.mem_append.mp hx with h | h
    · exact rep.key_eq x (List.mem_append_left _ h)
    · rcases List.mem_cons.mp h with rfl | h
      · exact rep.key_eq e (by simp)
      · exact rep.key_eq x (List.mem_append_right _ (List.mem_cons_of_mem _ h))
  vals_eq := by
    intro x hx
    show valuesAt heap1 x.ptr = some x.vals
    rw [valuesAt_setValues hset]
    rcases List.mem_append.mp hx with h | h
    · rw [if_neg (rep.ptr_ne_mid x (List.mem_append_left _ h))]
      exact rep.vals_eq x (List.mem_append_left _ h)
    · rcases List.mem_cons.mp h with rfl | h
      · simp
      · rw [if_neg (rep.ptr_ne_mid x (List.mem_append_right _ h))]
        exact rep.vals_eq x (List.mem_append_right _ (List.mem_cons_of_mem _ h))
  height_lt := by
    intro x hx
    rcases List.mem_append.mp hx with h | h
    · exact rep.height_lt x (List.mem_append_left _ h)
    · rcases List.mem_cons.mp h with rfl | h
      · exact rep.height_lt e (by simp)
      · exact rep.height_lt x (List.mem_append_right _ (List.mem_cons_of_mem _ h))
  sorted := by
    have hs := List.pairwise_append.mp rep.sorted
    have hs2 := List.pairwise_cons.mp hs.2.1
    refine List.pairwise_append.mpr ⟨hs.1, List.pairwise_cons.mpr ⟨hs2.1, hs2.2⟩, ?_⟩
    intro a ha b hb
    rcases List.mem_cons.mp hb with rfl | hb
    · exact hs.2.2 a ha e (by simp)
    · exact hs.2.2 a ha b (List.mem_cons_of_mem _ hb)
  chain := by
    intro i hi
    show Chain heap1 i hdr _
    have hc := rep.chain i hi
    rw [chainOf_append, chainOf_cons] at hc ⊢
    exact Chain.frame hc (fun q _ => nextAt_setValues hset q i)
  level_ge := by
    intro x hx
    rcases List.mem_append.mp hx with h | h
    · exact rep.level_ge x (List.mem_append_left _ h)
    · rcases List.mem_cons.mp h with rfl | h
      · exact rep.level_ge e (by simp)
      · exact rep.level_ge x (List.mem_append_right _ (List.mem_cons_of_mem _ h))
  level_top := by
    rcases rep.level_top with h | ⟨x, hx, h⟩
    · exact Or.inl h
    · right
      rcases List.mem_append.mp hx with h1 | h1
      · exact ⟨x, List.mem_append_left _ h1, h⟩
      · rcases List.mem_cons.mp h1 with rfl | h1
        · exact ⟨{ x with vals := v }, by simp, h⟩
        · exact ⟨x, List.mem_append_right _ (List.mem_cons_of_mem _ h1), h⟩

theorem Rep.setValues_ok {s : SkipList μ} {hdr : Nat} {Lo Hi : List (Entry μ)} {e : Entry μ}
    (rep : Rep s hdr (Lo ++ e :: Hi)) (v : Option μ) :
    ∃ heap1, setValues s.heap e.ptr v = some heap1 ∧
      Rep { s with heap := heap1 } hdr (Lo ++ { e with vals := v } :: Hi) := by
  obtain ⟨heap1, h⟩ := setValues_some v (rep.vals_eq e (by simp))
  exact ⟨heap1, h, rep.setValues_build h⟩

theorem Rep.removeNode_eq {s : SkipList μ} {hdr : Nat} {Lo Hi : List (Entry μ)} {e : Entry μ}
    (rep : Rep s hdr (Lo ++ e :: Hi)) (ua : List (Option Nat))
    (hua : ∀ j, ua[j]? = if j < (s.currentLevel + 1).toNat ∧ j ≤ e.height
      then some (some (predAt hdr Lo j)) else (List.replicate s.maxLevels.toNat none)[j]?) :
    ∃ s1, removeNode s hdr e.ptr ua = (.ok true, s1) ∧ Rep s1 hdr (Lo ++ Hi) ∧
      s1.maxLevels = s.maxLevels ∧ s1.minKey = s.minKey := by
  have hb := rep.level_bounds
  have hh := rep.level_ge e (by simp)
  have hsub : ∀ j, (hdr :: (chainOf Lo j ++ e.ptr :: chainOf Hi j)).Sublist
      (hdr :: (Lo ++ e :: Hi).map Entry.ptr) := by
    intro j
    simp only [List.map_append, List.map_cons]
    exact List.Sublist.cons₂ _ (List.Sublist.append (chainOf_sublist Lo j)
      (List.Sublist.cons₂ _ (chainOf_sublist Hi j)))
  have hun := @unlink_eq _ hdr e.ptr e.height ua s.maxLevels.toNat
    (fun j => chainOf Lo j) (fun j => chainOf Hi j)
    (fun j => List.Nodup.sublist (hsub j) rep.nodup)
    (fun j hj => by rw [hua j, if_pos (by omega)]; rfl)
    (fun j hj1 hj2 => by
      rw [hua j, if_neg (by omega)]
      simp [List.getElem?_replicate, hj2])
    (s.currentLevel + 1).toNat 0 s.heap (by omega) (by omega) (by omega)
    (fun j _ hj => by
      have hc := rep.chain j (by omega)
      rw [chainOf_append, chainOf_cons, if_pos hj] at hc
      exact hc)
  obtain ⟨heap1, h1, h2, h3, h4, h5, h6⟩ := hun
  have hchain : ∀ i : Nat, (i : Int) < s.maxLevels → Chain heap1 i hdr (chainOf (Lo ++ Hi) i) := by
    intro i hi
    rw [chainOf_append]
    by_cases hih : i ≤ e.height
    · exact h5 i (by omega) hih
    · have hc := rep.chain i hi
      rw [chainOf_append, chainOf_cons, if_neg hih] at hc
      exact Chain.frame hc (fun q _ => h6 i (by omega) q)
  have hmg := maxHeight_ge (Lo ++ Hi)
  have hmt := maxHeight_top (Lo ++ Hi)
  have hmle : maxHeight (Lo ++ Hi) ≤ s.currentLevel := by
    rcases hmt with h | ⟨x, hx, h⟩
    · omega
    · rw [← h]
      apply rep.level_ge
      rcases List.mem_append.mp hx with h2 | h2
      · exact List.mem_append_left _ h2
      · exact List.mem_append_right _ (List.mem_cons_of_mem _ h2)
  have hm1 : -1 ≤ maxHeight (Lo ++ Hi) := by
    rcases hmt with h | ⟨x, hx, h⟩ <;> omega
  have hshr := @shrinkLevel_eq _ heap1 hdr (maxHeight (Lo ++ Hi)) hm1
    (s.currentLevel + 1).toNat s.currentLevel
    (fun i hi hc => by
      rw [(hchain i (by omega)).head, chainOf_eq_nil_of_lt]
      · rfl
      · intro x hx
        have := hmg x hx
        omega)
    (fun i hi hc => by
      rw [(hchain i (by omega)).head]
      rcases hmt with h | ⟨x, hx, h⟩
      · omega
      · have hm : x.ptr ∈ chainOf (Lo ++ Hi) i := mem_chainOf.mpr ⟨x, hx, by omega, rfl⟩
        cases hl : chainOf (Lo ++ Hi) i with
        | nil => rw [hl] at hm; simp at hm
        | cons a rest => exact ⟨a, rfl⟩)
  have hres : (if (((s.currentLevel + 1).toNat : Nat) : Int) ≤ maxHeight (Lo ++ Hi) + 1
      then s.currentLevel else maxHeight (Lo ++ Hi)) = maxHeight (Lo ++ Hi) := by
    split_ifs with hc
    · omega
    · rfl
  rw [hres] at hshr
  refine ⟨{ s with heap := heap1, currentLevel := maxHeight (Lo ++ Hi) }, ?_, ?_, rfl, rfl⟩
  · unfold removeNode
    simp only [h1, hshr]
  · exact {
      header_eq := rep.header_eq
      maxLevels_pos := rep.maxLevels_pos
      size := by
        have := rep.size
        simp [h2] at this ⊢
        omega
      nodup := by
        refine List.Nodup.sublist ?_ rep.nodup
        simp only [List.map_append, List.map_cons]
        exact List.Sublist.cons₂ _ (List.Sublist.append (List.Sublist.refl _)
          (List.sublist_cons_self _ _))
      key_eq := by
        intro x hx
        show keyAt heap1 x.ptr = some x.key
        rw [h3]
        apply rep.key_eq
        rcases List.mem_append.mp hx with h | h
        · exact List.mem_append_left _ h
        · exact List.mem_append_right _ (List.mem_cons_of_mem _ h)
      vals_eq := by
        intro x hx
        show valuesAt heap1 x.ptr = some x.vals
        rw [h4]
        apply rep.vals_eq
        rcases List.mem_append.mp hx with h | h
        · exact List.mem_append_left _ h
        · exact List.mem_append_right _ (List.mem_cons_of_mem _ h)
      height_lt := by
        intro x hx
        apply rep.height_lt
        rcases List.mem_append.mp hx with h | h
        · exact List.mem_append_left _ h
        · exact List.mem_append_right _ (List.mem_cons_of_mem _ h)
      sorted := by
        refine List.Pairwise.sublist ?_ rep.sorted
        exact List.Sublist.append (List.Sublist.refl _) (List.sublist_cons_self _ _)
      chain := hchain
      level_ge := hmg
      level_top := hmt }

/-! ### The four operations against the invariant -/

theorem Rep.mid_bounds {s : SkipList μ} {hdr : Nat} {Lo Hi : List (Entry μ)} {e : Entry μ}
    (rep : Rep s hdr (Lo ++ e :: Hi)) :
    (∀ x ∈ Lo, x.key < e.key) ∧ (∀ x ∈ Hi, e.key < x.key) := by
  have hs := List.pairwise_append.mp rep.sorted
  exact ⟨fun x hx => hs.2.2 x hx e (by simp), fun x hx => (List.pairwise_cons.mp hs.2.1).1 x hx⟩

theorem Rep.toSplit_mid {s : SkipList μ} {hdr : Nat} {Lo Hi : List (Entry μ)} {e : Entry μ}
    (rep : Rep s hdr (Lo ++ e :: Hi)) :
    Split s.heap hdr e.key s.maxLevels.toNat Lo (e :: Hi) :=
  rep.toSplit rep.mid_bounds.1 (fun x hx => by
    rcases List.mem_cons.mp hx with rfl | hx
    · exact le_refl _
    · exact le_of_lt (rep.mid_bounds.2 x hx))

theorem Rep.AddOrModify_absent {ε : Type} {s : SkipList μ} {hdr : Nat} {Lo Hi : List (Entry μ)}
    (rep : Rep s hdr (Lo ++ Hi)) {key : Int} (hmin : s.minKey ≤ key)
    (hlo : ∀ e ∈ Lo, e.key < key) (hhi : ∀ e ∈ Hi, key < e.key)
    (value : Option μ) (modifier : Option (Modifier μ ε)) (env : ε) (draws : Nat → Bool) :
    ∃ lvl s1, s.AddOrModify key value modifier env draws = (.ok (), s1, env) ∧
      generateRandLevel s draws = .ok lvl ∧
      Rep s1 hdr (Lo ++ ⟨s.heap.length, key, value, lvl⟩ :: Hi) ∧
      s1.maxLevels = s.maxLevels ∧ s1.minKey = s.minKey ∧
      s1.currentLevel = max s.currentLevel lvl := by
  have hb := rep.level_bounds
  have hM : 0 < s.maxLevels.toNat := by have := rep.maxLevels_pos; omega
  have sp := rep.toSplit hlo (fun x hx => le_of_lt (hhi x hx))
  obtain ⟨ua, hd, hlen, hua⟩ := sp.descendAdd_eq (s.currentLevel + 1).toNat (by omega)
    (List.replicate s.maxLevels.toNat none) (by simp)
  rw [rep.predAt_top] at hd
  obtain ⟨lvl, s1, hins, hrest⟩ := rep.insertNode_eq value draws hlo hhi ua hlen
    (fun j hj => by rw [hua j, if_pos hj])
  refine ⟨lvl, s1, ?_, hrest⟩
  unfold SkipList.AddOrModify
  rw [if_neg (not_lt.mpr hmin)]
  simp only [rep.header_eq, hd]
  rcases sp.probe_absent hhi hM with h | ⟨b, k, h, hk, hlt⟩
  · simp only [h, hins]
  · simp only [h, hk]
    rw [if_pos (by omega)]
    simp only [hins]

theorem Rep.AddOrModify_present_probe {s : SkipList μ} {hdr : Nat} {Lo Hi : List (Entry μ)}
    {e : Entry μ}
    (rep : Rep s hdr (Lo ++ e :: Hi)) :
    ∃ ua, descendAdd s.heap e.key (s.currentLevel + 1).toNat hdr
        (List.replicate s.maxLevels.toNat none) = .ok (predAt hdr Lo 0, ua) ∧
      nextAt s.heap (predAt hdr Lo 0) 0 = some (some e.ptr) ∧
      keyAt s.heap e.ptr = some e.key ∧ valuesAt s.heap e.ptr = some e.vals := by
  have hb := rep.level_bounds
  have hM : 0 < s.maxLevels.toNat := by have := rep.maxLevels_pos; omega
  have sp := rep.toSplit_mid
  obtain ⟨ua, hd, _, _⟩ := sp.descendAdd_eq (s.currentLevel + 1).toNat (by omega)
    (List.replicate s.maxLevels.toNat none) (by simp)
  rw [rep.predAt_top] at hd
  refine ⟨ua, hd, ?_, rep.key_eq e (by simp), rep.vals_eq e (by simp)⟩
  rw [sp.next_pred hM]
  simp [chainOf_cons]

theorem Rep.AddOrModify_present_none {ε : Type} {s : SkipList μ} {hdr : Nat}
    {Lo Hi : List (Entry μ)}
    {e : Entry μ} (rep : Rep s hdr (Lo ++ e :: Hi)) (hmin : s.minKey ≤ e.key)
    (value : Option μ) (env : ε) (draws : Nat → Bool) :
    ∃ s1, s.AddOrModify e.key value (none : Option (Modifier μ ε)) env draws = (.ok (), s1, env) ∧
      Rep s1 hdr (Lo ++ { e with vals := value } :: Hi) ∧
      s1.maxLevels = s.maxLevels ∧ s1.minKey = s.minKey ∧ s1.currentLevel = s.currentLevel := by
  obtain ⟨ua, hd, hn, hk, hv⟩ := rep.AddOrModify_present_probe
  obtain ⟨heap1, hset, rep1⟩ := rep.setValues_ok value
  refine ⟨_, ?_, rep1, rfl, rfl, rfl⟩
  unfold SkipList.AddOrModify
  rw [if_neg (not_lt.mpr hmin)]
  simp only [rep.header_eq, hd, hn, hk, hset, ne_eq, not_true_eq_false, if_false]

theorem Rep.AddOrModify_present_ok {ε : Type} {s : SkipList μ} {hdr : Nat} {Lo Hi : List (Entry μ)}
    {e : Entry μ} (rep : Rep s hdr (Lo ++ e :: Hi)) (hmin : s.minKey ≤ e.key)
    (value : Option μ) (f : Modifier μ ε) (env env1 : ε) (v : Option μ) (draws : Nat → Bool)
    (hf : f e.vals env = (.ok v, env1)) :
    ∃ s1, s.AddOrModify e.key value (some f) env draws = (.ok (), s1, env1) ∧
      Rep s1 hdr (Lo ++ { e with vals := v } :: Hi) ∧
      s1.maxLevels = s.maxLevels ∧ s1.minKey = s.minKey ∧ s1.currentLevel = s.currentLevel := by
  obtain ⟨ua, hd, hn, hk, hv⟩ := rep.AddOrModify_present_probe
  obtain ⟨heap1, hset, rep1⟩ := rep.setValues_ok v
  refine ⟨_, ?_, rep1, rfl, rfl, rfl⟩
  unfold SkipList.AddOrModify
  rw [if_neg (not_lt.mpr hmin)]
  simp only [rep.header_eq, hd, hn, hk, hv, hf, hset, ne_eq, not_true_eq_false, if_false]

theorem Rep.AddOrModify_present_error {ε : Type} {s : SkipList μ} {hdr : Nat}
    {Lo Hi : List (Entry μ)}
    {e : Entry μ} (rep : Rep s hdr (Lo ++ e :: Hi)) (hmin : s.minKey ≤ e.key)
    (value : Option μ) (f : Modifier μ ε) (env env1 : ε) (x : Fault) (draws : Nat → Bool)
    (hf : f e.vals env = (.error x, env1)) :
    s.AddOrModify e.key value (some f) env draws = (.error x, s, env1) := by
  obtain ⟨ua, hd, hn, hk, hv⟩ := rep.AddOrModify_present_probe
  unfold SkipList.AddOrModify
  rw [if_neg (not_lt.mpr hmin)]
  simp only [rep.header_eq, hd, hn, hk, hv, hf, ne_eq, not_true_eq_false, if_false]

theorem Rep.DeleteOrModify_absent {ε : Type} {s : SkipList μ} {hdr : Nat} {Lo Hi : List (Entry μ)}
    (rep : Rep s hdr (Lo ++ Hi)) {key : Int} (hmin : s.minKey ≤ key)
    (hlo : ∀ e ∈ Lo, e.key < key) (hhi : ∀ e ∈ Hi, key < e.key)
    (decide : Option (Decider μ ε)) (env : ε) :
    s.DeleteOrModify key decide env = (.ok false, s, env) := by
  have hb := rep.level_bounds
  have sp := rep.toSplit hlo (fun x hx => le_of_lt (hhi x hx))
  have hd := sp.descendDelete_absent hhi (s.currentLevel + 1).toNat (by omega)
    (List.replicate s.maxLevels.toNat none) none
  rw [rep.predAt_top] at hd
  unfold SkipList.DeleteOrModify
  rw [if_neg (not_lt.mpr hmin)]
  simp only [rep.header_eq, hd]

theorem Rep.DeleteOrModify_probe {s : SkipList μ} {hdr : Nat} {Lo Hi : List (Entry μ)} {e : Entry μ}
    (rep : Rep s hdr (Lo ++ e :: Hi)) :
    ∃ ua, descendDelete s.heap e.key (s.currentLevel + 1).toNat hdr
        (List.replicate s.maxLevels.toNat none) none = .ok (ua, some e.ptr) ∧
      ∀ j, ua[j]? = if j < (s.currentLevel + 1).toNat ∧ j ≤ e.height
        then some (some (predAt hdr Lo j)) else (List.replicate s.maxLevels.toNat none)[j]? := by
  have hb := rep.level_bounds
  have hh := rep.level_ge e (by simp)
  have sp := rep.toSplit_mid
  obtain ⟨ua, hd, _, hua⟩ := sp.descendDelete_present rfl rep.mid_bounds.2
    (s.currentLevel + 1).toNat (by omega) (List.replicate s.maxLevels.toNat none) (by simp) none
  rw [rep.predAt_top, if_neg (by omega)] at hd
  exact ⟨ua, hd, hua⟩

theorem Rep.DeleteOrModify_none {ε : Type} {s : SkipList μ} {hdr : Nat} {Lo Hi : List (Entry μ)}
    {e : Entry μ} (rep : Rep s hdr (Lo ++ e :: Hi)) (hmin : s.minKey ≤ e.key) (env : ε) :
    ∃ s1, s.DeleteOrModify e.key (none : Option (Decider μ ε)) env = (.ok true, s1, env) ∧
      Rep s1 hdr (Lo ++ Hi) ∧ s1.maxLevels = s.maxLevels ∧ s1.minKey = s.minKey := by
  obtain ⟨ua, hd, hua⟩ := rep.DeleteOrModify_probe
  obtain ⟨s1, hrm, hrest⟩ := rep.removeNode_eq ua hua
  refine ⟨s1, ?_, hrest⟩
  unfold SkipList.DeleteOrModify
  rw [if_neg (not_lt.mpr hmin)]
  simp only [rep.header_eq, hd, hrm]

theorem Rep.DeleteOrModify_delete {ε : Type} {s : SkipList μ} {hdr : Nat} {Lo Hi : List (Entry μ)}
    {e : Entry μ} (rep : Rep s hdr (Lo ++ e :: Hi)) (hmin : s.minKey ≤ e.key)
    (f : Decider μ ε) (env env1 : ε) (v : Option μ) (hf : f e.vals env = (.ok (true, v), env1)) :
    ∃ s1, s.DeleteOrModify e.key (some f) env = (.ok true, s1, env1) ∧
      Rep s1 hdr (Lo ++ Hi) ∧ s1.maxLevels = s.maxLevels ∧ s1.minKey = s.minKey := by
  obtain ⟨ua, hd, hua⟩ := rep.DeleteOrModify_probe
  obtain ⟨s1, hrm, hrest⟩ := rep.removeNode_eq ua hua
  refine ⟨s1, ?_, hrest⟩
  unfold SkipList.DeleteOrModify
  rw [if_neg (not_lt.mpr hmin)]
  simp only [rep.header_eq, hd, rep.vals_eq e (by simp), hf, hrm, Bool.not_true,
    Bool.false_eq_true, if_false]

theorem Rep.DeleteOrModify_keep {ε : Type} {s : SkipList μ} {hdr : Nat} {Lo Hi : List (Entry μ)}
    {e : Entry μ} (rep : Rep s hdr (Lo ++ e :: Hi)) (hmin : s.minKey ≤ e.key)
    (f : Decider μ ε) (env env1 : ε) (v : Option μ) (hf : f e.vals env = (.ok (false, v), env1)) :
    ∃ s1, s.DeleteOrModify e.key (some f) env = (.ok false, s1, env1) ∧
      Rep s1 hdr (Lo ++ { e with vals := v } :: Hi) ∧
      s1.maxLevels = s.maxLevels ∧ s1.minKey = s.minKey ∧ s1.currentLevel = s.currentLevel := by
  obtain ⟨ua, hd, hua⟩ := rep.DeleteOrModify_probe
  obtain ⟨heap1, hset, rep1⟩ := rep.setValues_ok v
  refine ⟨_, ?_, rep1, rfl, rfl, rfl⟩
  unfold SkipList.DeleteOrModify
  rw [if_neg (not_lt.mpr hmin)]
  simp only [rep.header_eq, hd, rep.vals_eq e (by simp), hf, hset, Bool.not_false, if_true]

theorem Rep.SearchOrModify_absent {ε : Type} {s : SkipList μ} {hdr : Nat} {Lo Hi : List (Entry μ)}
    (rep : Rep s hdr (Lo ++ Hi)) {key : Int} (hmin : s.minKey ≤ key)
    (hlo : ∀ e ∈ Lo, e.key < key) (hhi : ∀ e ∈ Hi, key < e.key)
    (modifier : Option (Modifier μ ε)) (env : ε) :
    s.SearchOrModify key modifier env = (.ok none, s, env) := by
  have hb := rep.level_bounds
  have sp := rep.toSplit hlo (fun x hx => le_of_lt (hhi x hx))
  have hd := sp.searchDescend_absent hhi (s.currentLevel + 1).toNat (by omega)
  rw [rep.predAt_top] at hd
  unfold SkipList.SearchOrModify
  rw [if_neg (not_lt.mpr hmin)]
  simp only [rep.header_eq, hd]

theorem Rep.searchDescend_mid {s : SkipList μ} {hdr : Nat} {Lo Hi : List (Entry μ)} {e : Entry μ}
    (rep : Rep s hdr (Lo ++ e :: Hi)) :
    searchDescend s.heap e.key (s.currentLevel + 1).toNat hdr = .ok (some e.ptr) := by
  have hb := rep.level_bounds
  have hh := rep.level_ge e (by simp)
  have hd := rep.toSplit_mid.searchDescend_present rfl rep.mid_bounds.2
    (s.currentLevel + 1).toNat (by omega) (by omega)
  rwa [rep.predAt_top] at hd

theorem Rep.SearchOrModify_none {ε : Type} {s : SkipList μ} {hdr : Nat} {Lo Hi : List (Entry μ)}
    {e : Entry μ} (rep : Rep s hdr (Lo ++ e :: Hi)) (hmin : s.minKey ≤ e.key) (env : ε) :
    s.SearchOrModify e.key (none : Option (Modifier μ ε)) env = (.ok e.vals, s, env) := by
  unfold SkipList.SearchOrModify
  rw [if_neg (not_lt.mpr hmin)]
  simp only [rep.header_eq, rep.searchDescend_mid, rep.vals_eq e (by simp)]

theorem Rep.SearchOrModify_ok {ε : Type} {s : SkipList μ} {hdr : Nat} {Lo Hi : List (Entry μ)}
    {e : Entry μ} (rep : Rep s hdr (Lo ++ e :: Hi)) (hmin : s.minKey ≤ e.key)
    (f : Modifier μ ε) (env env1 : ε) (v : Option μ) (hf : f e.vals env = (.ok v, env1)) :
    ∃ s1, s.SearchOrModify e.key (some f) env = (.ok v, s1, env1) ∧
      Rep s1 hdr (Lo ++ { e with vals := v } :: Hi) ∧
      s1.maxLevels = s.maxLevels ∧ s1.minKey = s.minKey ∧ s1.currentLevel = s.currentLevel := by
  obtain ⟨heap1, hset, rep1⟩ := rep.setValues_ok v
  refine ⟨_, ?_, rep1, rfl, rfl, rfl⟩
  unfold SkipList.SearchOrModify
  rw [if_neg (not_lt.mpr hmin)]
  simp only [rep.header_eq, rep.searchDescend_mid, rep.vals_eq e (by simp), hf, hset]

/-! ### Range scan -/

theorem Chain.toWalk {heap : List (Node μ)} {i p : Nat} {l : List Nat} (h : Chain heap i p l) :
    Walk heap i l.head? l := by
  induction l generalizing p with
  | nil => rfl
  | cons q rest ih => exact ⟨rfl, rest.head?, h.2.head, ih h.2⟩

theorem chainOf_zero (L : List (Entry μ)) : chainOf L 0 = L.map Entry.ptr := by
  simp [chainOf]

theorem countRange_eq {heap : List (Node μ)} {keyMax : Int} (Mid Rest : List (Entry μ))
    (hkeys : ∀ e ∈ Mid ++ Rest, keyAt heap e.ptr = some e.key)
    (hmid : ∀ e ∈ Mid, e.key < keyMax) (hrest : ∀ e ∈ Rest, keyMax ≤ e.key)
    (cur : Option Nat) (k fuel : Nat)
    (hw : Walk heap 0 cur ((Mid ++ Rest).map Entry.ptr)) (hfuel : Mid.length < fuel) :
    countRange heap keyMax fuel cur k = .ok (k + Mid.length) := by
  induction Mid generalizing cur k fuel with
  | nil =>
    cases fuel with
    | zero => omega
    | succ f =>
      cases Rest with
      | nil =>
        have : cur = none := hw
        subst this
        rfl
      | cons r Rest1 =>
        obtain ⟨hcur, _⟩ := hw
        subst hcur
        have hk := hkeys r (by simp)
        have := hrest r (by simp)
        unfold countRange
        simp only [hk]
        rw [if_neg (by omega)]
        rfl
  | cons m Mid1 ih =>
    cases fuel with
    | zero => omega
    | succ f =>
      obtain ⟨hcur, nx, hnx, hw1⟩ := hw
      subst hcur
      have hk := hkeys m (by simp)
      unfold countRange
      simp only [hk, hmid m (by simp), if_true, hnx]
      rw [ih (fun e he => hkeys e (List.mem_cons_of_mem _ he))
        (fun e he => hmid e (List.mem_cons_of_mem _ he)) nx (k + 1) f hw1
        (by simp at hfuel; omega)]
      simp only [List.length_cons]
      congr 1
      omega

theorem collectValues_eq {heap : List (Node μ)} (Mid Rest : List (Entry μ))
    (hvals : ∀ e ∈ Mid, valuesAt heap e.ptr = some e.vals) (cur : Option Nat)
    (hw : Walk heap 0 cur ((Mid ++ Rest).map Entry.ptr)) :
    collectValues heap Mid.length cur = .ok (Mid.map Entry.vals) := by
  induction Mid generalizing cur with
  | nil => rfl
  | cons m Mid1 ih =>
    obtain ⟨hcur, nx, hnx, hw1⟩ := hw
    subst hcur
    simp only [List.length_cons, List.map_cons]
    unfold collectValues
    simp only [hvals m (by simp), hnx,
      ih (fun e he => hvals e (List.mem_cons_of_mem _ he)) nx hw1]

theorem filter_range_eq (Lo Mid Rest : List (Entry μ)) (keyMin keyMax : Int)
    (hlo : ∀ e ∈ Lo, e.key < keyMin) (hmid : ∀ e ∈ Mid, keyMin ≤ e.key ∧ e.key < keyMax)
    (hrest : ∀ e ∈ Rest, keyMax ≤ e.key) :
    (Lo ++ (Mid ++ Rest)).filter (fun e => decide (keyMin ≤ e.key ∧ e.key < keyMax)) = Mid := by
  rw [List.filter_append, List.filter_append]
  have h1 : Lo.filter (fun e => decide (keyMin ≤ e.key ∧ e.key < keyMax)) = [] := by
    rw [List.filter_eq_nil_iff]
    intro e he
    have := hlo e he
    simp; omega
  have h2 : Mid.filter (fun e => decide (keyMin ≤ e.key ∧ e.key < keyMax)) = Mid := by
    rw [List.filter_eq_self]
    intro e he
    have := hmid e he
    simp; omega
  have h3 : Rest.filter (fun e => decide (keyMin ≤ e.key ∧ e.key < keyMax)) = [] := by
    rw [List.filter_eq_nil_iff]
    intro e he
    have := hrest e he
    simp; omega
  rw [h1, h2, h3]
  simp

theorem Rep.SearchRange_eq {s : SkipList μ} {hdr : Nat} {L : List (Entry μ)} (rep : Rep s hdr L)
    {keyMin keyMax : Int} (hmin : s.minKey ≤ keyMin) (hlt : keyMin < keyMax) :
    s.SearchRange keyMin keyMax =
      (.ok ((L.filter (fun e => decide (keyMin ≤ e.key ∧ e.key < keyMax))).map Entry.vals),
        s) := by
  have hb := rep.level_bounds
  have hM : 0 < s.maxLevels.toNat := by have := rep.maxLevels_pos; omega
  obtain ⟨Lo, Hi, hL, hlo, hhi⟩ := sorted_split L rep.sorted keyMin
  subst hL
  have hhi1 : ∀ x ∈ Hi, keyMin ≤ x.key := by
    rcases hhi with h | ⟨e, Hi1, rfl, hk, h⟩
    · exact fun x hx => le_of_lt (h x hx)
    · intro x hx
      rcases List.mem_cons.mp hx with rfl | hx
      · omega
      · exact le_of_lt (h x hx)
  have hsHi : Hi.Pairwise (fun a b => a.key < b.key) :=
    (List.pairwise_append.mp rep.sorted).2.1
  obtain ⟨Mid, Rest, hH, hmid, hrest⟩ := sorted_split Hi hsHi keyMax
  subst hH
  have hrest1 : ∀ x ∈ Rest, keyMax ≤ x.key := by
    rcases hrest with h | ⟨e, R1, rfl, hk, h⟩
    · exact fun x hx => le_of_lt (h x hx)
    · intro x hx
      rcases List.mem_cons.mp hx with rfl | hx
      · omega
      · exact le_of_lt (h x hx)
  rw [filter_range_eq Lo Mid Rest keyMin keyMax hlo
    (fun e he => ⟨hhi1 e (List.mem_append_left _ he), hmid e he⟩) hrest1]
  have sp := rep.toSplit hlo hhi1
  have hd := sp.descend_eq (s.currentLevel + 1).toNat (by omega)
  rw [rep.predAt_top] at hd
  have hn := sp.next_pred hM
  have hw : Walk s.heap 0 (chainOf (Mid ++ Rest) 0).head? ((Mid ++ Rest).map Entry.ptr) := by
    have := (Chain.tail (sp.chain 0 hM)).toWalk
    rwa [chainOf_zero (Mid ++ Rest)] at this ⊢
  have hsize : Mid.length < s.heap.length := by
    have := rep.size
    simp at this
    omega
  unfold SkipList.SearchRange
  rw [if_neg (by omega), if_neg (by omega)]
  simp only [rep.header_eq, hd, hn]
  cases hh : (chainOf (Mid ++ Rest) 0).head? with
  | none =>
    rw [chainOf_zero] at hh
    have : Mid ++ Rest = [] := by
      cases hmr : Mid ++ Rest with
      | nil => rfl
      | cons a b => rw [hmr] at hh; simp at hh
    have : Mid = [] := (List.append_eq_nil.mp this).1
    subst this
    rfl
  | some start =>
    rw [hh] at hw
    simp only
    rw [countRange_eq Mid Rest
      (fun e he => rep.key_eq e (List.mem_append_right _ he)) hmid hrest1 (some start) 0
      s.heap.length hw hsize]
    simp only [Nat.zero_add]
    rw [collectValues_eq Mid Rest
      (fun e he => rep.vals_eq e (List.mem_append_right _ (List.mem_append_left _ he)))
      (some start) hw]

/-! ### Association lists -/

theorem assocLookup_assocSet {ν : Type} (k k1 : String) (v : ν) (l : List (String × ν)) :
    assocLookup k1 (assocSet k v l) = if k1 = k then some v else assocLookup k1 l := by
  induction l with
  | nil =>
    by_cases h : k1 = k
    · simp [assocSet, assocLookup, h]
    · simp [assocSet, assocLookup, h, Ne.symm h]
  | cons a rest ih =>
    obtain ⟨ka, va⟩ := a
    by_cases hka : ka = k
    · subst hka
      by_cases h : k1 = ka
      · simp [assocSet, assocLookup, h]
      · simp [assocSet, assocLookup, h, Ne.symm h]
    · by_cases h : k1 = k
      · subst h
        simp [assocSet, assocLookup, hka, ih]
      · by_cases h2 : ka = k1
        · simp [assocSet, assocLookup, hka, h, h2]
        · simp [assocSet, assocLookup, hka, h, h2, ih]

theorem assocLookup_assocDelete {ν : Type} (k k1 : String) (l : List (String × ν)) :
    assocLookup k1 (assocDelete k l) = if k1 = k then none else assocLookup k1 l := by
  induction l with
  | nil => simp [assocDelete, assocLookup]
  | cons a rest ih =>
    obtain ⟨ka, va⟩ := a
    unfold assocDelete at ih ⊢
    have ih1 : assocLookup k1 (List.filter (fun e => !decide (e.1 = k)) rest) =
        if k1 = k then none else assocLookup k1 rest := by simpa using ih
    by_cases hka : ka = k
    · subst hka
      by_cases h : k1 = ka
      · subst h
        simpa [List.filter_cons, assocLookup] using ih1
      · simp [List.filter_cons, assocLookup, h, Ne.symm h, ih1]
    · by_cases h : k1 = k
      · subst h
        simp [List.filter_cons, assocLookup, hka, ih1]
      · by_cases h2 : ka = k1
        · simp [List.filter_cons, assocLookup, hka, h, h2]
        · simp [List.filter_cons, assocLookup, hka, h, h2, ih1]

theorem assocLookup_eq_none {ν : Type} (k : String) (l : List (String × ν)) :
    assocLookup k l = none ↔ k ∉ l.map Prod.fst := by
  induction l with
  | nil => simp [assocLookup]
  | cons a rest ih =>
    obtain ⟨ka, va⟩ := a
    by_cases h : ka = k
    · simp [assocLookup, h]
    · simp [assocLookup, h, ih, Ne.symm h]

theorem assocLookup_isSome {ν : Type} (k : String) (l : List (String × ν)) :
    (∃ v, assocLookup k l = some v) ↔ k ∈ l.map Prod.fst := by
  have := assocLookup_eq_none k l
  cases h : assocLookup k l with
  | none => rw [h] at this; simp at this ⊢; simpa using this
  | some v =>
    rw [h] at this
    simp only [reduceCtorEq, false_iff, not_not] at this
    simp only [Option.some.injEq, exists_eq', true_iff]
    exact this

theorem keys_assocSet_new {ν : Type} (k : String) (v : ν) (l : List (String × ν))
    (h : k ∉ l.map Prod.fst) : (assocSet k v l).map Prod.fst = l.map Prod.fst ++ [k] := by
  induction l with
  | nil => rfl
  | cons a rest ih =>
    obtain ⟨ka, va⟩ := a
    simp only [List.map_cons, List.mem_cons, not_or] at h
    have hne : ka ≠ k := fun hh => h.1 hh.symm
    simp [assocSet, hne, ih h.2]

theorem keys_assocDelete {ν : Type} (k : String) (l : List (String × ν)) :
    (assocDelete k l).map Prod.fst = (l.map Prod.fst).filter (fun x => decide (x ≠ k)) := by
  unfold assocDelete
  rw [List.filter_map]
  rfl

theorem assocSet_ne_nil {ν : Type} (k : String) (v : ν) (l : List (String × ν)) :
    assocSet k v l ≠ [] := by
  cases l with
  | nil => simp [assocSet]
  | cons a rest =>
    obtain ⟨ka, va⟩ := a
    by_cases h : ka = k <;> simp [assocSet, h]

theorem assocSet_length_new {ν : Type} (k : String) (v : ν) (l : List (String × ν))
    (h : k ∉ l.map Prod.fst) : (assocSet k v l).length = l.length + 1 := by
  have := congrArg List.length (keys_assocSet_new k v l h)
  simpa using this

/-! ### Member lists of the abstraction -/

theorem fillMembers_append (A B : List MemberMap) :
    fillMembers (A ++ B) = fillMembers A ++ fillMembers B := by
  induction A with
  | nil => rfl
  | cons a rest ih => simp [fillMembers, ih]

theorem mem_fillMembers {l : List MemberMap} {m : String} :
    m ∈ fillMembers l ↔ ∃ v ∈ l, m ∈ mapKeys v := by
  induction l with
  | nil => simp [fillMembers]
  | cons a rest ih => simp [fillMembers, ih]

theorem membersAt_append (A B : List (Entry MapContent)) (r : Int) :
    membersAt (A ++ B) r = membersAt A r ++ membersAt B r := by
  simp [membersAt, fillMembers_append]

theorem membersAt_cons (e : Entry MapContent) (B : List (Entry MapContent)) (r : Int) :
    membersAt (e :: B) r =
      if e.key = r then mapKeys e.vals ++ membersAt B r else membersAt B r := by
  by_cases h : e.key = r <;> simp [membersAt, List.filter_cons, h, fillMembers]

theorem membersAt_eq_nil {L : List (Entry MapContent)} {r : Int} (h : ∀ e ∈ L, e.key ≠ r) :
    membersAt L r = [] := by
  unfold membersAt
  rw [List.filter_eq_nil_iff.mpr]
  · rfl
  · intro e he
    simpa using h e he

theorem mem_membersAt {L : List (Entry MapContent)} {r : Int} {m : String} :
    m ∈ membersAt L r ↔ ∃ e ∈ L, e.key = r ∧ m ∈ mapKeys e.vals := by
  unfold membersAt
  rw [mem_fillMembers]
  constructor
  · rintro ⟨v, hv, hm⟩
    obtain ⟨e, he, rfl⟩ := List.mem_map.mp hv
    have := List.mem_filter.mp he
    exact ⟨e, this.1, by simpa using this.2, hm⟩
  · rintro ⟨e, he, hk, hm⟩
    exact ⟨e.vals, List.mem_map_of_mem _ (List.mem_filter.mpr ⟨he, by simpa using hk⟩), hm⟩

theorem mem_membersIn {L : List (Entry MapContent)} {lo hi : Int} {m : String} :
    m ∈ membersIn L lo hi ↔ ∃ e ∈ L, (lo ≤ e.key ∧ e.key < hi) ∧ m ∈ mapKeys e.vals := by
  unfold membersIn
  rw [mem_fillMembers]
  constructor
  · rintro ⟨v, hv, hm⟩
    obtain ⟨e, he, rfl⟩ := List.mem_map.mp hv
    have := List.mem_filter.mp he
    exact ⟨e, this.1, by simpa using this.2, hm⟩
  · rintro ⟨e, he, hk, hm⟩
    exact ⟨e.vals, List.mem_map_of_mem _ (List.mem_filter.mpr ⟨he, by simpa using hk⟩), hm⟩

/-! ### Inspection -/

theorem levelWalk_eq {heap : List (Node μ)} {i : Nat} (l : List Nat) (cur : Option Nat) (fuel : Nat)
    (hw : Walk heap i cur l) (hfuel : l.length < fuel) :
    levelWalk heap i fuel cur = .ok l := by
  induction l generalizing cur fuel with
  | nil =>
    have : cur = none := hw
    subst this
    cases fuel with
    | zero => omega
    | succ f => rfl
  | cons p rest ih =>
    obtain ⟨hcur, nx, hnx, hw1⟩ := hw
    subst hcur
    cases fuel with
    | zero => omega
    | succ f =>
      unfold levelWalk
      simp only [hnx, ih nx f hw1 (by simp at hfuel; omega)]

theorem Rep.levelNodes_eq {s : SkipList μ} {hdr : Nat} {L : List (Entry μ)} (rep : Rep s hdr L)
    (i : Nat) (hi : (i : Int) < s.maxLevels) : s.levelNodes i = .ok (chainOf L i) := by
  have hc := rep.chain i hi
  unfold SkipList.levelNodes
  simp only [rep.header_eq, hc.head]
  refine levelWalk_eq _ _ _ hc.toWalk ?_
  have := chainOf_length_le L i
  have := rep.size
  omega

theorem readNodes_eq {heap : List (Node μ)} (L : List (Entry μ))
    (hk : ∀ e ∈ L, keyAt heap e.ptr = some e.key)
    (hv : ∀ e ∈ L, valuesAt heap e.ptr = some e.vals) :
    readNodes heap (L.map Entry.ptr) = .ok (L.map (fun e => (e.key, e.vals))) := by
  induction L with
  | nil => rfl
  | cons a rest ih =>
    have h1 := hk a (by simp)
    have h2 := hv a (by simp)
    unfold keyAt at h1
    unfold valuesAt at h2
    simp only [List.map_cons]
    unfold readNodes
    cases hp : heap[a.ptr]? with
    | none => simp [hp] at h1
    | some n =>
      simp only [hp, Option.some.injEq] at h1 h2
      simp only [ih (fun e he => hk e (List.mem_cons_of_mem _ he))
        (fun e he => hv e (List.mem_cons_of_mem _ he)), h1, h2]

theorem Rep.contents_eq {s : SkipList μ} {hdr : Nat} {L : List (Entry μ)} (rep : Rep s hdr L) :
    s.contents = .ok (L.map (fun e => (e.key, e.vals))) := by
  unfold SkipList.contents
  rw [rep.levelNodes_eq 0 (by have := rep.maxLevels_pos; omega), chainOf_zero]
  exact readNodes_eq L rep.key_eq rep.vals_eq

/-! ### The facade against its invariant -/

theorem getElem?_replicate_none (n i : Nat) (h : i < n) :
    (List.replicate n (none : Option Nat))[i]? = some none := by
  simp [List.getElem?_replicate, h]

theorem mutex_eta (s : SortedSet) (h : s.rwMutex = some ()) :
    ({ dict := s.dict, skiplist := s.skiplist, rwMutex := some () } : SortedSet) = s := by
  cases s
  simp_all

theorem init_model (s0 : SortedSet) : Model (SortedSet.Init s0).2 0 [] [] where
  mutex := rfl
  minKey := rfl
  rep := {
    header_eq := rfl
    maxLevels_pos := by show (1 : Int) ≤ 32; decide
    size := by show 0 < 1; decide
    nodup := by simp
    key_eq := by simp
    vals_eq := by simp
    height_lt := by simp
    sorted := List.Pairwise.nil
    chain := by
      intro i hi
      have hi2 : i < 32 := by
        have : ((SortedSet.Init s0).2.skiplist.maxLevels) = 32 := rfl
        rw [this] at hi
        omega
      exact getElem?_replicate_none 32 i hi2
    level_ge := by simp
    level_top := Or.inl rfl }
  dict_eq := rfl
  dict_nodup := by simp
  ranks := by simp
  members := by simp
  agree := by simp [assocLookup, membersAt, fillMembers]

theorem membersAt_mid {Lo Hi : List (Entry MapContent)} {e : Entry MapContent}
    (hlo : ∀ x ∈ Lo, x.key < e.key) (hhi : ∀ x ∈ Hi, e.key < x.key) (r : Int) :
    membersAt (Lo ++ e :: Hi) r = if e.key = r then mapKeys e.vals else
      membersAt Lo r ++ membersAt Hi r := by
  rw [membersAt_append, membersAt_cons]
  by_cases h : e.key = r
  · subst h
    rw [membersAt_eq_nil (fun x hx => by have := hlo x hx; omega),
      membersAt_eq_nil (fun x hx => by have := hhi x hx; omega)]
    simp
  · simp [h]

theorem Model.Get_eq {s : SortedSet} {hdr : Nat} {L : List (Entry MapContent)} {d : Dictionary}
    (md : Model s hdr L d) {r : Int} (hr : 0 ≤ r) : s.Get r = (.ok (membersAt L r), s) := by
  have hmin : s.skiplist.minKey ≤ r := by rw [md.minKey]; exact hr
  obtain ⟨Lo, Hi, hL, hlo, hhi⟩ := sorted_split L md.rep.sorted r
  subst hL
  unfold SortedSet.Get
  rw [if_neg (by omega)]
  simp only [md.mutex]
  rcases hhi with hhi | ⟨e, Hi1, rfl, hk, hhi⟩
  · rw [md.rep.SearchOrModify_absent hmin hlo hhi]
    simp only
    rw [membersAt_eq_nil, mutex_eta s md.mutex]
    · rfl
    · intro x hx
      rcases List.mem_append.mp hx with h | h
      · have := hlo x h; omega
      · have := hhi x h; omega
  · subst hk
    rw [md.rep.SearchOrModify_none hmin]
    simp only
    rw [membersAt_mid md.rep.mid_bounds.1 md.rep.mid_bounds.2, if_pos rfl, mutex_eta s md.mutex]

theorem Model.GetRange_eq {s : SortedSet} {hdr : Nat} {L : List (Entry MapContent)} {d : Dictionary}
    (md : Model s hdr L d) {lo hi : Int} (hlo : 0 ≤ lo) (hlt : lo < hi) :
    s.GetRange lo hi = (.ok (membersIn L lo hi), s) := by
  have hmin : s.skiplist.minKey ≤ lo := by rw [md.minKey]; exact hlo
  unfold SortedSet.GetRange
  rw [if_neg (by omega), if_neg (by omega)]
  simp only [md.mutex, md.rep.SearchRange_eq hmin hlt]
  rw [mutex_eta s md.mutex]
  rfl

theorem Model.Exists_eq {s : SortedSet} {hdr : Nat} {L : List (Entry MapContent)} {d : Dictionary}
    (md : Model s hdr L d) (m : String) : s.Exists m = (.ok (assocLookup m d).isSome, s) := by
  unfold SortedSet.Exists
  simp only [md.mutex, md.dict_eq, dictLookup]

theorem Model.GetRank_eq {s : SortedSet} {hdr : Nat} {L : List (Entry MapContent)} {d : Dictionary}
    (md : Model s hdr L d) (m : String) :
    s.GetRank m = (.ok ((assocLookup m d).getD (-1)), s) := by
  unfold SortedSet.GetRank
  simp only [md.mutex, md.dict_eq, dictLookup]
  cases assocLookup m d <;> rfl

theorem Model.rank_nonneg {s : SortedSet} {hdr : Nat} {L : List (Entry MapContent)} {d : Dictionary}
    (md : Model s hdr L d) {m : String} {r : Int} (h : assocLookup m d = some r) : 0 ≤ r := by
  obtain ⟨e, he, hk, _⟩ := mem_membersAt.mp ((md.agree m r).mp h)
  rw [← hk]; exact md.ranks e he

theorem Model.Add_duplicate {s : SortedSet} {hdr : Nat} {L : List (Entry MapContent)}
    {d : Dictionary}
    (md : Model s hdr L d) {m : String} {r0 : Int} (h : assocLookup m d = some r0)
    {r : Int} (hr : 0 ≤ r) (draws : Nat → Bool) : s.Add m r draws = (.ok false, s) := by
  unfold SortedSet.Add
  rw [if_neg (by omega)]
  simp only [md.mutex, md.dict_eq, dictLookup, h]

theorem Model.Remove_absent {s : SortedSet} {hdr : Nat} {L : List (Entry MapContent)}
    {d : Dictionary}
    (md : Model s hdr L d) {m : String} (h : assocLookup m d = none) :
    s.Remove m = (.ok false, s) := by
  unfold SortedSet.Remove
  simp only [md.mutex, md.dict_eq, dictLookup, h]

theorem mapKeys_some (l : List (String × Bool)) : mapKeys (some l) = l.map Prod.fst := rfl

theorem Model.not_mem_of_lookup_none {s : SortedSet} {hdr : Nat} {L : List (Entry MapContent)}
    {d : Dictionary}
    (md : Model s hdr L d) {m : String} (h : assocLookup m d = none) (r : Int) :
    m ∉ membersAt L r := by
  intro hm
  have := (md.agree m r).mpr hm
  rw [h] at this
  cases this

theorem agree_add {L L1 : List (Entry MapContent)} {d : Dictionary} {m : String} {r : Int}
    (hag : ∀ m1 r1, assocLookup m1 d = some r1 ↔ m1 ∈ membersAt L r1)
    (h : assocLookup m d = none)
    (heq : ∀ r1, membersAt L1 r1 = if r1 = r then membersAt L r ++ [m] else membersAt L r1) :
    ∀ m1 r1, assocLookup m1 (assocSet m r d) = some r1 ↔ m1 ∈ membersAt L1 r1 := by
  intro m1 r1
  rw [assocLookup_assocSet, heq r1]
  by_cases hm : m1 = m
  · subst hm
    by_cases hr : r1 = r
    · subst hr; simp
    · have hn : m1 ∉ membersAt L r1 := by
        intro hx
        have := (hag m1 r1).mpr hx
        rw [h] at this; cases this
      simp [hr, hn, Ne.symm hr]
  · by_cases hr : r1 = r
    · subst hr; simp [hm, hag]
    · simp [hm, hr, hag]

theorem agree_remove {L L1 : List (Entry MapContent)} {d : Dictionary} {m : String} {r : Int}
    (hag : ∀ m1 r1, assocLookup m1 d = some r1 ↔ m1 ∈ membersAt L r1)
    (h : assocLookup m d = some r)
    (heq : ∀ r1, membersAt L1 r1 =
      if r1 = r then (membersAt L r).filter (fun x => decide (x ≠ m)) else membersAt L r1) :
    ∀ m1 r1, assocLookup m1 (assocDelete m d) = some r1 ↔ m1 ∈ membersAt L1 r1 := by
  intro m1 r1
  rw [assocLookup_assocDelete, heq r1]
  by_cases hm : m1 = m
  · subst hm
    by_cases hr : r1 = r
    · subst hr; simp
    · have hn : m1 ∉ membersAt L r1 := by
        intro hx
        have := (hag m1 r1).mpr hx
        rw [h] at this
        exact hr (Option.some.inj this).symm
      simp [hr, hn]
  · by_cases hr : r1 = r
    · subst hr; simp [hm, hag]
    · simp [hm, hr, hag]

theorem nodup_assocSet {ν : Type} (k : String) (v : ν) (l : List (String × ν))
    (h : (l.map Prod.fst).Nodup) : ((assocSet k v l).map Prod.fst).Nodup := by
  induction l with
  | nil => simp [assocSet]
  | cons a rest ih =>
    obtain ⟨ka, va⟩ := a
    simp only [List.map_cons, List.nodup_cons] at h
    by_cases hk : ka = k
    · subst hk
      simp only [assocSet, if_true, List.map_cons, List.nodup_cons]
      exact h
    · simp only [assocSet, hk, if_false, List.map_cons, List.nodup_cons]
      refine ⟨?_, ih h.2⟩
      intro hm
      have hx : (∃ w, assocLookup ka (assocSet k v rest) = some w) :=
        (assocLookup_isSome ka _).mpr hm
      rw [assocLookup_assocSet, if_neg hk] at hx
      exact h.1 ((assocLookup_isSome ka rest).mp hx)

theorem nodup_assocDelete {ν : Type} (k : String) (l : List (String × ν))
    (h : (l.map Prod.fst).Nodup) : ((assocDelete k l).map Prod.fst).Nodup := by
  rw [keys_assocDelete]
  exact h.filter _

theorem Model.Add_new {s : SortedSet} {hdr : Nat} {L : List (Entry MapContent)} {d : Dictionary}
    (md : Model s hdr L d) {m : String} (h : assocLookup m d = none)
    {r : Int} (hr : 0 ≤ r) (draws : Nat → Bool) :
    ∃ s1 L1, s.Add m r draws = (.ok true, s1) ∧ Model s1 hdr L1 (assocSet m r d) ∧
      (∀ r1, membersAt L1 r1 = if r1 = r then membersAt L r ++ [m] else membersAt L r1) ∧
      (((∀ e ∈ L, e.key ≠ r) ∧ L1.length = L.length + 1) ∨
        ((∃ e ∈ L, e.key = r) ∧ L1.length = L.length)) := by
  have hmin : s.skiplist.minKey ≤ r := by rw [md.minKey]; exact hr
  obtain ⟨Lo, Hi, hL, hlo, hhi⟩ := sorted_split L md.rep.sorted r
  subst hL
  rcases hhi with hhi | ⟨e, Hi1, rfl, hk, hhi⟩
  · -- no node carries the rank: one is created
    obtain ⟨lvl, sl1, hadd, _, rep1, _, hmk, _⟩ := md.rep.AddOrModify_absent hmin hlo hhi
      (some [(m, true)]) (some (addModifier m)) () draws
    have hne : ∀ e ∈ Lo ++ Hi, e.key ≠ r := by
      intro x hx
      rcases List.mem_append.mp hx with h1 | h1
      · have := hlo x h1; omega
      · have := hhi x h1; omega
    have heq : ∀ r1, membersAt (Lo ++ ⟨s.skiplist.heap.length, r, some [(m, true)], lvl⟩ :: Hi) r1 =
        if r1 = r then membersAt (Lo ++ Hi) r ++ [m] else membersAt (Lo ++ Hi) r1 := by
      intro r1
      simp only [membersAt_append, membersAt_cons]
      by_cases hr1 : r1 = r
      · subst hr1
        have h1 : membersAt Lo r1 = [] :=
          membersAt_eq_nil (fun x hx => hne x (List.mem_append_left _ hx))
        have h2 : membersAt Hi r1 = [] :=
          membersAt_eq_nil (fun x hx => hne x (List.mem_append_right _ hx))
        simp [h1, h2, mapKeys]
      · simp [hr1, Ne.symm hr1]
    refine ⟨{ dict := some (assocSet m r d), skiplist := sl1, rwMutex := some () }, _, ?_, ?_,
      heq, Or.inl ⟨hne, by simp; omega⟩⟩
    · unfold SortedSet.Add
      rw [if_neg (by omega)]
      simp only [md.mutex, md.dict_eq, dictLookup, h, hadd]
    · exact {
        mutex := rfl
        minKey := by rw [← md.minKey]; exact hmk
        rep := rep1
        dict_eq := rfl
        dict_nodup := nodup_assocSet m r d md.dict_nodup
        ranks := by
          intro x hx
          rcases List.mem_append.mp hx with h1 | h1
          · exact md.ranks x (List.mem_append_left _ h1)
          · rcases List.mem_cons.mp h1 with rfl | h1
            · exact hr
            · exact md.ranks x (List.mem_append_right _ h1)
        members := by
          intro x hx
          rcases List.mem_append.mp hx with h1 | h1
          · exact md.members x (List.mem_append_left _ h1)
          · rcases List.mem_cons.mp h1 with rfl | h1
            · exact ⟨[(m, true)], rfl, by simp, by simp⟩
            · exact md.members x (List.mem_append_right _ h1)
        agree := agree_add md.agree h heq }
  · -- the rank has a node: the member is merged into it
    subst hk
    obtain ⟨l, hl, _, hnd⟩ := md.members e (by simp)
    have hmem : membersAt (Lo ++ e :: Hi1) e.key = l.map Prod.fst := by
      rw [membersAt_mid md.rep.mid_bounds.1 md.rep.mid_bounds.2, if_pos rfl, hl, mapKeys_some]
    have hnot : m ∉ l.map Prod.fst := by
      rw [← hmem]; exact md.not_mem_of_lookup_none h e.key
    have hf : addModifier m e.vals () = (.ok (some (assocSet m true l)), ()) := by
      simp [addModifier, hl, mapAssign]
    obtain ⟨sl1, hadd, rep1, _, hmk, _⟩ := md.rep.AddOrModify_present_ok hmin
      (some [(m, true)]) (addModifier m) () () _ draws hf
    have heq : ∀ r1, membersAt (Lo ++ { e with vals := some (assocSet m true l) } :: Hi1) r1 =
        if r1 = e.key then membersAt (Lo ++ e :: Hi1) e.key ++ [m]
        else membersAt (Lo ++ e :: Hi1) r1 := by
      intro r1
      rw [hmem]
      simp only [membersAt_append, membersAt_cons]
      by_cases hr1 : r1 = e.key
      · subst hr1
        have h1 : membersAt Lo e.key = [] :=
          membersAt_eq_nil (fun x hx => by have := md.rep.mid_bounds.1 x hx; omega)
        have h2 : membersAt Hi1 e.key = [] :=
          membersAt_eq_nil (fun x hx => by have := md.rep.mid_bounds.2 x hx; omega)
        simp [h1, h2, mapKeys_some, keys_assocSet_new m true l hnot]
      · simp [hr1, Ne.symm hr1]
    refine ⟨{ dict := some (assocSet m e.key d), skiplist := sl1, rwMutex := some () }, _, ?_,
      ?_, heq, Or.inr ⟨⟨e, by simp, rfl⟩, by simp⟩⟩
    · unfold SortedSet.Add
      rw [if_neg (by omega)]
      simp only [md.mutex, md.dict_eq, dictLookup, h, hadd]
    · exact {
        mutex := rfl
        minKey := by rw [← md.minKey]; exact hmk
        rep := rep1
        dict_eq := rfl
        dict_nodup := nodup_assocSet m e.key d md.dict_nodup
        ranks := by
          intro x hx
          rcases List.mem_append.mp hx with h1 | h1
          · exact md.ranks x (List.mem_append_left _ h1)
          · rcases List.mem_cons.mp h1 with rfl | h1
            · exact hr
            · exact md.ranks x (List.mem_append_right _ (List.mem_cons_of_mem _ h1))
        members := by
          intro x hx
          rcases List.mem_append.mp hx with h1 | h1
          · exact md.members x (List.mem_append_left _ h1)
          · rcases List.mem_cons.mp h1 with rfl | h1
            · exact ⟨assocSet m true l, rfl, assocSet_ne_nil _ _ _, nodup_assocSet _ _ _ hnd⟩
            · exact md.members x (List.mem_append_right _ (List.mem_cons_of_mem _ h1))
        agree := agree_add md.agree h heq }

theorem Model.Remove_present {s : SortedSet} {hdr : Nat} {L : List (Entry MapContent)}
    {d : Dictionary}
    (md : Model s hdr L d) {m : String} {r : Int} (h : assocLookup m d = some r) :
    ∃ s1 L1, s.Remove m = (.ok true, s1) ∧ Model s1 hdr L1 (assocDelete m d) ∧
      (∀ r1, membersAt L1 r1 =
        if r1 = r then (membersAt L r).filter (fun x => decide (x ≠ m)) else membersAt L r1) ∧
      ((((membersAt L r).filter (fun x => decide (x ≠ m)) = []) ∧ L1.length + 1 = L.length) ∨
        (((membersAt L r).filter (fun x => decide (x ≠ m)) ≠ []) ∧ L1.length = L.length)) := by
  obtain ⟨e, he, hk, hm⟩ := mem_membersAt.mp ((md.agree m r).mp h)
  obtain ⟨Lo, Hi, hL⟩ := List.append_of_mem he
  subst hL
  subst hk
  have hmin : s.skiplist.minKey ≤ e.key := by rw [md.minKey]; exact md.ranks e he
  obtain ⟨l, hl, _, hnd⟩ := md.members e he
  have hmem : membersAt (Lo ++ e :: Hi) e.key = l.map Prod.fst := by
    rw [membersAt_mid md.rep.mid_bounds.1 md.rep.mid_bounds.2, if_pos rfl, hl, mapKeys_some]
  have hlo0 : membersAt Lo e.key = [] :=
    membersAt_eq_nil (fun x hx => by have := md.rep.mid_bounds.1 x hx; omega)
  have hhi0 : membersAt Hi e.key = [] :=
    membersAt_eq_nil (fun x hx => by have := md.rep.mid_bounds.2 x hx; omega)
  have hkeys : (assocDelete m l).map Prod.fst =
      (l.map Prod.fst).filter (fun x => decide (x ≠ m)) := keys_assocDelete m l
  by_cases hempty : (assocDelete m l).length = 0
  · -- the member was the only one of its rank: the node goes
    have hnil : assocDelete m l = [] := List.length_eq_zero.mp hempty
    have hf : removeDecider m e.vals false = (.ok (true, none), true) := by
      simp [removeDecider, hl, mapDelete, mapLen, hempty]
    obtain ⟨sl1, hdel, rep1, _, hmk⟩ := md.rep.DeleteOrModify_delete hmin
      (removeDecider m) false true none hf
    have hfil : (l.map Prod.fst).filter (fun x => decide (x ≠ m)) = [] := by
      rw [← hkeys, hnil]; rfl
    have heq : ∀ r1, membersAt (Lo ++ Hi) r1 =
        if r1 = e.key then (membersAt (Lo ++ e :: Hi) e.key).filter (fun x => decide (x ≠ m))
        else membersAt (Lo ++ e :: Hi) r1 := by
      intro r1
      rw [hmem, hfil]
      simp only [membersAt_append, membersAt_cons]
      by_cases hr1 : r1 = e.key
      · subst hr1
        simp [hlo0, hhi0]
      · simp [hr1, Ne.symm hr1]
    refine ⟨{ dict := some (assocDelete m d), skiplist := sl1, rwMutex := some () }, _, ?_, ?_,
      heq, Or.inl ⟨by rw [hmem]; exact hfil, by simp; omega⟩⟩
    · unfold SortedSet.Remove
      simp only [md.mutex, md.dict_eq, dictLookup, h, hdel, Option.map_some']
    · exact {
        mutex := rfl
        minKey := by rw [← md.minKey]; exact hmk
        rep := rep1
        dict_eq := rfl
        dict_nodup := nodup_assocDelete m d md.dict_nodup
        ranks := by
          intro x hx
          rcases List.mem_append.mp hx with h1 | h1
          · exact md.ranks x (List.mem_append_left _ h1)
          · exact md.ranks x (List.mem_append_right _ (List.mem_cons_of_mem _ h1))
        members := by
          intro x hx
          rcases List.mem_append.mp hx with h1 | h1
          · exact md.members x (List.mem_append_left _ h1)
          · exact md.members x (List.mem_append_right _ (List.mem_cons_of_mem _ h1))
        agree := agree_remove md.agree h heq }
  · -- other members remain: only the set shrinks
    have hne : assocDelete m l ≠ [] := fun hx => hempty (by rw [hx]; rfl)
    have hf : removeDecider m e.vals false = (.ok (false, some (assocDelete m l)), true) := by
      simp [removeDecider, hl, mapDelete, mapLen, hempty]
    obtain ⟨sl1, hdel, rep1, _, hmk, _⟩ := md.rep.DeleteOrModify_keep hmin
      (removeDecider m) false true _ hf
    have hfil : (l.map Prod.fst).filter (fun x => decide (x ≠ m)) ≠ [] := by
      rw [← hkeys]
      intro hx
      exact hne (List.map_eq_nil_iff.mp hx)
    have heq : ∀ r1, membersAt (Lo ++ { e with vals := some (assocDelete m l) } :: Hi) r1 =
        if r1 = e.key then (membersAt (Lo ++ e :: Hi) e.key).filter (fun x => decide (x ≠ m))
        else membersAt (Lo ++ e :: Hi) r1 := by
      intro r1
      rw [hmem, ← hkeys]
      simp only [membersAt_append, membersAt_cons]
      by_cases hr1 : r1 = e.key
      · subst hr1
        simp [hlo0, hhi0, mapKeys_some]
      · simp [hr1, Ne.symm hr1]
    refine ⟨{ dict := some (assocDelete m d), skiplist := sl1, rwMutex := some () }, _, ?_, ?_,
      heq, Or.inr ⟨by rw [hmem]; exact hfil, by simp⟩⟩
    · unfold SortedSet.Remove
      simp only [md.mutex, md.dict_eq, dictLookup, h, hdel, Option.map_some']
    · exact {
        mutex := rfl
        minKey := by rw [← md.minKey]; exact hmk
        rep := rep1
        dict_eq := rfl
        dict_nodup := nodup_assocDelete m d md.dict_nodup
        ranks := by
          intro x hx
          rcases List.mem_append.mp hx with h1 | h1
          · exact md.ranks x (List.mem_append_left _ h1)
          · rcases List.mem_cons.mp h1 with rfl | h1
            · exact md.ranks e he
            · exact md.ranks x (List.mem_append_right _ (List.mem_cons_of_mem _ h1))
        members := by
          intro x hx
          rcases List.mem_append.mp hx with h1 | h1
          · exact md.members x (List.mem_append_left _ h1)
          · rcases List.mem_cons.mp h1 with rfl | h1
            · exact ⟨assocDelete m l, rfl, hne, nodup_assocDelete _ _ hnd⟩
            · exact md.members x (List.mem_append_right _ (List.mem_cons_of_mem _ h1))
        agree := agree_remove md.agree h heq }

/-- Every reachable sorted set satisfies the facade invariant. -/
theorem reachable_model {s : SortedSet} (h : Reachable s) : ∃ hdr L d, Model s hdr L d := by
  induction h with
  | init s0 => exact ⟨0, [], [], init_model s0⟩
  | add s m r draws _ ih =>
    obtain ⟨hdr, L, d, md⟩ := ih
    by_cases hr : r < 0
    · have : s.Add m r draws = (.error (.precondition
          "Rank must be greater than or equal to zero"), s) := by
        unfold SortedSet.Add
        rw [if_pos hr]
      rw [this]
      exact ⟨hdr, L, d, md⟩
    · cases hl : assocLookup m d with
      | some r0 =>
        rw [md.Add_duplicate hl (by omega) draws]
        exact ⟨hdr, L, d, md⟩
      | none =>
        obtain ⟨s1, L1, h1, md1, _⟩ := md.Add_new hl (by omega : 0 ≤ r) draws
        rw [h1]
        exact ⟨hdr, L1, _, md1⟩
  | remove s m _ ih =>
    obtain ⟨hdr, L, d, md⟩ := ih
    cases hl : assocLookup m d with
    | some r0 =>
      obtain ⟨s1, L1, h1, md1, _⟩ := md.Remove_present hl
      rw [h1]
      exact ⟨hdr, L1, _, md1⟩
    | none =>
      rw [md.Remove_absent hl]
      exact ⟨hdr, L, d, md⟩

/-! ### Consequences of the facade invariant -/

theorem nodup_fillMembers (l : List MemberMap) (h1 : ∀ v ∈ l, (mapKeys v).Nodup)
    (h2 : l.Pairwise (fun a b => ∀ m, m ∈ mapKeys a → m ∉ mapKeys b)) :
    (fillMembers l).Nodup := by
  induction l with
  | nil => simp [fillMembers]
  | cons a rest ih =>
    have hp := List.pairwise_cons.mp h2
    simp only [fillMembers]
    refine List.nodup_append.mpr ⟨h1 a (by simp), ih (fun v hv => h1 v (by simp [hv])) hp.2, ?_⟩
    rw [List.disjoint_left]
    intro m hm hm2
    obtain ⟨v, hv, hmv⟩ := mem_fillMembers.mp hm2
    exact hp.1 v hv m hm hmv

theorem Model.keys_nodup {s : SortedSet} {hdr : Nat} {L : List (Entry MapContent)} {d : Dictionary}
    (md : Model s hdr L d) : ∀ e ∈ L, (mapKeys e.vals).Nodup := by
  intro e he
  obtain ⟨l, hl, _, hnd⟩ := md.members e he
  rw [hl]; exact hnd

theorem Model.mem_entry {s : SortedSet} {hdr : Nat} {L : List (Entry MapContent)} {d : Dictionary}
    (md : Model s hdr L d) {e : Entry MapContent} (he : e ∈ L) {m : String}
        (hm : m ∈ mapKeys e.vals) :
    assocLookup m d = some e.key :=
  (md.agree m e.key).mpr (mem_membersAt.mpr ⟨e, he, rfl, hm⟩)

theorem Model.disjoint {s : SortedSet} {hdr : Nat} {L : List (Entry MapContent)} {d : Dictionary}
    (md : Model s hdr L d) :
    L.Pairwise (fun a b => ∀ m, m ∈ mapKeys a.vals → m ∉ mapKeys b.vals) := by
  refine List.Pairwise.imp_of_mem ?_ md.rep.sorted
  intro a b ha hb hlt m hma hmb
  have h1 := md.mem_entry ha hma
  have h2 := md.mem_entry hb hmb
  rw [h1] at h2
  have := Option.some.inj h2
  omega

theorem Model.nodup_sublist {s : SortedSet} {hdr : Nat} {L : List (Entry MapContent)}
    {d : Dictionary}
    (md : Model s hdr L d) {F : List (Entry MapContent)} (hF : F.Sublist L) :
    (fillMembers (F.map Entry.vals)).Nodup := by
  refine nodup_fillMembers _ ?_ ?_
  · intro v hv
    obtain ⟨e, he, rfl⟩ := List.mem_map.mp hv
    exact md.keys_nodup e (hF.subset he)
  · rw [List.pairwise_map]
    exact md.disjoint.sublist hF

theorem Model.membersAt_nodup {s : SortedSet} {hdr : Nat} {L : List (Entry MapContent)}
    {d : Dictionary}
    (md : Model s hdr L d) (r : Int) : (membersAt L r).Nodup :=
  md.nodup_sublist (List.filter_sublist _)

theorem Model.membersIn_nodup {s : SortedSet} {hdr : Nat} {L : List (Entry MapContent)}
    {d : Dictionary}
    (md : Model s hdr L d) (lo hi : Int) : (membersIn L lo hi).Nodup :=
  md.nodup_sublist (List.filter_sublist _)

theorem Model.node_iff {s : SortedSet} {hdr : Nat} {L : List (Entry MapContent)} {d : Dictionary}
    (md : Model s hdr L d) (r : Int) : (∃ e ∈ L, e.key = r) ↔ membersAt L r ≠ [] := by
  constructor
  · rintro ⟨e, he, hk⟩ hnil
    obtain ⟨l, hl, hne, _⟩ := md.members e he
    cases l with
    | nil => exact hne rfl
    | cons a rest =>
      have : a.1 ∈ membersAt L r :=
        mem_membersAt.mpr ⟨e, he, hk, by rw [hl, mapKeys_some]; simp⟩
      rw [hnil] at this
      cases this
  · intro hne
    cases hm : membersAt L r with
    | nil => exact absurd hm hne
    | cons a rest =>
      have : a ∈ membersAt L r := by rw [hm]; simp
      obtain ⟨e, he, hk, _⟩ := mem_membersAt.mp this
      exact ⟨e, he, hk⟩

theorem Model.Get_entry {s : SortedSet} {hdr : Nat} {L : List (Entry MapContent)} {d : Dictionary}
    (md : Model s hdr L d) {e : Entry MapContent} (he : e ∈ L) : s.Get e.key =
        (.ok (mapKeys e.vals), s) := by
  rw [md.Get_eq (md.ranks e he)]
  obtain ⟨Lo, Hi, hL⟩ := List.append_of_mem he
  subst hL
  rw [membersAt_mid md.rep.mid_bounds.1 md.rep.mid_bounds.2, if_pos rfl]

theorem Model.dictLookup_eq {s : SortedSet} {hdr : Nat} {L : List (Entry MapContent)}
    {d : Dictionary}
    (md : Model s hdr L d) (m : String) : dictLookup s.dict m = assocLookup m d := by
  rw [md.dict_eq]; rfl

theorem Model.GetRank_iff {s : SortedSet} {hdr : Nat} {L : List (Entry MapContent)} {d : Dictionary}
    (md : Model s hdr L d) (m : String) {r : Int} (hr : 0 ≤ r) :
    (s.GetRank m).1 = .ok r ↔ assocLookup m d = some r := by
  rw [md.GetRank_eq]
  cases h : assocLookup m d with
  | none =>
    simp only [Option.getD_none, Except.ok.injEq, reduceCtorEq, iff_false]
    omega
  | some v => simp

theorem assocLookup_eq_some_iff {ν : Type} (k : String) (v : ν) (l : List (String × ν))
    (h : (l.map Prod.fst).Nodup) : assocLookup k l = some v ↔ (k, v) ∈ l := by
  induction l with
  | nil => simp [assocLookup]
  | cons a rest ih =>
    obtain ⟨ka, va⟩ := a
    simp only [List.map_cons, List.nodup_cons] at h
    by_cases hk : ka = k
    · subst hk
      simp only [assocLookup, if_true, Option.some.injEq, List.mem_cons, Prod.mk.injEq, true_and]
      constructor
      · intro hv; exact Or.inl hv.symm
      · rintro (hv | hm)
        · exact hv.symm
        · exact absurd (List.mem_map_of_mem Prod.fst hm) h.1
    · simp only [assocLookup, hk, if_false, ih h.2, List.mem_cons, Prod.mk.injEq]
      constructor
      · intro hm; exact Or.inr hm
      · rintro (⟨hv, _⟩ | hm)
        · exact absurd hv.symm hk
        · exact hm

theorem fillMembers_eq_flatten (l : List MemberMap) :
    fillMembers l = (l.map mapKeys).flatten := by
  induction l with
  | nil => rfl
  | cons a rest ih => simp [fillMembers, ih]

theorem fresh_reachable : Reachable fresh := Reachable.init SortedSet.zero

theorem scenario_reachable : Reachable scenario :=
  Reachable.add _ _ _ _ (Reachable.add _ _ _ _ (Reachable.add _ _ _ _ fresh_reachable))

/-! ## The claims -/

/-- C1: in every state reachable from `Init` by `Add`/`Remove` (for any
draws) and for all ranks `0 ≤ lo < hi`, `GetRange(lo, hi)` returns, without
changing the state, a duplicate-free sequence whose elements are exactly the
members whose rank (as `GetRank` reports it) lies in `[lo, hi)`, and the
sequence is the concatenation, over strictly ascending ranks of `[lo, hi)`, of
blocks each of which is a permutation of `Get` of that rank. -/
theorem getRange_half_open (s : SortedSet) (h : Reachable s) (lo hi : Int)
    (hlo : 0 ≤ lo) (hlt : lo < hi) :
    ∃ out, s.GetRange lo hi = (.ok out, s) ∧ out.Nodup ∧
      (∀ m, m ∈ out ↔ ∃ r, (s.GetRank m).1 = .ok r ∧ lo ≤ r ∧ r < hi) ∧
      ∃ ranks blocks, ranks.Pairwise (fun a b => a < b) ∧
        (∀ r ∈ ranks, lo ≤ r ∧ r < hi) ∧
        List.Forall₂ (fun r b => ∃ g, (s.Get r).1 = .ok g ∧ b.Perm g) ranks blocks ∧
        out = blocks.flatten := by
  obtain ⟨hdr, L, d, md⟩ := reachable_model h
  refine ⟨membersIn L lo hi, md.GetRange_eq hlo hlt, md.membersIn_nodup lo hi, ?_, ?_⟩
  · intro m
    rw [mem_membersIn]
    constructor
    · rintro ⟨e, he, hin, hm⟩
      exact ⟨e.key, (md.GetRank_iff m (md.ranks e he)).mpr (md.mem_entry he hm), hin.1, hin.2⟩
    · rintro ⟨r, hr, h1, h2⟩
      have hl := (md.GetRank_iff m (by omega)).mp hr
      obtain ⟨e, he, hk, hm⟩ := mem_membersAt.mp ((md.agree m r).mp hl)
      exact ⟨e, he, by rw [hk]; exact ⟨h1, h2⟩, hm⟩
  · refine ⟨(L.filter (fun e => decide (lo ≤ e.key ∧ e.key < hi))).map Entry.key,
      (L.filter (fun e => decide (lo ≤ e.key ∧ e.key < hi))).map (fun e => mapKeys e.vals),
      ?_, ?_, ?_, ?_⟩
    · rw [List.pairwise_map]
      exact md.rep.sorted.sublist (List.filter_sublist _)
    · intro r hr
      obtain ⟨e, he, rfl⟩ := List.mem_map.mp hr
      simpa using (List.mem_filter.mp he).2
    · rw [List.forall₂_map_left_iff, List.forall₂_map_right_iff, List.forall₂_same]
      intro e he
      have heL := (List.mem_filter.mp he).1
      exact ⟨mapKeys e.vals, by rw [md.Get_entry heL], List.Perm.refl _⟩
    · unfold membersIn
      rw [fillMembers_eq_flatten, List.map_map]
      rfl

/-- Instance of C1 on the three-member scenario with the range `[4, 6)`. -/
theorem getRange_half_open_witness :
    ∃ out, scenario.GetRange 4 6 = (.ok out, scenario) ∧ out.Nodup ∧
      (∀ m, m ∈ out ↔ ∃ r, (scenario.GetRank m).1 = .ok r ∧ 4 ≤ r ∧ r < 6) ∧
      ∃ ranks blocks, ranks.Pairwise (fun a b => a < b) ∧
        (∀ r ∈ ranks, (4 : Int) ≤ r ∧ r < 6) ∧
        List.Forall₂ (fun r b => ∃ g, (scenario.Get r).1 = .ok g ∧ b.Perm g) ranks blocks ∧
        out = blocks.flatten :=
  getRange_half_open scenario scenario_reachable 4 6 (by decide) (by decide)

/-- C2: in every reachable state the level-0 nodes can be read, their keys
strictly increase, the dictionary maps `m` to `r` exactly when some node has
key `r` and holds `m`, and the concatenation of all member sets has no
repetition (so no member sits in two nodes). -/
theorem dictionary_index_consistent (s : SortedSet) (h : Reachable s) :
    ∃ nodes, s.skiplist.contents = .ok nodes ∧
      (nodes.map Prod.fst).Pairwise (fun a b => a < b) ∧
      (∀ m r, dictLookup s.dict m = some r ↔ ∃ kv ∈ nodes, kv.1 = r ∧ m ∈ mapKeys kv.2) ∧
      (fillMembers (nodes.map Prod.snd)).Nodup := by
  obtain ⟨hdr, L, d, md⟩ := reachable_model h
  refine ⟨L.map (fun e => (e.key, e.vals)), md.rep.contents_eq, ?_, ?_, ?_⟩
  · rw [List.map_map, List.pairwise_map]
    exact md.rep.sorted
  · intro m r
    rw [md.dictLookup_eq, md.agree, mem_membersAt]
    constructor
    · rintro ⟨e, he, hk, hm⟩
      exact ⟨(e.key, e.vals), List.mem_map_of_mem _ he, hk, hm⟩
    · rintro ⟨kv, hkv, hk, hm⟩
      obtain ⟨e, he, rfl⟩ := List.mem_map.mp hkv
      exact ⟨e, he, hk, hm⟩
  · rw [List.map_map]
    exact md.nodup_sublist (List.Sublist.refl L)

/-- Instance of C2 on the three-member scenario. -/
theorem dictionary_index_consistent_witness :
    ∃ nodes, scenario.skiplist.contents = .ok nodes ∧
      (nodes.map Prod.fst).Pairwise (fun a b => a < b) ∧
      (∀ m r, dictLookup scenario.dict m = some r ↔
        ∃ kv ∈ nodes, kv.1 = r ∧ m ∈ mapKeys kv.2) ∧
      (fillMembers (nodes.map Prod.snd)).Nodup :=
  dictionary_index_consistent scenario scenario_reachable

/-- C3: in every reachable state and for every member string `m`, `Exists(m)`
and `GetRank(m)` return without changing the state, `Exists(m)` is true exactly
when `GetRank(m)` is not `-1`, and when it is true `m` is an element of
`Get(GetRank(m))`. -/
theorem exists_iff_rank (s : SortedSet) (h : Reachable s) (m : String) :
    ∃ b r, s.Exists m = (.ok b, s) ∧ s.GetRank m = (.ok r, s) ∧
      (b = true ↔ r ≠ -1) ∧
      (b = true → ∃ g, s.Get r = (.ok g, s) ∧ m ∈ g) := by
  obtain ⟨hdr, L, d, md⟩ := reachable_model h
  refine ⟨_, _, md.Exists_eq m, md.GetRank_eq m, ?_, ?_⟩
  · cases hl : assocLookup m d with
    | none => simp
    | some v =>
      have := md.rank_nonneg hl
      simp only [Option.isSome_some, Option.getD_some, ne_eq, true_iff]
      omega
  · intro hb
    cases hl : assocLookup m d with
    | none => rw [hl] at hb; simp at hb
    | some v =>
      have hv := md.rank_nonneg hl
      refine ⟨membersAt L v, ?_, (md.agree m v).mp hl⟩
      simp only [Option.getD_some]
      exact md.Get_eq hv

/-- Instance of C3 on the three-member scenario for the member `"World"`. -/
theorem exists_iff_rank_witness :
    ∃ b r, scenario.Exists "World" = (.ok b, scenario) ∧
      scenario.GetRank "World" = (.ok r, scenario) ∧
      (b = true ↔ r ≠ -1) ∧
      (b = true → ∃ g, scenario.Get r = (.ok g, scenario) ∧ "World" ∈ g) :=
  exists_iff_rank scenario scenario_reachable "World"

theorem Get_negative (s : SortedSet) {r : Int} (hr : r < 0) :
    s.Get r = (.error (.precondition "Rank must be greater than or equal to zero"), s) := by
  unfold SortedSet.Get
  rw [if_pos hr]

theorem Model.Exists_true_iff {s : SortedSet} {hdr : Nat} {L : List (Entry MapContent)}
    {d : Dictionary}
    (md : Model s hdr L d) (m : String) :
    (s.Exists m).1 = .ok true ↔ ∃ r, assocLookup m d = some r := by
  rw [md.Exists_eq]
  cases assocLookup m d <;> simp

theorem Model.Exists_false_iff {s : SortedSet} {hdr : Nat} {L : List (Entry MapContent)}
    {d : Dictionary}
    (md : Model s hdr L d) (m : String) :
    (s.Exists m).1 = .ok false ↔ assocLookup m d = none := by
  rw [md.Exists_eq]
  cases assocLookup m d <;> simp

theorem Model.present_rank {s : SortedSet} {hdr : Nat} {L : List (Entry MapContent)}
    {d : Dictionary}
    (md : Model s hdr L d) {m : String} {r : Int} (hex : (s.Exists m).1 = .ok true)
    (hrank : (s.GetRank m).1 = .ok r) : assocLookup m d = some r := by
  obtain ⟨r0, h0⟩ := (md.Exists_true_iff m).mp hex
  rw [md.GetRank_eq, h0] at hrank
  simp only [Option.getD_some, Except.ok.injEq] at hrank
  rw [h0, hrank]

/-- C4: in a reachable state where `m` is present with rank `r`, `Add(m, r2)`
for any rank `r2 ≥ 0` returns false and leaves the whole state (dictionary and
skip list) as it was, so `GetRank(m)` is still `r` and `Get`/`GetRange` give
what they gave before. -/
theorem duplicate_add_noop (s : SortedSet) (h : Reachable s) (m : String) (r r2 : Int)
    (draws : Nat → Bool) (hex : (s.Exists m).1 = .ok true) (hrank : (s.GetRank m).1 = .ok r)
    (hr2 : 0 ≤ r2) :
    s.Add m r2 draws = (.ok false, s) ∧
      ((s.Add m r2 draws).2.GetRank m).1 = .ok r ∧
      (∀ q, (s.Add m r2 draws).2.Get q = s.Get q) ∧
      (∀ lo hi, (s.Add m r2 draws).2.GetRange lo hi = s.GetRange lo hi) := by
  obtain ⟨hdr, L, d, md⟩ := reachable_model h
  have hl := md.present_rank hex hrank
  have hadd := md.Add_duplicate hl hr2 draws
  rw [hadd]
  exact ⟨rfl, hrank, fun _ => rfl, fun _ _ => rfl⟩

/-- Instance of C4: `Add("World2", 7)` on the scenario, where `"World2"` has rank 6. -/
theorem duplicate_add_noop_witness :
    scenario.Add "World2" 7 neverPromote = (.ok false, scenario) ∧
      ((scenario.Add "World2" 7 neverPromote).2.GetRank "World2").1 = .ok 6 ∧
      (∀ q, (scenario.Add "World2" 7 neverPromote).2.Get q = scenario.Get q) ∧
      (∀ lo hi, (scenario.Add "World2" 7 neverPromote).2.GetRange lo hi =
        scenario.GetRange lo hi) :=
  duplicate_add_noop scenario scenario_reachable "World2" 6 7 neverPromote rfl rfl (by decide)

/-- C5: in a reachable state, for a member `m` that is not present and a rank
`r ≥ 0`, `Add(m, r)` returns true; afterwards `Exists(m)` is true,
`GetRank(m) = r`, `Get(r)` is a permutation of `m` followed by the previous
`Get(r)`, the number of level-0 nodes grows by one when no node had key `r` and
stays the same when one had, every other member keeps its `Exists` and
`GetRank` results and `Get` at every other rank is unchanged. -/
theorem add_new_member (s : SortedSet) (h : Reachable s) (m : String) (r : Int)
    (draws : Nat → Bool) (hex : (s.Exists m).1 = .ok false) (hr : 0 ≤ r) :
    ∃ s1, s.Add m r draws = (.ok true, s1) ∧
      s1.Exists m = (.ok true, s1) ∧ s1.GetRank m = (.ok r, s1) ∧
      (∃ g g1, s.Get r = (.ok g, s) ∧ s1.Get r = (.ok g1, s1) ∧ g1.Perm (m :: g)) ∧
      (∃ nodes nodes1, s.skiplist.contents = .ok nodes ∧ s1.skiplist.contents = .ok nodes1 ∧
        ((∀ kv ∈ nodes, kv.1 ≠ r) → nodes1.length = nodes.length + 1) ∧
        ((∃ kv ∈ nodes, kv.1 = r) → nodes1.length = nodes.length)) ∧
      (∀ m1, m1 ≠ m → (s1.Exists m1).1 = (s.Exists m1).1 ∧
        (s1.GetRank m1).1 = (s.GetRank m1).1) ∧
      (∀ r1, r1 ≠ r → (s1.Get r1).1 = (s.Get r1).1) := by
  obtain ⟨hdr, L, d, md⟩ := reachable_model h
  have hl := (md.Exists_false_iff m).mp hex
  obtain ⟨s1, L1, hadd, md1, heq, hcount⟩ := md.Add_new hl hr draws
  refine ⟨s1, hadd, ?_, ?_, ?_, ?_, ?_, ?_⟩
  · rw [md1.Exists_eq, assocLookup_assocSet, if_pos rfl]; rfl
  · rw [md1.GetRank_eq, assocLookup_assocSet, if_pos rfl]; rfl
  · refine ⟨membersAt L r, membersAt L1 r, md.Get_eq hr, md1.Get_eq hr, ?_⟩
    rw [heq r, if_pos rfl]
    exact List.perm_append_singleton m _
  · refine ⟨_, _, md.rep.contents_eq, md1.rep.contents_eq, ?_, ?_⟩
    · intro hno
      rcases hcount with ⟨_, hlen⟩ | ⟨⟨e, he, hk⟩, _⟩
      · simpa using hlen
      · exact absurd hk (hno (e.key, e.vals) (List.mem_map_of_mem _ he))
    · rintro ⟨kv, hkv, hk⟩
      obtain ⟨e, he, rfl⟩ := List.mem_map.mp hkv
      rcases hcount with ⟨hno, _⟩ | ⟨_, hlen⟩
      · exact absurd hk (hno e he)
      · simpa using hlen
  · intro m1 hm1
    rw [md1.Exists_eq, md.Exists_eq, md1.GetRank_eq, md.GetRank_eq, assocLookup_assocSet,
      if_neg hm1]
    exact ⟨rfl, rfl⟩
  · intro r1 hr1
    by_cases hneg : r1 < 0
    · rw [Get_negative s1 hneg, Get_negative s hneg]
    · rw [md1.Get_eq (by omega), md.Get_eq (by omega), heq r1, if_neg hr1]

/-- Instance of C5: adding the absent member `"New"` at rank 5 to the scenario. -/
theorem add_new_member_witness :
    ∃ s1, scenario.Add "New" 5 alwaysPromote = (.ok true, s1) ∧
      s1.Exists "New" = (.ok true, s1) ∧ s1.GetRank "New" = (.ok 5, s1) ∧
      (∃ g g1, scenario.Get 5 = (.ok g, scenario) ∧ s1.Get 5 = (.ok g1, s1) ∧
        g1.Perm ("New" :: g)) ∧
      (∃ nodes nodes1, scenario.skiplist.contents = .ok nodes ∧
        s1.skiplist.contents = .ok nodes1 ∧
        ((∀ kv ∈ nodes, kv.1 ≠ 5) → nodes1.length = nodes.length + 1) ∧
        ((∃ kv ∈ nodes, kv.1 = 5) → nodes1.length = nodes.length)) ∧
      (∀ m1, m1 ≠ "New" → (s1.Exists m1).1 = (scenario.Exists m1).1 ∧
        (s1.GetRank m1).1 = (scenario.GetRank m1).1) ∧
      (∀ r1, r1 ≠ 5 → (s1.Get r1).1 = (scenario.Get r1).1) :=
  add_new_member scenario scenario_reachable "New" 5 alwaysPromote rfl (by decide)

/-- C6: in a reachable state and for every member string `m`, `Remove(m)`
returns (it does not panic), its result is true exactly when `Exists(m)` was
true before the call, and when the result is false the state is unchanged. -/
theorem remove_reports_presence (s : SortedSet) (h : Reachable s) (m : String) :
    ∃ b, (s.Remove m).1 = .ok b ∧ (b = true ↔ (s.Exists m).1 = .ok true) ∧
      (b = false → (s.Remove m).2 = s) := by
  obtain ⟨hdr, L, d, md⟩ := reachable_model h
  cases hl : assocLookup m d with
  | none =>
    refine ⟨false, by rw [md.Remove_absent hl], ?_, fun _ => by rw [md.Remove_absent hl]⟩
    rw [md.Exists_true_iff, hl]
    simp
  | some r =>
    obtain ⟨s1, L1, hrem, _⟩ := md.Remove_present hl
    refine ⟨true, by rw [hrem], ?_, fun hb => by cases hb⟩
    rw [md.Exists_true_iff, hl]
    simp

/-- Instance of C6: removing `"Hello"` from the scenario. -/
theorem remove_reports_presence_witness :
    ∃ b, (scenario.Remove "Hello").1 = .ok b ∧
      (b = true ↔ (scenario.Exists "Hello").1 = .ok true) ∧
      (b = false → (scenario.Remove "Hello").2 = scenario) :=
  remove_reports_presence scenario scenario_reachable "Hello"

/-- C7: in a reachable state where `m` is present with rank `r`, `Remove(m)`
returns true; afterwards `Exists(m)` is false and `GetRank(m)` is `-1`, the
previous `Get(r)` is a permutation of `m` followed by the new `Get(r)`, which
no longer holds `m`; the node with key `r` is gone (and the number of level-0
nodes is one less) exactly when the new `Get(r)` is empty, otherwise the number
of nodes is unchanged; every other member keeps its `Exists` and `GetRank`
results and `Get` at every other rank is unchanged. -/
theorem remove_frame (s : SortedSet) (h : Reachable s) (m : String) (r : Int)
    (hex : (s.Exists m).1 = .ok true) (hrank : (s.GetRank m).1 = .ok r) :
    ∃ s1, s.Remove m = (.ok true, s1) ∧
      s1.Exists m = (.ok false, s1) ∧ s1.GetRank m = (.ok (-1), s1) ∧
      (∃ g g1, s.Get r = (.ok g, s) ∧ s1.Get r = (.ok g1, s1) ∧ g.Perm (m :: g1) ∧ m ∉ g1 ∧
        ∃ nodes nodes1, s.skiplist.contents = .ok nodes ∧
          s1.skiplist.contents = .ok nodes1 ∧
          ((∃ kv ∈ nodes1, kv.1 = r) ↔ g1 ≠ []) ∧
          (g1 = [] → nodes1.length + 1 = nodes.length) ∧
          (g1 ≠ [] → nodes1.length = nodes.length)) ∧
      (∀ m1, m1 ≠ m → (s1.Exists m1).1 = (s.Exists m1).1 ∧
        (s1.GetRank m1).1 = (s.GetRank m1).1) ∧
      (∀ r1, r1 ≠ r → (s1.Get r1).1 = (s.Get r1).1) := by
  obtain ⟨hdr, L, d, md⟩ := reachable_model h
  have hl := md.present_rank hex hrank
  have hr := md.rank_nonneg hl
  obtain ⟨s1, L1, hrem, md1, heq, hcount⟩ := md.Remove_present hl
  have hg1 : membersAt L1 r = (membersAt L r).filter (fun x => decide (x ≠ m)) := by
    rw [heq r, if_pos rfl]
  refine ⟨s1, hrem, ?_, ?_, ?_, ?_, ?_⟩
  · rw [md1.Exists_eq, assocLookup_assocDelete, if_pos rfl]; rfl
  · rw [md1.GetRank_eq, assocLookup_assocDelete, if_pos rfl]; rfl
  · refine ⟨membersAt L r, membersAt L1 r, md.Get_eq hr, md1.Get_eq hr, ?_, ?_, ?_⟩
    · have hm : m ∈ membersAt L r := (md.agree m r).mp hl
      have hp := List.perm_cons_erase hm
      rw [(md.membersAt_nodup r).erase_eq_filter m] at hp
      rw [hg1]
      have hc : List.filter (fun x => x != m) (membersAt L r) =
          List.filter (fun x => decide (x ≠ m)) (membersAt L r) :=
        List.filter_congr (fun x _ => by by_cases hx : x = m <;> simp [hx])
      rwa [hc] at hp
    · rw [hg1]
      intro hm
      have := (List.mem_filter.mp hm).2
      simp at this
    · refine ⟨_, _, md.rep.contents_eq, md1.rep.contents_eq, ?_, ?_, ?_⟩
      · rw [← md1.node_iff r]
        constructor
        · rintro ⟨kv, hkv, hk⟩
          obtain ⟨e, he, rfl⟩ := List.mem_map.mp hkv
          exact ⟨e, he, hk⟩
        · rintro ⟨e, he, hk⟩
          exact ⟨(e.key, e.vals), List.mem_map_of_mem _ he, hk⟩
      · intro hnil
        rw [hg1] at hnil
        rcases hcount with ⟨_, hlen⟩ | ⟨hne, _⟩
        · simpa using hlen
        · exact absurd hnil hne
      · intro hne
        rw [hg1] at hne
        rcases hcount with ⟨hnil, _⟩ | ⟨_, hlen⟩
        · exact absurd hnil hne
        · simpa using hlen
  · intro m1 hm1
    rw [md1.Exists_eq, md.Exists_eq, md1.GetRank_eq, md.GetRank_eq, assocLookup_assocDelete,
      if_neg hm1]
    exact ⟨rfl, rfl⟩
  · intro r1 hr1
    by_cases hneg : r1 < 0
    · rw [Get_negative s1 hneg, Get_negative s hneg]
    · rw [md1.Get_eq (by omega), md.Get_eq (by omega), heq r1, if_neg hr1]

/-- Instance of C7: removing `"World"` (rank 5) from the scenario. -/
theorem remove_frame_witness :
    ∃ s1, scenario.Remove "World" = (.ok true, s1) ∧
      s1.Exists "World" = (.ok false, s1) ∧ s1.GetRank "World" = (.ok (-1), s1) ∧
      (∃ g g1, scenario.Get 5 = (.ok g, scenario) ∧ s1.Get 5 = (.ok g1, s1) ∧
        g.Perm ("World" :: g1) ∧ "World" ∉ g1 ∧
        ∃ nodes nodes1, scenario.skiplist.contents = .ok nodes ∧
          s1.skiplist.contents = .ok nodes1 ∧
          ((∃ kv ∈ nodes1, kv.1 = 5) ↔ g1 ≠ []) ∧
          (g1 = [] → nodes1.length + 1 = nodes.length) ∧
          (g1 ≠ [] → nodes1.length = nodes.length)) ∧
      (∀ m1, m1 ≠ "World" → (s1.Exists m1).1 = (scenario.Exists m1).1 ∧
        (s1.GetRank m1).1 = (scenario.GetRank m1).1) ∧
      (∀ r1, r1 ≠ 5 → (s1.Get r1).1 = (scenario.Get r1).1) :=
  remove_frame scenario scenario_reachable "World" 5 rfl rfl

theorem Model.no_empty_node {s : SortedSet} {hdr : Nat} {L : List (Entry MapContent)}
    {d : Dictionary}
    (md : Model s hdr L d) : ∀ kv ∈ L.map (fun e => (e.key, e.vals)), mapLen kv.2 ≠ 0 := by
  intro kv hkv
  obtain ⟨e, he, rfl⟩ := List.mem_map.mp hkv
  obtain ⟨l, hl, hne, _⟩ := md.members e he
  simp only [hl, mapLen]
  intro h0
  exact hne (List.length_eq_zero.mp h0)

theorem Model.contents_inj {s : SortedSet} {hdr hdr1 : Nat} {L L1 : List (Entry MapContent)}
    {d d1 : Dictionary} (md : Model s hdr L d) (md1 : Model s hdr1 L1 d1) :
    L.map (fun e => (e.key, e.vals)) = L1.map (fun e => (e.key, e.vals)) := by
  have h1 := md.rep.contents_eq
  rw [md1.rep.contents_eq] at h1
  exact (Except.ok.inj h1).symm

theorem exists_false_after_remove (s : SortedSet) (h : Reachable s) (m : String) :
    ((s.Remove m).2.Exists m).1 = .ok false := by
  obtain ⟨hdr, L, d, md⟩ := reachable_model h
  cases hl : assocLookup m d with
  | none =>
    rw [md.Remove_absent hl]
    exact (md.Exists_false_iff m).mpr hl
  | some r =>
    obtain ⟨s1, L1, hrem, md1, _⟩ := md.Remove_present hl
    rw [hrem]
    exact (md1.Exists_false_iff m).mpr (by rw [assocLookup_assocDelete, if_pos rfl])

/-- C8: in a reachable state, for every member `m`, rank `r ≥ 0` and draws,
after `Add(m, r)` followed by `Remove(m)` the member does not exist and no
level-0 node has an empty member set; if moreover `m` was absent and `Get(r)`
was empty before, then afterwards `Get(r)` is empty and no node has key `r`. -/
theorem add_remove_round_trip (s : SortedSet) (h : Reachable s) (m : String) (r : Int)
    (draws : Nat → Bool) (hr : 0 ≤ r) :
    (((s.Add m r draws).2.Remove m).2.Exists m).1 = .ok false ∧
      ∃ nodes, ((s.Add m r draws).2.Remove m).2.skiplist.contents = .ok nodes ∧
        (∀ kv ∈ nodes, mapLen kv.2 ≠ 0) ∧
        ((s.Exists m).1 = .ok false → (s.Get r).1 = .ok [] →
          (((s.Add m r draws).2.Remove m).2.Get r).1 = .ok [] ∧ ∀ kv ∈ nodes, kv.1 ≠ r) := by
  have h1 : Reachable (s.Add m r draws).2 := Reachable.add s m r draws h
  have h2 : Reachable ((s.Add m r draws).2.Remove m).2 := Reachable.remove _ m h1
  obtain ⟨hdr2, L2, d2, md2⟩ := reachable_model h2
  refine ⟨exists_false_after_remove _ h1 m, _, md2.rep.contents_eq, md2.no_empty_node, ?_⟩
  intro hab hg
  obtain ⟨hdr, L, d, md⟩ := reachable_model h
  have hl := (md.Exists_false_iff m).mp hab
  rw [md.Get_eq hr] at hg
  have hg0 : membersAt L r = [] := Except.ok.inj hg
  obtain ⟨s1, L1, hadd, md1, heq1, _⟩ := md.Add_new hl hr draws
  have hl1 : assocLookup m (assocSet m r d) = some r := by
    rw [assocLookup_assocSet, if_pos rfl]
  obtain ⟨s3, L3, hrem, md3, heq3, _⟩ := md1.Remove_present hl1
  have hs : ((s.Add m r draws).2.Remove m).2 = s3 := by rw [hadd]; simp only; rw [hrem]
  rw [hs] at md2 ⊢
  have hnil : membersAt L3 r = [] := by
    rw [heq3 r, if_pos rfl, heq1 r, if_pos rfl, hg0]
    simp
  refine ⟨by rw [md3.Get_eq hr, hnil], ?_⟩
  rw [md2.contents_inj md3]
  intro kv hkv hk
  obtain ⟨e, he, rfl⟩ := List.mem_map.mp hkv
  exact (md3.node_iff r).mp ⟨e, he, hk⟩ hnil

/-- Instance of C8: `Add("A", 6); Remove("A")` on a freshly initialised set
leaves `"A"` absent, `Get(6)` empty and no node with key 6. -/
theorem add_remove_round_trip_witness :
    (((fresh.Add "A" 6 alwaysPromote).2.Remove "A").2.Exists "A").1 = .ok false ∧
      ∃ nodes, ((fresh.Add "A" 6 alwaysPromote).2.Remove "A").2.skiplist.contents = .ok nodes ∧
        (∀ kv ∈ nodes, mapLen kv.2 ≠ 0) ∧
        (((fresh.Add "A" 6 alwaysPromote).2.Remove "A").2.Get 6).1 = .ok [] ∧
        ∀ kv ∈ nodes, kv.1 ≠ 6 := by
  obtain ⟨h1, nodes, h2, h3, h4⟩ :=
    add_remove_round_trip fresh fresh_reachable "A" 6 alwaysPromote (by decide)
  exact ⟨h1, nodes, h2, h3, h4 rfl rfl⟩

/-- C9: in a reachable state and for every rank `r ≥ 0`, `Get(r)` returns,
without changing the state, a duplicate-free sequence whose elements are
exactly the members `m` with `GetRank(m) = r`; its length is the number of
dictionary entries of rank `r` (so it is empty when there is none).  On a
freshly initialised set `Get` and `GetRange` return empty sequences and
`GetRank` returns `-1`. -/
theorem get_members_of_rank (s : SortedSet) (h : Reachable s) (r : Int) (hr : 0 ≤ r) :
    (∃ g, s.Get r = (.ok g, s) ∧ g.Nodup ∧
      (∀ m, m ∈ g ↔ (s.GetRank m).1 = .ok r) ∧
      g.length = ((s.dict.getD []).filter (fun e => decide (e.2 = r))).length) ∧
    (∀ s0 : SortedSet,
      (∀ q, 0 ≤ q → ((SortedSet.Init s0).2.Get q).1 = .ok []) ∧
      (∀ lo hi, 0 ≤ lo → lo < hi → ((SortedSet.Init s0).2.GetRange lo hi).1 = .ok []) ∧
      (∀ m, ((SortedSet.Init s0).2.GetRank m).1 = .ok (-1))) := by
  obtain ⟨hdr, L, d, md⟩ := reachable_model h
  constructor
  · have hiff : ∀ m, m ∈ membersAt L r ↔ (s.GetRank m).1 = .ok r := by
      intro m
      rw [md.GetRank_iff m hr, md.agree]
    refine ⟨membersAt L r, md.Get_eq hr, md.membersAt_nodup r, hiff, ?_⟩
    rw [md.dict_eq]
    simp only [Option.getD_some]
    have hK : ((d.filter (fun e => decide (e.2 = r))).map Prod.fst).Nodup :=
      List.Nodup.sublist (List.Sublist.map _ (List.filter_sublist _)) md.dict_nodup
    have hperm : (membersAt L r).Perm ((d.filter (fun e => decide (e.2 = r))).map Prod.fst) := by
      rw [List.perm_ext_iff_of_nodup (md.membersAt_nodup r) hK]
      intro m
      rw [← md.agree, assocLookup_eq_some_iff m r d md.dict_nodup]
      constructor
      · intro hm
        exact List.mem_map.mpr ⟨(m, r), List.mem_filter.mpr ⟨hm, by simp⟩, rfl⟩
      · intro hm
        obtain ⟨e, he, hfst⟩ := List.mem_map.mp hm
        have hf := List.mem_filter.mp he
        have h2 : e.2 = r := by simpa using hf.2
        have : e = (m, r) := by
          cases e
          simp only at hfst h2
          rw [hfst, h2]
        rw [← this]; exact hf.1
    have := hperm.length_eq
    simpa using this
  · intro s0
    have mi := init_model s0
    refine ⟨fun q hq => by rw [mi.Get_eq hq]; rfl,
      fun lo hi hlo hlt => by rw [mi.GetRange_eq hlo hlt]; rfl,
      fun m => by rw [mi.GetRank_eq]; rfl⟩

/-- Instance of C9: `Get(5)` on the three-member scenario. -/
theorem get_members_of_rank_witness :
    (∃ g, scenario.Get 5 = (.ok g, scenario) ∧ g.Nodup ∧
      (∀ m, m ∈ g ↔ (scenario.GetRank m).1 = .ok 5) ∧
      g.length = ((scenario.dict.getD []).filter (fun e => decide (e.2 = 5))).length) ∧
    (∀ s0 : SortedSet,
      (∀ q, 0 ≤ q → ((SortedSet.Init s0).2.Get q).1 = .ok []) ∧
      (∀ lo hi, 0 ≤ lo → lo < hi → ((SortedSet.Init s0).2.GetRange lo hi).1 = .ok []) ∧
      (∀ m, ((SortedSet.Init s0).2.GetRank m).1 = .ok (-1))) :=
  get_members_of_rank scenario scenario_reachable 5 (by decide)

/-- C10: in a reachable state, `Add` panics with a precondition fault and
leaves the state unchanged when `rank < 0` and returns otherwise; `Get` does
the same for `rank < 0`; `GetRange` does the same when `rankMin < 0`,
`rankMax < 0` or `rankMin ≥ rankMax`; `Remove`, `Exists` and `GetRank` always
return. -/
theorem facade_preconditions (s : SortedSet) (h : Reachable s) :
    (∀ m rank draws,
      (rank < 0 → ∃ msg, s.Add m rank draws = (.error (.precondition msg), s)) ∧
      (0 ≤ rank → ∃ b, (s.Add m rank draws).1 = .ok b)) ∧
    (∀ rank,
      (rank < 0 → ∃ msg, s.Get rank = (.error (.precondition msg), s)) ∧
      (0 ≤ rank → ∃ g, s.Get rank = (.ok g, s))) ∧
    (∀ lo hi,
      ((lo < 0 ∨ hi < 0 ∨ lo ≥ hi) →
        ∃ msg, s.GetRange lo hi = (.error (.precondition msg), s)) ∧
      (¬ (lo < 0 ∨ hi < 0 ∨ lo ≥ hi) → ∃ out, s.GetRange lo hi = (.ok out, s))) ∧
    (∀ m, (∃ b, (s.Remove m).1 = .ok b) ∧ (∃ b, s.Exists m = (.ok b, s)) ∧
      ∃ r, s.GetRank m = (.ok r, s)) := by
  obtain ⟨hdr, L, d, md⟩ := reachable_model h
  refine ⟨?_, ?_, ?_, ?_⟩
  · intro m rank draws
    constructor
    · intro hneg
      refine ⟨"Rank must be greater than or equal to zero", ?_⟩
      unfold SortedSet.Add
      rw [if_pos hneg]
    · intro hr
      cases hl : assocLookup m d with
      | some r0 => exact ⟨false, by rw [md.Add_duplicate hl hr draws]⟩
      | none =>
        obtain ⟨s1, L1, hadd, _⟩ := md.Add_new hl hr draws
        exact ⟨true, by rw [hadd]⟩
  · intro rank
    exact ⟨fun hneg => ⟨_, Get_negative s hneg⟩, fun hr => ⟨_, md.Get_eq hr⟩⟩
  · intro lo hi
    constructor
    · intro hbad
      by_cases h1 : lo < 0 ∨ hi < 0
      · refine ⟨"rankMin and rankMax must be greater than equal to zero", ?_⟩
        unfold SortedSet.GetRange
        rw [if_pos h1]
      · refine ⟨"rankMin must be less than rankMax", ?_⟩
        unfold SortedSet.GetRange
        rw [if_neg h1, if_pos (by omega)]
    · intro hgood
      exact ⟨_, md.GetRange_eq (by omega) (by omega)⟩
  · intro m
    refine ⟨?_, ⟨_, md.Exists_eq m⟩, ⟨_, md.GetRank_eq m⟩⟩
    cases hl : assocLookup m d with
    | none => exact ⟨false, by rw [md.Remove_absent hl]⟩
    | some r =>
      obtain ⟨s1, L1, hrem, _⟩ := md.Remove_present hl
      exact ⟨true, by rw [hrem]⟩

/-- Instance of C10 on the three-member scenario. -/
theorem facade_preconditions_witness :
    (∀ m rank draws,
      (rank < 0 → ∃ msg, scenario.Add m rank draws = (.error (.precondition msg), scenario)) ∧
      (0 ≤ rank → ∃ b, (scenario.Add m rank draws).1 = .ok b)) ∧
    (∀ rank,
      (rank < 0 → ∃ msg, scenario.Get rank = (.error (.precondition msg), scenario)) ∧
      (0 ≤ rank → ∃ g, scenario.Get rank = (.ok g, scenario))) ∧
    (∀ lo hi,
      ((lo < 0 ∨ hi < 0 ∨ lo ≥ hi) →
        ∃ msg, scenario.GetRange lo hi = (.error (.precondition msg), scenario)) ∧
      (¬ (lo < 0 ∨ hi < 0 ∨ lo ≥ hi) → ∃ out, scenario.GetRange lo hi = (.ok out, scenario))) ∧
    (∀ m, (∃ b, (scenario.Remove m).1 = .ok b) ∧ (∃ b, scenario.Exists m = (.ok b, scenario)) ∧
      ∃ r, scenario.GetRank m = (.ok r, scenario)) :=
  facade_preconditions scenario scenario_reachable

/-! ## Skip list claims: every reachable list satisfies the invariant -/

theorem Rep.of_Init (s0 : SkipList μ) (maxLevels minKey : Int) (h : 1 ≤ maxLevels) :
    (s0.Init maxLevels minKey).1 = .ok () ∧
      Rep (s0.Init maxLevels minKey).2 s0.heap.length [] ∧
      (s0.Init maxLevels minKey).2.maxLevels = maxLevels ∧
      (s0.Init maxLevels minKey).2.minKey = minKey ∧
      (s0.Init maxLevels minKey).2.currentLevel = -1 := by
  unfold SkipList.Init
  rw [if_neg (by omega)]
  refine ⟨rfl, ?_, rfl, rfl, rfl⟩
  exact {
    header_eq := rfl
    maxLevels_pos := h
    size := by simp
    nodup := by simp
    key_eq := by simp
    vals_eq := by simp
    height_lt := by simp
    sorted := List.Pairwise.nil
    chain := by
      intro i hi
      have hi2 : (i : Int) < maxLevels := hi
      show nextAt _ _ i = some none
      exact nextAt_append_new s0.heap _ _ none i (by show i < maxLevels.toNat; omega)
    level_ge := by simp
    level_top := Or.inl rfl }

theorem AddOrModify_below {ε : Type} (s : SkipList μ) {key : Int} (h : key < s.minKey)
    (value : Option μ) (modifier : Option (Modifier μ ε)) (env : ε) (draws : Nat → Bool) :
    s.AddOrModify key value modifier env draws =
      (.error (.precondition "key must be greater than or equal to minKey"), s, env) := by
  unfold SkipList.AddOrModify
  rw [if_pos h]

theorem SearchOrModify_below {ε : Type} (s : SkipList μ) {key : Int} (h : key < s.minKey)
    (modifier : Option (Modifier μ ε)) (env : ε) :
    s.SearchOrModify key modifier env =
      (.error (.precondition "key must be greater than or equal to minKey"), s, env) := by
  unfold SkipList.SearchOrModify
  rw [if_pos h]

theorem DeleteOrModify_below {ε : Type} (s : SkipList μ) {key : Int} (h : key < s.minKey)
    (modifyOrDelete : Option (Decider μ ε)) (env : ε) :
    s.DeleteOrModify key modifyOrDelete env =
      (.error (.precondition "Key must be greater than or equal to minKey"), s, env) := by
  unfold SkipList.DeleteOrModify
  rw [if_pos h]

theorem Rep.SearchOrModify_error {ε : Type} {s : SkipList μ} {hdr : Nat} {Lo Hi : List (Entry μ)}
    {e : Entry μ} (rep : Rep s hdr (Lo ++ e :: Hi)) (hmin : s.minKey ≤ e.key)
    (f : Modifier μ ε) (env env1 : ε) (x : Fault) (hf : f e.vals env = (.error x, env1)) :
    s.SearchOrModify e.key (some f) env = (.error x, s, env1) := by
  unfold SkipList.SearchOrModify
  rw [if_neg (not_lt.mpr hmin)]
  simp only [rep.header_eq, rep.searchDescend_mid, rep.vals_eq e (by simp), hf]

theorem Rep.DeleteOrModify_error {ε : Type} {s : SkipList μ} {hdr : Nat} {Lo Hi : List (Entry μ)}
    {e : Entry μ} (rep : Rep s hdr (Lo ++ e :: Hi)) (hmin : s.minKey ≤ e.key)
    (f : Decider μ ε) (env env1 : ε) (x : Fault) (hf : f e.vals env = (.error x, env1)) :
    s.DeleteOrModify e.key (some f) env = (.error x, s, env1) := by
  obtain ⟨ua, hd, hua⟩ := rep.DeleteOrModify_probe
  unfold SkipList.DeleteOrModify
  rw [if_neg (not_lt.mpr hmin)]
  simp only [rep.header_eq, hd, rep.vals_eq e (by simp), hf]

theorem Rep.step_AddOrModify {ε : Type} {s : SkipList μ} {hdr : Nat} {L : List (Entry μ)}
    (rep : Rep s hdr L) (key : Int) (value : Option μ) (modifier : Option (Modifier μ ε))
    (env : ε) (draws : Nat → Bool) :
    ∃ L1, Rep (s.AddOrModify key value modifier env draws).2.1 hdr L1 ∧
      (s.AddOrModify key value modifier env draws).2.1.maxLevels = s.maxLevels ∧
      (s.AddOrModify key value modifier env draws).2.1.minKey = s.minKey := by
  by_cases hlt : key < s.minKey
  · rw [AddOrModify_below s hlt]; exact ⟨L, rep, rfl, rfl⟩
  · have hmin : s.minKey ≤ key := by omega
    obtain ⟨Lo, Hi, hL, hlo, hhi⟩ := sorted_split L rep.sorted key
    subst hL
    rcases hhi with hhi | ⟨e, Hi1, rfl, hk, hhi⟩
    · obtain ⟨lvl, s1, h1, _, rep1, hm, hk, _⟩ :=
        rep.AddOrModify_absent hmin hlo hhi value modifier env draws
      rw [h1]; exact ⟨_, rep1, hm, hk⟩
    · subst hk
      cases modifier with
      | none =>
        obtain ⟨s1, h1, rep1, hm, hk, _⟩ := rep.AddOrModify_present_none hmin value env draws
        rw [h1]; exact ⟨_, rep1, hm, hk⟩
      | some f =>
        rcases hf : f e.vals env with ⟨x | v, env1⟩
        · rw [rep.AddOrModify_present_error hmin value f env env1 x draws hf]
          exact ⟨_, rep, rfl, rfl⟩
        · obtain ⟨s1, h1, rep1, hm, hk, _⟩ :=
            rep.AddOrModify_present_ok hmin value f env env1 v draws hf
          rw [h1]; exact ⟨_, rep1, hm, hk⟩

theorem Rep.step_SearchOrModify {ε : Type} {s : SkipList μ} {hdr : Nat} {L : List (Entry μ)}
    (rep : Rep s hdr L) (key : Int) (modifier : Option (Modifier μ ε)) (env : ε) :
    ∃ L1, Rep (s.SearchOrModify key modifier env).2.1 hdr L1 ∧
      (s.SearchOrModify key modifier env).2.1.maxLevels = s.maxLevels ∧
      (s.SearchOrModify key modifier env).2.1.minKey = s.minKey := by
  by_cases hlt : key < s.minKey
  · rw [SearchOrModify_below s hlt]; exact ⟨L, rep, rfl, rfl⟩
  · have hmin : s.minKey ≤ key := by omega
    obtain ⟨Lo, Hi, hL, hlo, hhi⟩ := sorted_split L rep.sorted key
    subst hL
    rcases hhi with hhi | ⟨e, Hi1, rfl, hk, hhi⟩
    · rw [rep.SearchOrModify_absent hmin hlo hhi]; exact ⟨_, rep, rfl, rfl⟩
    · subst hk
      cases modifier with
      | none => rw [rep.SearchOrModify_none hmin]; exact ⟨_, rep, rfl, rfl⟩
      | some f =>
        rcases hf : f e.vals env with ⟨x | v, env1⟩
        · rw [rep.SearchOrModify_error hmin f env env1 x hf]
          exact ⟨_, rep, rfl, rfl⟩
        · obtain ⟨s1, h1, rep1, hm, hk, _⟩ := rep.SearchOrModify_ok hmin f env env1 v hf
          rw [h1]; exact ⟨_, rep1, hm, hk⟩

theorem Rep.step_DeleteOrModify {ε : Type} {s : SkipList μ} {hdr : Nat} {L : List (Entry μ)}
    (rep : Rep s hdr L) (key : Int) (modifyOrDelete : Option (Decider μ ε)) (env : ε) :
    ∃ L1, Rep (s.DeleteOrModify key modifyOrDelete env).2.1 hdr L1 ∧
      (s.DeleteOrModify key modifyOrDelete env).2.1.maxLevels = s.maxLevels ∧
      (s.DeleteOrModify key modifyOrDelete env).2.1.minKey = s.minKey := by
  by_cases hlt : key < s.minKey
  · rw [DeleteOrModify_below s hlt]; exact ⟨L, rep, rfl, rfl⟩
  · have hmin : s.minKey ≤ key := by omega
    obtain ⟨Lo, Hi, hL, hlo, hhi⟩ := sorted_split L rep.sorted key
    subst hL
    rcases hhi with hhi | ⟨e, Hi1, rfl, hk, hhi⟩
    · rw [rep.DeleteOrModify_absent hmin hlo hhi]; exact ⟨_, rep, rfl, rfl⟩
    · subst hk
      cases modifyOrDelete with
      | none =>
        obtain ⟨s1, h1, rep1, hm, hk⟩ := rep.DeleteOrModify_none hmin env
        rw [h1]; exact ⟨_, rep1, hm, hk⟩
      | some f =>
        rcases hf : f e.vals env with ⟨x | ⟨b, v⟩, env1⟩
        · rw [rep.DeleteOrModify_error hmin f env env1 x hf]
          exact ⟨_, rep, rfl, rfl⟩
        · cases b with
          | true =>
            obtain ⟨s1, h1, rep1, hm, hk⟩ := rep.DeleteOrModify_delete hmin f env env1 v hf
            rw [h1]; exact ⟨_, rep1, hm, hk⟩
          | false =>
            obtain ⟨s1, h1, rep1, hm, hk, _⟩ := rep.DeleteOrModify_keep hmin f env env1 v hf
            rw [h1]; exact ⟨_, rep1, hm, hk⟩

/-- Every reachable skip list satisfies the representation invariant. -/
theorem reachable_rep {s : SkipList μ} (h : SkipList.Reachable s) : ∃ hdr L, Rep s hdr L := by
  induction h with
  | init s0 maxLevels minKey hpos => exact ⟨_, _, (Rep.of_Init s0 maxLevels minKey hpos).2.1⟩
  | add s key value modifier env draws _ ih =>
    obtain ⟨hdr, L, rep⟩ := ih
    obtain ⟨L1, rep1, _⟩ := rep.step_AddOrModify key value modifier env draws
    exact ⟨hdr, L1, rep1⟩
  | search s key modifier env _ ih =>
    obtain ⟨hdr, L, rep⟩ := ih
    obtain ⟨L1, rep1, _⟩ := rep.step_SearchOrModify key modifier env
    exact ⟨hdr, L1, rep1⟩
  | delete s key modifyOrDelete env _ ih =>
    obtain ⟨hdr, L, rep⟩ := ih
    obtain ⟨L1, rep1, _⟩ := rep.step_DeleteOrModify key modifyOrDelete env
    exact ⟨hdr, L1, rep1⟩

/-! ### Lookups in the contents -/

theorem lookupKey_eq_none {k : Int} {nodes : List (Int × Option μ)} :
    lookupKey k nodes = none ↔ ∀ kv ∈ nodes, kv.1 ≠ k := by
  induction nodes with
  | nil => simp [lookupKey]
  | cons a rest ih =>
    obtain ⟨ka, va⟩ := a
    by_cases h : ka = k
    · simp [lookupKey, h]
    · simp [lookupKey, h, ih]

theorem lookupKey_mid (before after : List (Int × Option μ)) (key : Int) (v : Option μ)
    (hb : ∀ kv ∈ before, kv.1 ≠ key) (k : Int) :
    lookupKey k (before ++ (key, v) :: after) =
      if k = key then some v else lookupKey k (before ++ after) := by
  induction before with
  | nil =>
    by_cases h : k = key
    · simp [lookupKey, h]
    · simp [lookupKey, h, Ne.symm h]
  | cons a rest ih =>
    obtain ⟨ka, va⟩ := a
    have hka : ka ≠ key := hb (ka, va) (by simp)
    have ih1 := ih (fun kv hkv => hb kv (List.mem_cons_of_mem _ hkv))
    by_cases h : ka = k
    · subst h
      simp [lookupKey, hka]
    · simpa [lookupKey, h] using ih1

theorem lookupKey_entries_mid (Lo Hi : List (Entry μ)) (e : Entry μ)
    (hlo : ∀ x ∈ Lo, x.key < e.key) (k : Int) :
    lookupKey k ((Lo ++ e :: Hi).map (fun x => (x.key, x.vals))) =
      if k = e.key then some e.vals
      else lookupKey k ((Lo ++ Hi).map (fun x => (x.key, x.vals))) := by
  simp only [List.map_append, List.map_cons]
  apply lookupKey_mid
  intro kv hkv
  obtain ⟨x, hx, rfl⟩ := List.mem_map.mp hkv
  have := hlo x hx
  simp only; omega

theorem lookupKey_entries_none {L : List (Entry μ)} {k : Int} :
    lookupKey k (L.map (fun x => (x.key, x.vals))) = none ↔ ∀ e ∈ L, e.key ≠ k := by
  rw [lookupKey_eq_none]
  constructor
  · intro h e he
    exact h (e.key, e.vals) (List.mem_map_of_mem _ he)
  · intro h kv hkv
    obtain ⟨x, hx, rfl⟩ := List.mem_map.mp hkv
    exact h x hx

/-! ### Levels -/

theorem levelWalk_congr {heap heap1 : List (Node μ)} (i : Nat)
    (hn : ∀ q j, nextAt heap1 q j = nextAt heap q j) (fuel : Nat) (cur : Option Nat) :
    levelWalk heap1 i fuel cur = levelWalk heap i fuel cur := by
  induction fuel generalizing cur with
  | zero => rfl
  | succ f ih =>
    cases cur with
    | none => rfl
    | some p =>
      unfold levelWalk
      rw [hn p i]
      cases nextAt heap p i with
      | none => rfl
      | some nx => simp only [ih nx]

theorem levelNodes_setValues (s : SkipList μ) {p : Nat} {v : Option μ} {heap1 : List (Node μ)}
    (h : setValues s.heap p v = some heap1) (i : Nat) :
    SkipList.levelNodes { s with heap := heap1 } i = s.levelNodes i := by
  unfold SkipList.levelNodes
  simp only [setValues_length h]
  cases s.header with
  | none => rfl
  | some hdr =>
    simp only [nextAt_setValues h]
    cases nextAt s.heap hdr i with
    | none => rfl
    | some cur => exact levelWalk_congr i (nextAt_setValues h) _ _

theorem Rep.levelContents_eq {s : SkipList μ} {hdr : Nat} {L : List (Entry μ)} (rep : Rep s hdr L)
    (i : Nat) (hi : (i : Int) < s.maxLevels) :
    s.levelContents i =
      .ok ((L.filter (fun e => decide (i ≤ e.height))).map (fun e => (e.key, e.vals))) := by
  unfold SkipList.levelContents
  rw [rep.levelNodes_eq i hi]
  unfold chainOf
  exact readNodes_eq _ (fun e he => rep.key_eq e (List.mem_filter.mp he).1)
    (fun e he => rep.vals_eq e (List.mem_filter.mp he).1)

theorem levelContents_zero (s : SkipList μ) : s.levelContents 0 = s.contents := rfl

/-! ### Which outcomes an operation can have -/

theorem Rep.DeleteOrModify_true {ε : Type} {s : SkipList μ} {hdr : Nat} {L : List (Entry μ)}
    (rep : Rep s hdr L) (key : Int) (modifyOrDelete : Option (Decider μ ε)) (env : ε)
    (h : (s.DeleteOrModify key modifyOrDelete env).1 = .ok true) :
    ∃ Lo e Hi, L = Lo ++ e :: Hi ∧ e.key = key ∧
      Rep (s.DeleteOrModify key modifyOrDelete env).2.1 hdr (Lo ++ Hi) ∧
      (s.DeleteOrModify key modifyOrDelete env).2.1.maxLevels = s.maxLevels ∧
      (s.DeleteOrModify key modifyOrDelete env).2.1.minKey = s.minKey := by
  by_cases hlt : key < s.minKey
  · rw [DeleteOrModify_below s hlt] at h; cases h
  · have hmin : s.minKey ≤ key := by omega
    obtain ⟨Lo, Hi, hL, hlo, hhi⟩ := sorted_split L rep.sorted key
    subst hL
    rcases hhi with hhi | ⟨e, Hi1, rfl, hk, hhi⟩
    · rw [rep.DeleteOrModify_absent hmin hlo hhi] at h; cases h
    · subst hk
      cases modifyOrDelete with
      | none =>
        obtain ⟨s1, h1, rep1, hm, hk⟩ := rep.DeleteOrModify_none hmin env
        rw [h1]; exact ⟨Lo, e, Hi1, rfl, rfl, rep1, hm, hk⟩
      | some f =>
        rcases hf : f e.vals env with ⟨x | ⟨b, v⟩, env1⟩
        · rw [rep.DeleteOrModify_error hmin f env env1 x hf] at h; cases h
        · cases b with
          | true =>
            obtain ⟨s1, h1, rep1, hm, hk⟩ := rep.DeleteOrModify_delete hmin f env env1 v hf
            rw [h1]; exact ⟨Lo, e, Hi1, rfl, rfl, rep1, hm, hk⟩
          | false =>
            obtain ⟨s1, h1, _⟩ := rep.DeleteOrModify_keep hmin f env env1 v hf
            rw [h1] at h; cases h

theorem Rep.AddOrModify_error_state {ε : Type} {s : SkipList μ} {hdr : Nat} {L : List (Entry μ)}
    (rep : Rep s hdr L) (key : Int) (value : Option μ) (modifier : Option (Modifier μ ε))
    (env : ε) (draws : Nat → Bool) (x : Fault)
    (h : (s.AddOrModify key value modifier env draws).1 = .error x) :
    (s.AddOrModify key value modifier env draws).2.1 = s := by
  by_cases hlt : key < s.minKey
  · rw [AddOrModify_below s hlt]
  · have hmin : s.minKey ≤ key := by omega
    obtain ⟨Lo, Hi, hL, hlo, hhi⟩ := sorted_split L rep.sorted key
    subst hL
    rcases hhi with hhi | ⟨e, Hi1, rfl, hk, hhi⟩
    · obtain ⟨lvl, s1, h1, _⟩ := rep.AddOrModify_absent hmin hlo hhi value modifier env draws
      rw [h1] at h; cases h
    · subst hk
      cases modifier with
      | none =>
        obtain ⟨s1, h1, _⟩ := rep.AddOrModify_present_none hmin value env draws
        rw [h1] at h; cases h
      | some f =>
        rcases hf : f e.vals env with ⟨y | v, env1⟩
        · rw [rep.AddOrModify_present_error hmin value f env env1 y draws hf]
        · obtain ⟨s1, h1, _⟩ := rep.AddOrModify_present_ok hmin value f env env1 v draws hf
          rw [h1] at h; cases h

theorem Rep.SearchOrModify_error_state {ε : Type} {s : SkipList μ} {hdr : Nat} {L : List (Entry μ)}
    (rep : Rep s hdr L) (key : Int) (modifier : Option (Modifier μ ε)) (env : ε) (x : Fault)
    (h : (s.SearchOrModify key modifier env).1 = .error x) :
    (s.SearchOrModify key modifier env).2.1 = s := by
  by_cases hlt : key < s.minKey
  · rw [SearchOrModify_below s hlt]
  · have hmin : s.minKey ≤ key := by omega
    obtain ⟨Lo, Hi, hL, hlo, hhi⟩ := sorted_split L rep.sorted key
    subst hL
    rcases hhi with hhi | ⟨e, Hi1, rfl, hk, hhi⟩
    · rw [rep.SearchOrModify_absent hmin hlo hhi]
    · subst hk
      cases modifier with
      | none => rw [rep.SearchOrModify_none hmin]
      | some f =>
        rcases hf : f e.vals env with ⟨y | v, env1⟩
        · rw [rep.SearchOrModify_error hmin f env env1 y hf]
        · obtain ⟨s1, h1, _⟩ := rep.SearchOrModify_ok hmin f env env1 v hf
          rw [h1] at h; cases h

theorem Rep.DeleteOrModify_error_state {ε : Type} {s : SkipList μ} {hdr : Nat} {L : List (Entry μ)}
    (rep : Rep s hdr L) (key : Int) (modifyOrDelete : Option (Decider μ ε)) (env : ε) (x : Fault)
    (h : (s.DeleteOrModify key modifyOrDelete env).1 = .error x) :
    (s.DeleteOrModify key modifyOrDelete env).2.1 = s := by
  by_cases hlt : key < s.minKey
  · rw [DeleteOrModify_below s hlt]
  · have hmin : s.minKey ≤ key := by omega
    obtain ⟨Lo, Hi, hL, hlo, hhi⟩ := sorted_split L rep.sorted key
    subst hL
    rcases hhi with hhi | ⟨e, Hi1, rfl, hk, hhi⟩
    · rw [rep.DeleteOrModify_absent hmin hlo hhi]
    · subst hk
      cases modifyOrDelete with
      | none =>
        obtain ⟨s1, h1, _⟩ := rep.DeleteOrModify_none hmin env
        rw [h1] at h; cases h
      | some f =>
        rcases hf : f e.vals env with ⟨y | ⟨b, v⟩, env1⟩
        · rw [rep.DeleteOrModify_error hmin f env env1 y hf]
        · cases b with
          | true =>
            obtain ⟨s1, h1, _⟩ := rep.DeleteOrModify_delete hmin f env env1 v hf
            rw [h1] at h; cases h
          | false =>
            obtain ⟨s1, h1, _⟩ := rep.DeleteOrModify_keep hmin f env env1 v hf
            rw [h1] at h; cases h

/-! ### States after a value is replaced -/

theorem Rep.DeleteOrModify_keep_state {ε : Type} {s : SkipList μ} {hdr : Nat}
    {Lo Hi : List (Entry μ)}
    {e : Entry μ} (rep : Rep s hdr (Lo ++ e :: Hi)) (hmin : s.minKey ≤ e.key)
    (f : Decider μ ε) (env env1 : ε) (v : Option μ) (hf : f e.vals env = (.ok (false, v), env1)) :
    ∃ heap1, setValues s.heap e.ptr v = some heap1 ∧
      s.DeleteOrModify e.key (some f) env = (.ok false, { s with heap := heap1 }, env1) := by
  obtain ⟨ua, hd, hua⟩ := rep.DeleteOrModify_probe
  obtain ⟨heap1, hset, _⟩ := rep.setValues_ok v
  refine ⟨heap1, hset, ?_⟩
  unfold SkipList.DeleteOrModify
  rw [if_neg (not_lt.mpr hmin)]
  simp only [rep.header_eq, hd, rep.vals_eq e (by simp), hf, hset, Bool.not_false, if_true]

theorem Rep.SearchOrModify_ok_state {ε : Type} {s : SkipList μ} {hdr : Nat} {Lo Hi : List (Entry μ)}
    {e : Entry μ} (rep : Rep s hdr (Lo ++ e :: Hi)) (hmin : s.minKey ≤ e.key)
    (f : Modifier μ ε) (env env1 : ε) (v : Option μ) (hf : f e.vals env = (.ok v, env1)) :
    ∃ heap1, setValues s.heap e.ptr v = some heap1 ∧
      s.SearchOrModify e.key (some f) env = (.ok v, { s with heap := heap1 }, env1) := by
  obtain ⟨heap1, hset, _⟩ := rep.setValues_ok v
  refine ⟨heap1, hset, ?_⟩
  unfold SkipList.SearchOrModify
  rw [if_neg (not_lt.mpr hmin)]
  simp only [rep.header_eq, rep.searchDescend_mid, rep.vals_eq e (by simp), hf, hset]

/-- The split of the live nodes around `key`, read off the contents. -/
theorem Rep.find {s : SkipList μ} {hdr : Nat} {L : List (Entry μ)} (rep : Rep s hdr L) (key : Int) :
    (lookupKey key (L.map (fun x => (x.key, x.vals))) = none ∧
      ∃ Lo Hi, L = Lo ++ Hi ∧ (∀ e ∈ Lo, e.key < key) ∧ (∀ e ∈ Hi, key < e.key)) ∨
    (∃ Lo e Hi, L = Lo ++ e :: Hi ∧ e.key = key ∧
      lookupKey key (L.map (fun x => (x.key, x.vals))) = some e.vals) := by
  obtain ⟨Lo, Hi, hL, hlo, hhi⟩ := sorted_split L rep.sorted key
  subst hL
  rcases hhi with hhi | ⟨e, Hi1, rfl, hk, hhi⟩
  · left
    refine ⟨lookupKey_entries_none.mpr ?_, Lo, Hi, rfl, hlo, hhi⟩
    intro e he
    rcases List.mem_append.mp he with h | h
    · have := hlo e h; omega
    · have := hhi e h; omega
  · right
    refine ⟨Lo, e, Hi1, rfl, hk, ?_⟩
    rw [lookupKey_entries_mid Lo Hi1 e rep.mid_bounds.1, if_pos hk.symm]

theorem debugList_reachable : SkipList.Reachable debugList :=
  SkipList.Reachable.add _ _ _ _ _ _ (SkipList.Reachable.add _ _ _ _ _ _
    (SkipList.Reachable.add _ _ _ _ _ _ (SkipList.Reachable.init _ 1 0 (by decide))))

theorem tallList_reachable : SkipList.Reachable tallList :=
  SkipList.Reachable.add _ _ _ _ _ _ (SkipList.Reachable.add _ _ _ _ _ _
    (SkipList.Reachable.init _ 5 0 (by decide)))

theorem Rep.SearchRange_contents {s : SkipList μ} {hdr : Nat} {L : List (Entry μ)}
    (rep : Rep s hdr L)
    {keyMin keyMax : Int} (hmin : s.minKey ≤ keyMin) (hlt : keyMin < keyMax) :
    s.SearchRange keyMin keyMax =
      (.ok (((L.map (fun e => (e.key, e.vals))).filter
        (fun kv => decide (keyMin ≤ kv.1 ∧ kv.1 < keyMax))).map Prod.snd), s) := by
  rw [rep.SearchRange_eq hmin hlt, List.filter_map, List.map_map]
  rfl

theorem Rep.keys_sorted {s : SkipList μ} {hdr : Nat} {L : List (Entry μ)} (rep : Rep s hdr L) :
    ((L.map (fun e => (e.key, e.vals))).map Prod.fst).Pairwise (fun a b => a < b) := by
  rw [List.map_map, List.pairwise_map]
  exact rep.sorted

/-- C11: on a reachable skip list and for `minKey ≤ keyMin < keyMax` (with no
bound on `keyMax`), `SearchRange` returns, state unchanged, the values of
exactly the level-0 nodes whose key lies in `[keyMin, keyMax)`, one per node in
link order, which is strictly ascending key order (so the empty list when
there is none); and after a `DeleteOrModify(k)` that returned true no node has
key `k`, so `SearchRange` on the new list returns no value for it. -/
theorem searchRange_values {ε : Type} (s : SkipList μ) (h : SkipList.Reachable s)
    (keyMin keyMax k : Int) (modifyOrDelete : Option (Decider μ ε)) (env : ε)
    (hmin : s.minKey ≤ keyMin) (hlt : keyMin < keyMax) :
    (∃ nodes, s.contents = .ok nodes ∧ (nodes.map Prod.fst).Pairwise (fun a b => a < b) ∧
      s.SearchRange keyMin keyMax =
        (.ok ((nodes.filter (fun kv => decide (keyMin ≤ kv.1 ∧ kv.1 < keyMax))).map Prod.snd),
          s)) ∧
    ((s.DeleteOrModify k modifyOrDelete env).1 = .ok true →
      ∃ nodes1, (s.DeleteOrModify k modifyOrDelete env).2.1.contents = .ok nodes1 ∧
        (∀ kv ∈ nodes1, kv.1 ≠ k) ∧
        (s.DeleteOrModify k modifyOrDelete env).2.1.SearchRange keyMin keyMax =
          (.ok ((nodes1.filter (fun kv => decide (keyMin ≤ kv.1 ∧ kv.1 < keyMax))).map
            Prod.snd), (s.DeleteOrModify k modifyOrDelete env).2.1)) := by
  obtain ⟨hdr, L, rep⟩ := reachable_rep h
  refine ⟨⟨_, rep.contents_eq, rep.keys_sorted, rep.SearchRange_contents hmin hlt⟩, ?_⟩
  intro htrue
  obtain ⟨Lo, e, Hi, hL, hk, rep1, _, hmk⟩ := rep.DeleteOrModify_true k modifyOrDelete env htrue
  subst hL
  refine ⟨_, rep1.contents_eq, ?_, rep1.SearchRange_contents (by rw [hmk]; exact hmin) hlt⟩
  intro kv hkv
  obtain ⟨x, hx, rfl⟩ := List.mem_map.mp hkv
  rcases List.mem_append.mp hx with h1 | h1
  · have := rep.mid_bounds.1 x h1; simp only; omega
  · have := rep.mid_bounds.2 x h1; simp only; omega

/-- Instance of C11: the range `[5, 100)` on the two-node list, and deletion of key 5. -/
theorem searchRange_values_witness :
    (∃ nodes, tallList.contents = .ok nodes ∧
      (nodes.map Prod.fst).Pairwise (fun a b => a < b) ∧
      tallList.SearchRange 5 100 =
        (.ok ((nodes.filter (fun kv => decide (5 ≤ kv.1 ∧ kv.1 < 100))).map Prod.snd),
          tallList)) ∧
    ((tallList.DeleteOrModify 5 (none : Option (Decider MapContent Unit)) ()).1 = .ok true →
      ∃ nodes1, (tallList.DeleteOrModify 5 (none : Option (Decider MapContent Unit))
          ()).2.1.contents =
          .ok nodes1 ∧
        (∀ kv ∈ nodes1, kv.1 ≠ 5) ∧
        (tallList.DeleteOrModify 5 (none : Option (Decider MapContent Unit)) ()).2.1.SearchRange 5
            100 =
          (.ok ((nodes1.filter (fun kv => decide (5 ≤ kv.1 ∧ kv.1 < 100))).map Prod.snd),
            (tallList.DeleteOrModify 5 (none : Option (Decider MapContent Unit)) ()).2.1)) :=
  searchRange_values tallList tallList_reachable 5 100 5 none () (by decide) (by decide)

theorem lookupKey_replace (Lo Hi : List (Entry μ)) (e : Entry μ) (v : Option μ)
    (hlo : ∀ x ∈ Lo, x.key < e.key) (k : Int) :
    lookupKey k ((Lo ++ { e with vals := v } :: Hi).map (fun x => (x.key, x.vals))) =
      if k = e.key then some v
      else lookupKey k ((Lo ++ e :: Hi).map (fun x => (x.key, x.vals))) := by
  rw [lookupKey_entries_mid Lo Hi { e with vals := v } hlo, lookupKey_entries_mid Lo Hi e hlo]
  by_cases h : k = e.key <;> simp [h]

theorem lookupKey_remove (Lo Hi : List (Entry μ)) (e : Entry μ)
    (hlo : ∀ x ∈ Lo, x.key < e.key) (hhi : ∀ x ∈ Hi, e.key < x.key) (k : Int) :
    lookupKey k ((Lo ++ Hi).map (fun x => (x.key, x.vals))) =
      if k = e.key then none
      else lookupKey k ((Lo ++ e :: Hi).map (fun x => (x.key, x.vals))) := by
  rw [lookupKey_entries_mid Lo Hi e hlo]
  by_cases h : k = e.key
  · subst h
    simp only [if_true]
    rw [lookupKey_entries_none]
    intro x hx
    rcases List.mem_append.mp hx with h1 | h1
    · have := hlo x h1; omega
    · have := hhi x h1; omega
  · simp [h]

/-- What an in-place replacement of one node's value leaves behind. -/
theorem Rep.replaced_facts {s : SkipList μ} {hdr : Nat} {Lo Hi : List (Entry μ)} {e : Entry μ}
    (rep : Rep s hdr (Lo ++ e :: Hi)) {v : Option μ} {heap1 : List (Node μ)}
    (hset : setValues s.heap e.ptr v = some heap1) :
    ∃ nodes1, SkipList.contents { s with heap := heap1 } = .ok nodes1 ∧
      (nodes1.map Prod.fst).Pairwise (fun a b => a < b) ∧
      (∀ k, lookupKey k nodes1 = if k = e.key then some v
        else lookupKey k ((Lo ++ e :: Hi).map (fun x => (x.key, x.vals)))) ∧
      nodes1.map Prod.fst = ((Lo ++ e :: Hi).map (fun x => (x.key, x.vals))).map Prod.fst ∧
      (∀ i, SkipList.levelNodes { s with heap := heap1 } i = s.levelNodes i) := by
  have rep1 := rep.setValues_build hset
  refine ⟨_, rep1.contents_eq, rep1.keys_sorted,
    lookupKey_replace Lo Hi e v rep.mid_bounds.1, ?_, levelNodes_setValues s hset⟩
  simp [List.map_map]

/-- What the removal of one node leaves behind. -/
theorem Rep.removed_facts {s s1 : SkipList μ} {hdr : Nat} {Lo Hi : List (Entry μ)} {e : Entry μ}
    (rep : Rep s hdr (Lo ++ e :: Hi)) (rep1 : Rep s1 hdr (Lo ++ Hi))
    (hml : s1.maxLevels = s.maxLevels) (hmk : s1.minKey = s.minKey) (hmin : s.minKey ≤ e.key) :
    ∃ nodes1, s1.contents = .ok nodes1 ∧
      (∀ k, lookupKey k nodes1 = if k = e.key then none
        else lookupKey k ((Lo ++ e :: Hi).map (fun x => (x.key, x.vals)))) ∧
      (∀ i : Nat, (i : Int) < s.maxLevels →
        ∃ rows, s1.levelContents i = .ok rows ∧ ∀ kv ∈ rows, kv.1 ≠ e.key) ∧
      s1.SearchOrModify e.key (none : Option (Modifier μ Unit)) () = (.ok none, s1, ()) := by
  have hb := rep.mid_bounds
  refine ⟨_, rep1.contents_eq, lookupKey_remove Lo Hi e hb.1 hb.2, ?_, ?_⟩
  · intro i hi
    refine ⟨_, rep1.levelContents_eq i (by rw [hml]; exact hi), ?_⟩
    intro kv hkv
    obtain ⟨x, hx, rfl⟩ := List.mem_map.mp hkv
    rcases List.mem_append.mp (List.mem_filter.mp hx).1 with h1 | h1
    · have := hb.1 x h1; simp only; omega
    · have := hb.2 x h1; simp only; omega
  · exact rep1.SearchOrModify_absent (by rw [hmk]; exact hmin) hb.1 hb.2 none ()

/-- What `AddOrModify` does to the bindings of keys to the maps the nodes hold. -/
theorem AddOrModify_bindings {ε : Type} (s : SkipList μ) (h : SkipList.Reachable s)
    (key : Int) (value : Option μ) (env : ε) (draws : Nat → Bool) (hmin : s.minKey ≤ key) :
    ∃ nodes, s.contents = .ok nodes ∧
      (lookupKey key nodes = none → ∀ modifier : Option (Modifier μ ε),
        ∃ s1 nodes1, s.AddOrModify key value modifier env draws = (.ok (), s1, env) ∧
          s1.contents = .ok nodes1 ∧ (nodes1.map Prod.fst).Pairwise (fun a b => a < b) ∧
          ∀ k, lookupKey k nodes1 = if k = key then some value else lookupKey k nodes) ∧
      (∀ old, lookupKey key nodes = some old → ∀ (f : Modifier μ ε) v env1,
        f old env = (.ok v, env1) →
        ∃ s1 nodes1, s.AddOrModify key value (some f) env draws = (.ok (), s1, env1) ∧
          s1.contents = .ok nodes1 ∧ (nodes1.map Prod.fst).Pairwise (fun a b => a < b) ∧
          ∀ k, lookupKey k nodes1 = if k = key then some v else lookupKey k nodes) ∧
      (∀ old, lookupKey key nodes = some old →
        ∃ s1 nodes1, s.AddOrModify key value (none : Option (Modifier μ ε)) env draws =
            (.ok (), s1, env) ∧
          s1.contents = .ok nodes1 ∧ (nodes1.map Prod.fst).Pairwise (fun a b => a < b) ∧
          ∀ k, lookupKey k nodes1 = if k = key then some value else lookupKey k nodes) := by
  obtain ⟨hdr, L, rep⟩ := reachable_rep h
  refine ⟨_, rep.contents_eq, ?_, ?_, ?_⟩
  · intro hnone modifier
    rcases rep.find key with ⟨_, Lo, Hi, hL, hlo, hhi⟩ | ⟨Lo, e, Hi, hL, hk, hsome⟩
    · subst hL
      obtain ⟨lvl, s1, h1, _, rep1, _⟩ :=
        rep.AddOrModify_absent hmin hlo hhi value modifier env draws
      refine ⟨s1, _, h1, rep1.contents_eq, rep1.keys_sorted, ?_⟩
      intro k
      exact lookupKey_entries_mid Lo Hi ⟨s.heap.length, key, value, lvl⟩ hlo k
    · rw [hnone] at hsome; cases hsome
  · intro old hold f v env1 hf
    rcases rep.find key with ⟨hnone, _⟩ | ⟨Lo, e, Hi, hL, hk, hsome⟩
    · rw [hnone] at hold; cases hold
    · subst hL; subst hk
      rw [hsome] at hold
      have hv : e.vals = old := Option.some.inj hold
      rw [← hv] at hf
      obtain ⟨s1, h1, rep1, _⟩ := rep.AddOrModify_present_ok hmin value f env env1 v draws hf
      exact ⟨s1, _, h1, rep1.contents_eq, rep1.keys_sorted,
        lookupKey_replace Lo Hi e v rep.mid_bounds.1⟩
  · intro old hold
    rcases rep.find key with ⟨hnone, _⟩ | ⟨Lo, e, Hi, hL, hk, hsome⟩
    · rw [hnone] at hold; cases hold
    · subst hL; subst hk
      obtain ⟨s1, h1, rep1, _⟩ := rep.AddOrModify_present_none hmin value env draws
      exact ⟨s1, _, h1, rep1.contents_eq, rep1.keys_sorted,
        lookupKey_replace Lo Hi e value rep.mid_bounds.1⟩

/-- What `DeleteOrModify` does to the bindings of keys to the maps the nodes hold. -/
theorem DeleteOrModify_bindings {ε : Type} (s : SkipList μ) (h : SkipList.Reachable s)
    (key : Int) (env : ε) (hmin : s.minKey ≤ key) :
    ∃ nodes, s.contents = .ok nodes ∧
      (lookupKey key nodes = none → ∀ modifyOrDelete : Option (Decider μ ε),
        s.DeleteOrModify key modifyOrDelete env = (.ok false, s, env)) ∧
      (∀ old, lookupKey key nodes = some old → ∀ (f : Decider μ ε) v env1,
        f old env = (.ok (false, v), env1) →
        ∃ s1 nodes1, s.DeleteOrModify key (some f) env = (.ok false, s1, env1) ∧
          s1.contents = .ok nodes1 ∧
          (∀ k, lookupKey k nodes1 = if k = key then some v else lookupKey k nodes) ∧
          nodes1.map Prod.fst = nodes.map Prod.fst ∧
          (∀ i, s1.levelNodes i = s.levelNodes i) ∧
          s1.currentLevel = s.currentLevel) ∧
      (∀ old, lookupKey key nodes = some old →
        ∃ s1 nodes1, s.DeleteOrModify key (none : Option (Decider μ ε)) env = (.ok true, s1, env) ∧
          s1.contents = .ok nodes1 ∧
          (∀ k, lookupKey k nodes1 = if k = key then none else lookupKey k nodes) ∧
          (∀ i : Nat, (i : Int) < s.maxLevels →
            ∃ rows, s1.levelContents i = .ok rows ∧ ∀ kv ∈ rows, kv.1 ≠ key) ∧
          s1.SearchOrModify key (none : Option (Modifier μ Unit)) () = (.ok none, s1, ())) ∧
      (∀ old, lookupKey key nodes = some old → ∀ (f : Decider μ ε) v env1,
        f old env = (.ok (true, v), env1) →
        ∃ s1 nodes1, s.DeleteOrModify key (some f) env = (.ok true, s1, env1) ∧
          s1.contents = .ok nodes1 ∧
          (∀ k, lookupKey k nodes1 = if k = key then none else lookupKey k nodes) ∧
          (∀ i : Nat, (i : Int) < s.maxLevels →
            ∃ rows, s1.levelContents i = .ok rows ∧ ∀ kv ∈ rows, kv.1 ≠ key) ∧
          s1.SearchOrModify key (none : Option (Modifier μ Unit)) () = (.ok none, s1, ())) := by
  obtain ⟨hdr, L, rep⟩ := reachable_rep h
  refine ⟨_, rep.contents_eq, ?_, ?_, ?_, ?_⟩
  · intro hnone modifyOrDelete
    rcases rep.find key with ⟨_, Lo, Hi, hL, hlo, hhi⟩ | ⟨Lo, e, Hi, hL, hk, hsome⟩
    · subst hL
      exact rep.DeleteOrModify_absent hmin hlo hhi modifyOrDelete env
    · rw [hnone] at hsome; cases hsome
  · intro old hold f v env1 hf
    rcases rep.find key with ⟨hnone, _⟩ | ⟨Lo, e, Hi, hL, hk, hsome⟩
    · rw [hnone] at hold; cases hold
    · subst hL; subst hk
      rw [hsome] at hold
      have hv : e.vals = old := Option.some.inj hold
      rw [← hv] at hf
      obtain ⟨heap1, hset, h1⟩ := rep.DeleteOrModify_keep_state hmin f env env1 v hf
      obtain ⟨nodes1, hc, _, hl, hkeys, hlev⟩ := rep.replaced_facts hset
      exact ⟨_, nodes1, h1, hc, hl, hkeys, hlev, rfl⟩
  · intro old hold
    rcases rep.find key with ⟨hnone, _⟩ | ⟨Lo, e, Hi, hL, hk, hsome⟩
    · rw [hnone] at hold; cases hold
    · subst hL; subst hk
      obtain ⟨s1, h1, rep1, hml, hmk⟩ := rep.DeleteOrModify_none hmin env
      obtain ⟨nodes1, hc, hl, hrows, hsr⟩ := rep.removed_facts rep1 hml hmk hmin
      exact ⟨s1, nodes1, h1, hc, hl, hrows, hsr⟩
  · intro old hold f v env1 hf
    rcases rep.find key with ⟨hnone, _⟩ | ⟨Lo, e, Hi, hL, hk, hsome⟩
    · rw [hnone] at hold; cases hold
    · subst hL; subst hk
      rw [hsome] at hold
      have hv : e.vals = old := Option.some.inj hold
      rw [← hv] at hf
      obtain ⟨s1, h1, rep1, hml, hmk⟩ := rep.DeleteOrModify_delete hmin f env env1 v hf
      obtain ⟨nodes1, hc, hl, hrows, hsr⟩ := rep.removed_facts rep1 hml hmk hmin
      exact ⟨s1, nodes1, h1, hc, hl, hrows, hsr⟩

/-- What `SearchOrModify` does to the bindings of keys to the maps the nodes hold. -/
theorem SearchOrModify_bindings {ε : Type} (s : SkipList μ) (h : SkipList.Reachable s)
    (key : Int) (env : ε) (hmin : s.minKey ≤ key) :
    ∃ nodes, s.contents = .ok nodes ∧
      (lookupKey key nodes = none → ∀ modifier : Option (Modifier μ ε),
        s.SearchOrModify key modifier env = (.ok none, s, env)) ∧
      (∀ old, lookupKey key nodes = some old →
        s.SearchOrModify key (none : Option (Modifier μ ε)) env = (.ok old, s, env)) ∧
      (∀ old, lookupKey key nodes = some old → ∀ (f : Modifier μ ε) v env1,
        f old env = (.ok v, env1) →
        ∃ s1 nodes1, s.SearchOrModify key (some f) env = (.ok v, s1, env1) ∧
          s1.contents = .ok nodes1 ∧
          (∀ k, lookupKey k nodes1 = if k = key then some v else lookupKey k nodes) ∧
          nodes1.map Prod.fst = nodes.map Prod.fst ∧
          (∀ i, s1.levelNodes i = s.levelNodes i) ∧
          s1.currentLevel = s.currentLevel) := by
  obtain ⟨hdr, L, rep⟩ := reachable_rep h
  refine ⟨_, rep.contents_eq, ?_, ?_, ?_⟩
  · intro hnone modifier
    rcases rep.find key with ⟨_, Lo, Hi, hL, hlo, hhi⟩ | ⟨Lo, e, Hi, hL, hk, hsome⟩
    · subst hL
      exact rep.SearchOrModify_absent hmin hlo hhi modifier env
    · rw [hnone] at hsome; cases hsome
  · intro old hold
    rcases rep.find key with ⟨hnone, _⟩ | ⟨Lo, e, Hi, hL, hk, hsome⟩
    · rw [hnone] at hold; cases hold
    · subst hL; subst hk
      rw [hsome] at hold
      have hv : e.vals = old := Option.some.inj hold
      rw [← hv]
      exact rep.SearchOrModify_none hmin env
  · intro old hold f v env1 hf
    rcases rep.find key with ⟨hnone, _⟩ | ⟨Lo, e, Hi, hL, hk, hsome⟩
    · rw [hnone] at hold; cases hold
    · subst hL; subst hk
      rw [hsome] at hold
      have hv : e.vals = old := Option.some.inj hold
      rw [← hv] at hf
      obtain ⟨heap1, hset, h1⟩ := rep.SearchOrModify_ok_state hmin f env env1 v hf
      obtain ⟨nodes1, hc, _, hl, hkeys, hlev⟩ := rep.replaced_facts hset
      exact ⟨_, nodes1, h1, hc, hl, hkeys, hlev, rfl⟩

/-! ### Maps as shared objects -/

theorem lookupKey_readMap (store : MapStore) (k : Int) (nodes : List (Int × Option Nat)) :
    lookupKey k (nodes.map (fun kv => (kv.1, readMap store kv.2))) =
      (lookupKey k nodes).map (readMap store) := by
  induction nodes with
  | nil => rfl
  | cons a rest ih =>
    obtain ⟨k1, v1⟩ := a
    by_cases h : k1 = k
    · simp [lookupKey, h]
    · simp only [List.map_cons, lookupKey, if_neg h, ih]

theorem mapContents_eq {s : SkipList Nat} {nodes : List (Int × Option Nat)}
    (h : s.contents = .ok nodes) (store : MapStore) :
    s.mapContents store = .ok (nodes.map (fun kv => (kv.1, readMap store kv.2))) := by
  unfold SkipList.mapContents
  rw [h]

/-- A key whose map object reads the same in both stores shows the same content. -/
theorem lookupKey_readMap_frame {nodes nodes1 : List (Int × Option Nat)}
    {store store1 : MapStore} {k : Int} (hobj : lookupKey k nodes1 = lookupKey k nodes)
    (hframe : ∀ m, lookupKey k nodes = some m → readMap store1 m = readMap store m) :
    lookupKey k (nodes1.map (fun kv => (kv.1, readMap store1 kv.2))) =
      lookupKey k (nodes.map (fun kv => (kv.1, readMap store kv.2))) := by
  rw [lookupKey_readMap, lookupKey_readMap, hobj]
  cases hm : lookupKey k nodes with
  | none => rfl
  | some m => simp only [Option.map_some']; rw [hframe m hm]

theorem sharedList_reachable : SkipList.Reachable sharedList :=
  SkipList.Reachable.add _ 7 none none sharedStore neverPromote
    (SkipList.Reachable.add _ 6 (some 0) none sharedStore alwaysPromote
      (SkipList.Reachable.add _ 5 (some 0) none sharedStore neverPromote
        (SkipList.Reachable.init SkipList.zero 5 0 (by decide))))

/-- C12 (as amended): on a reachable skip list whose nodes hold maps by
reference, `AddOrModify(key, value, merge)` with `key ≥ minKey` returns, for
any draws, and binds `key` to the map `value` when the key was absent (whatever
`merge` is, and without running it: list of maps and store are returned as they
were), to the map `merge` returns when the key was present and `merge` is
supplied, and to `value` when the key was present and `merge` is nil.  Every
other key holds the map object it held, and no other key is added or removed.
Read through the store of map objects, the content under another key is
unchanged in the cases where `merge` does not run; where it runs, the content
under another key is unchanged provided `merge` left the content of that key's
map object as it was. -/
theorem addOrModify_map_update (s : SkipList Nat) (h : SkipList.Reachable s)
    (key : Int) (value : Option Nat) (store : MapStore) (draws : Nat → Bool)
    (hmin : s.minKey ≤ key) :
    ∃ nodes maps, s.contents = .ok nodes ∧ s.mapContents store = .ok maps ∧
      (lookupKey key nodes = none → ∀ modifier : Option (Modifier Nat MapStore),
        ∃ s1 nodes1 maps1,
          s.AddOrModify key value modifier store draws = (.ok (), s1, store) ∧
          s1.contents = .ok nodes1 ∧ s1.mapContents store = .ok maps1 ∧
          (nodes1.map Prod.fst).Pairwise (fun a b => a < b) ∧
          (∀ k, lookupKey k nodes1 = if k = key then some value else lookupKey k nodes) ∧
          (∀ k, lookupKey k maps1 =
            if k = key then some (readMap store value) else lookupKey k maps)) ∧
      (∀ old, lookupKey key nodes = some old → ∀ (f : Modifier Nat MapStore) v store1,
        f old store = (.ok v, store1) →
        ∃ s1 nodes1 maps1,
          s.AddOrModify key value (some f) store draws = (.ok (), s1, store1) ∧
          s1.contents = .ok nodes1 ∧ s1.mapContents store1 = .ok maps1 ∧
          (nodes1.map Prod.fst).Pairwise (fun a b => a < b) ∧
          (∀ k, lookupKey k nodes1 = if k = key then some v else lookupKey k nodes) ∧
          lookupKey key maps1 = some (readMap store1 v) ∧
          (∀ k, k ≠ key →
            (∀ m, lookupKey k nodes = some m → readMap store1 m = readMap store m) →
            lookupKey k maps1 = lookupKey k maps)) ∧
      (∀ old, lookupKey key nodes = some old →
        ∃ s1 nodes1 maps1,
          s.AddOrModify key value (none : Option (Modifier Nat MapStore)) store draws =
            (.ok (), s1, store) ∧
          s1.contents = .ok nodes1 ∧ s1.mapContents store = .ok maps1 ∧
          (nodes1.map Prod.fst).Pairwise (fun a b => a < b) ∧
          (∀ k, lookupKey k nodes1 = if k = key then some value else lookupKey k nodes) ∧
          (∀ k, lookupKey k maps1 =
            if k = key then some (readMap store value) else lookupKey k maps)) := by
  obtain ⟨nodes, hc, ha, hb, hn⟩ := AddOrModify_bindings s h key value store draws hmin
  refine ⟨nodes, _, hc, mapContents_eq hc store, ?_, ?_, ?_⟩
  · intro hnone modifier
    obtain ⟨s1, nodes1, h1, hc1, hsorted, hl⟩ := ha hnone modifier
    refine ⟨s1, nodes1, _, h1, hc1, mapContents_eq hc1 store, hsorted, hl, ?_⟩
    intro k
    rw [lookupKey_readMap, lookupKey_readMap, hl k]
    split_ifs <;> rfl
  · intro old hold f v store1 hf
    obtain ⟨s1, nodes1, h1, hc1, hsorted, hl⟩ := hb old hold f v store1 hf
    refine ⟨s1, nodes1, _, h1, hc1, mapContents_eq hc1 store1, hsorted, hl, ?_, ?_⟩
    · rw [lookupKey_readMap, hl key, if_pos rfl]; rfl
    · intro k hk hframe
      exact lookupKey_readMap_frame (by rw [hl k, if_neg hk]) hframe
  · intro old hold
    obtain ⟨s1, nodes1, h1, hc1, hsorted, hl⟩ := hn old hold
    refine ⟨s1, nodes1, _, h1, hc1, mapContents_eq hc1 store, hsorted, hl, ?_⟩
    intro k
    rw [lookupKey_readMap, lookupKey_readMap, hl k]
    split_ifs <;> rfl

/-- Instance of C12 (as amended): `AddOrModify(5, nil, _)` on the list in which
keys 5 and 6 hold the same map. -/
theorem addOrModify_map_update_witness :
    ∃ nodes maps, sharedList.contents = .ok nodes ∧
      sharedList.mapContents sharedStore = .ok maps ∧
      (lookupKey 5 nodes = none → ∀ modifier : Option (Modifier Nat MapStore),
        ∃ s1 nodes1 maps1,
          sharedList.AddOrModify 5 none modifier sharedStore neverPromote =
            (.ok (), s1, sharedStore) ∧
          s1.contents = .ok nodes1 ∧ s1.mapContents sharedStore = .ok maps1 ∧
          (nodes1.map Prod.fst).Pairwise (fun a b => a < b) ∧
          (∀ k, lookupKey k nodes1 = if k = 5 then some none else lookupKey k nodes) ∧
          (∀ k, lookupKey k maps1 =
            if k = 5 then some (readMap sharedStore none) else lookupKey k maps)) ∧
      (∀ old, lookupKey 5 nodes = some old → ∀ (f : Modifier Nat MapStore) v store1,
        f old sharedStore = (.ok v, store1) →
        ∃ s1 nodes1 maps1,
          sharedList.AddOrModify 5 none (some f) sharedStore neverPromote =
            (.ok (), s1, store1) ∧
          s1.contents = .ok nodes1 ∧ s1.mapContents store1 = .ok maps1 ∧
          (nodes1.map Prod.fst).Pairwise (fun a b => a < b) ∧
          (∀ k, lookupKey k nodes1 = if k = 5 then some v else lookupKey k nodes) ∧
          lookupKey 5 maps1 = some (readMap store1 v) ∧
          (∀ k, k ≠ 5 →
            (∀ m, lookupKey k nodes = some m → readMap store1 m = readMap sharedStore m) →
            lookupKey k maps1 = lookupKey k maps)) ∧
      (∀ old, lookupKey 5 nodes = some old →
        ∃ s1 nodes1 maps1,
          sharedList.AddOrModify 5 none (none : Option (Modifier Nat MapStore)) sharedStore
            neverPromote = (.ok (), s1, sharedStore) ∧
          s1.contents = .ok nodes1 ∧ s1.mapContents sharedStore = .ok maps1 ∧
          (nodes1.map Prod.fst).Pairwise (fun a b => a < b) ∧
          (∀ k, lookupKey k nodes1 = if k = 5 then some none else lookupKey k nodes) ∧
          (∀ k, lookupKey k maps1 =
            if k = 5 then some (readMap sharedStore none) else lookupKey k maps)) :=
  addOrModify_map_update sharedList sharedList_reachable 5 none sharedStore neverPromote
    (by decide)

/-- Counterexample to C12 as stated: keys 5 and 6 hold the same map `{"p"}`;
`AddOrModify(5, nil, merge)` with a `merge` that writes `"z"` into the map it
is given returns normally, and afterwards the content under the other key 6 is
`{"p", "z"}`: key 6 did not keep its value. -/
theorem addOrModify_map_update_counterexample :
    SkipList.Reachable sharedList ∧ sharedList.minKey ≤ 5 ∧
    sharedList.mapContents sharedStore =
      .ok [(5, some [("p", true)]), (6, some [("p", true)]), (7, none)] ∧
    ∃ s1 store1,
      sharedList.AddOrModify 5 none (some writeZ) sharedStore neverPromote =
        (.ok (), s1, store1) ∧
      s1.mapContents store1 =
        .ok [(5, some [("p", true), ("z", true)]), (6, some [("p", true), ("z", true)]),
          (7, none)] ∧
      ¬ (∀ maps maps1, sharedList.mapContents sharedStore = .ok maps →
          s1.mapContents store1 = .ok maps1 →
          ∀ k, k ≠ 5 → lookupKey k maps1 = lookupKey k maps) := by
  refine ⟨sharedList_reachable, by decide, rfl, _, _, rfl, rfl, ?_⟩
  intro hall
  have h6 := hall _ _ rfl rfl 6 (by decide)
  revert h6
  decide

/-- C13 (as amended): `DeleteOrModify(key, decide)` on a reachable skip list
whose nodes hold maps by reference, with `key ≥ minKey`: (a) when no node has
the key it returns false with list and store as they were, whatever `decide`
is (so `decide` is not run); (b) when the node exists and `decide` returns
`(false, newValue)` it returns false, the key is bound to the map `newValue`,
and the keys, the map object held under every other key, every level's chain of
nodes and `currentLevel` are as before; (c) when the node exists and `decide`
is nil or returns `(true, _)` it returns true, the key is bound to nothing, no
level holds a node with that key, `SearchOrModify(key)` finds nothing, and
every other key is still present and holds the map object it held.  Read
through the store of map objects, the content under another key is unchanged
when `decide` is nil; when `decide` runs, it is unchanged provided `decide`
left the content of that key's map object as it was. -/
theorem deleteOrModify_outcomes (s : SkipList Nat) (h : SkipList.Reachable s)
    (key : Int) (store : MapStore) (hmin : s.minKey ≤ key) :
    ∃ nodes maps, s.contents = .ok nodes ∧ s.mapContents store = .ok maps ∧
      (lookupKey key nodes = none → ∀ modifyOrDelete : Option (Decider Nat MapStore),
        s.DeleteOrModify key modifyOrDelete store = (.ok false, s, store)) ∧
      (∀ old, lookupKey key nodes = some old → ∀ (f : Decider Nat MapStore) v store1,
        f old store = (.ok (false, v), store1) →
        ∃ s1 nodes1 maps1, s.DeleteOrModify key (some f) store = (.ok false, s1, store1) ∧
          s1.contents = .ok nodes1 ∧ s1.mapContents store1 = .ok maps1 ∧
          (∀ k, lookupKey k nodes1 = if k = key then some v else lookupKey k nodes) ∧
          nodes1.map Prod.fst = nodes.map Prod.fst ∧
          (∀ i, s1.levelNodes i = s.levelNodes i) ∧
          s1.currentLevel = s.currentLevel ∧
          lookupKey key maps1 = some (readMap store1 v) ∧
          (∀ k, k ≠ key →
            (∀ m, lookupKey k nodes = some m → readMap store1 m = readMap store m) →
            lookupKey k maps1 = lookupKey k maps)) ∧
      (∀ old, lookupKey key nodes = some old →
        ∃ s1 nodes1 maps1,
          s.DeleteOrModify key (none : Option (Decider Nat MapStore)) store =
            (.ok true, s1, store) ∧
          s1.contents = .ok nodes1 ∧ s1.mapContents store = .ok maps1 ∧
          (∀ k, lookupKey k nodes1 = if k = key then none else lookupKey k nodes) ∧
          (∀ k, lookupKey k maps1 = if k = key then none else lookupKey k maps) ∧
          (∀ i : Nat, (i : Int) < s.maxLevels →
            ∃ rows, s1.levelContents i = .ok rows ∧ ∀ kv ∈ rows, kv.1 ≠ key) ∧
          s1.SearchOrModify key (none : Option (Modifier Nat Unit)) () = (.ok none, s1, ())) ∧
      (∀ old, lookupKey key nodes = some old → ∀ (f : Decider Nat MapStore) v store1,
        f old store = (.ok (true, v), store1) →
        ∃ s1 nodes1 maps1, s.DeleteOrModify key (some f) store = (.ok true, s1, store1) ∧
          s1.contents = .ok nodes1 ∧ s1.mapContents store1 = .ok maps1 ∧
          (∀ k, lookupKey k nodes1 = if k = key then none else lookupKey k nodes) ∧
          lookupKey key maps1 = none ∧
          (∀ k, k ≠ key →
            (∀ m, lookupKey k nodes = some m → readMap store1 m = readMap store m) →
            lookupKey k maps1 = lookupKey k maps) ∧
          (∀ i : Nat, (i : Int) < s.maxLevels →
            ∃ rows, s1.levelContents i = .ok rows ∧ ∀ kv ∈ rows, kv.1 ≠ key) ∧
          s1.SearchOrModify key (none : Option (Modifier Nat Unit)) () = (.ok none, s1, ())) := by
  obtain ⟨nodes, hc, ha, hb, hn, ht⟩ := DeleteOrModify_bindings s h key store hmin
  refine ⟨nodes, _, hc, mapContents_eq hc store, ha, ?_, ?_, ?_⟩
  · intro old hold f v store1 hf
    obtain ⟨s1, nodes1, h1, hc1, hl, hkeys, hlev, hcl⟩ := hb old hold f v store1 hf
    refine ⟨s1, nodes1, _, h1, hc1, mapContents_eq hc1 store1, hl, hkeys, hlev, hcl, ?_, ?_⟩
    · rw [lookupKey_readMap, hl key, if_pos rfl]; rfl
    · intro k hk hframe
      exact lookupKey_readMap_frame (by rw [hl k, if_neg hk]) hframe
  · intro old hold
    obtain ⟨s1, nodes1, h1, hc1, hl, hrows, hsr⟩ := hn old hold
    refine ⟨s1, nodes1, _, h1, hc1, mapContents_eq hc1 store, hl, ?_, hrows, hsr⟩
    intro k
    rw [lookupKey_readMap, lookupKey_readMap, hl k]
    split_ifs <;> rfl
  · intro old hold f v store1 hf
    obtain ⟨s1, nodes1, h1, hc1, hl, hrows, hsr⟩ := ht old hold f v store1 hf
    refine ⟨s1, nodes1, _, h1, hc1, mapContents_eq hc1 store1, hl, ?_, ?_, hrows, hsr⟩
    · rw [lookupKey_readMap, hl key, if_pos rfl]; rfl
    · intro k hk hframe
      exact lookupKey_readMap_frame (by rw [hl k, if_neg hk]) hframe

/-- Instance of C13 (as amended): `DeleteOrModify(5, _)` on the list in which
keys 5 and 6 hold the same map. -/
theorem deleteOrModify_outcomes_witness :
    ∃ nodes maps, sharedList.contents = .ok nodes ∧
      sharedList.mapContents sharedStore = .ok maps ∧
      (lookupKey 5 nodes = none → ∀ modifyOrDelete : Option (Decider Nat MapStore),
        sharedList.DeleteOrModify 5 modifyOrDelete sharedStore =
          (.ok false, sharedList, sharedStore)) ∧
      (∀ old, lookupKey 5 nodes = some old → ∀ (f : Decider Nat MapStore) v store1,
        f old sharedStore = (.ok (false, v), store1) →
        ∃ s1 nodes1 maps1,
          sharedList.DeleteOrModify 5 (some f) sharedStore = (.ok false, s1, store1) ∧
          s1.contents = .ok nodes1 ∧ s1.mapContents store1 = .ok maps1 ∧
          (∀ k, lookupKey k nodes1 = if k = 5 then some v else lookupKey k nodes) ∧
          nodes1.map Prod.fst = nodes.map Prod.fst ∧
          (∀ i, s1.levelNodes i = sharedList.levelNodes i) ∧
          s1.currentLevel = sharedList.currentLevel ∧
          lookupKey 5 maps1 = some (readMap store1 v) ∧
          (∀ k, k ≠ 5 →
            (∀ m, lookupKey k nodes = some m → readMap store1 m = readMap sharedStore m) →
            lookupKey k maps1 = lookupKey k maps)) ∧
      (∀ old, lookupKey 5 nodes = some old →
        ∃ s1 nodes1 maps1,
          sharedList.DeleteOrModify 5 (none : Option (Decider Nat MapStore)) sharedStore =
            (.ok true, s1, sharedStore) ∧
          s1.contents = .ok nodes1 ∧ s1.mapContents sharedStore = .ok maps1 ∧
          (∀ k, lookupKey k nodes1 = if k = 5 then none else lookupKey k nodes) ∧
          (∀ k, lookupKey k maps1 = if k = 5 then none else lookupKey k maps) ∧
          (∀ i : Nat, (i : Int) < sharedList.maxLevels →
            ∃ rows, s1.levelContents i = .ok rows ∧ ∀ kv ∈ rows, kv.1 ≠ 5) ∧
          s1.SearchOrModify 5 (none : Option (Modifier Nat Unit)) () = (.ok none, s1, ())) ∧
      (∀ old, lookupKey 5 nodes = some old → ∀ (f : Decider Nat MapStore) v store1,
        f old sharedStore = (.ok (true, v), store1) →
        ∃ s1 nodes1 maps1,
          sharedList.DeleteOrModify 5 (some f) sharedStore = (.ok true, s1, store1) ∧
          s1.contents = .ok nodes1 ∧ s1.mapContents store1 = .ok maps1 ∧
          (∀ k, lookupKey k nodes1 = if k = 5 then none else lookupKey k nodes) ∧
          lookupKey 5 maps1 = none ∧
          (∀ k, k ≠ 5 →
            (∀ m, lookupKey k nodes = some m → readMap store1 m = readMap sharedStore m) →
            lookupKey k maps1 = lookupKey k maps) ∧
          (∀ i : Nat, (i : Int) < sharedList.maxLevels →
            ∃ rows, s1.levelContents i = .ok rows ∧ ∀ kv ∈ rows, kv.1 ≠ 5) ∧
          s1.SearchOrModify 5 (none : Option (Modifier Nat Unit)) () = (.ok none, s1, ())) :=
  deleteOrModify_outcomes sharedList sharedList_reachable 5 sharedStore (by decide)

/-- Counterexample to C13 as stated: keys 5 and 6 hold the same map `{"p"}`.
`DeleteOrModify(5, decide)` with a `decide` that deletes `"p"` from the map it
is given empties the map seen under the other key 6, both when `decide`
returns `(false, v)` (branch (b): not all other values are unchanged) and when
it returns `(true, v)` (branch (c): key 6 is still present but its value has
changed). -/
theorem deleteOrModify_outcomes_counterexample :
    SkipList.Reachable sharedList ∧ sharedList.minKey ≤ 5 ∧
    sharedList.mapContents sharedStore =
      .ok [(5, some [("p", true)]), (6, some [("p", true)]), (7, none)] ∧
    (∃ s1 store1,
      sharedList.DeleteOrModify 5 (some (dropP false)) sharedStore = (.ok false, s1, store1) ∧
      s1.mapContents store1 = .ok [(5, some []), (6, some []), (7, none)] ∧
      ¬ (∀ maps maps1, sharedList.mapContents sharedStore = .ok maps →
          s1.mapContents store1 = .ok maps1 →
          ∀ k, k ≠ 5 → lookupKey k maps1 = lookupKey k maps)) ∧
    (∃ s1 store1,
      sharedList.DeleteOrModify 5 (some (dropP true)) sharedStore = (.ok true, s1, store1) ∧
      s1.mapContents store1 = .ok [(6, some []), (7, none)] ∧
      ¬ (∀ maps maps1, sharedList.mapContents sharedStore = .ok maps →
          s1.mapContents store1 = .ok maps1 →
          ∀ k, k ≠ 5 → lookupKey k maps1 = lookupKey k maps)) := by
  refine ⟨sharedList_reachable, by decide, rfl, ⟨_, _, rfl, rfl, ?_⟩, ⟨_, _, rfl, rfl, ?_⟩⟩
  · intro hall
    have h6 := hall _ _ rfl rfl 6 (by decide)
    revert h6
    decide
  · intro hall
    have h6 := hall _ _ rfl rfl 6 (by decide)
    revert h6
    decide

/-- C14 (as amended): `SearchOrModify(key, modify)` on a reachable skip list
whose nodes hold maps by reference, with `key ≥ minKey`: when no node has the
key it returns the nil result with list and store as they were, whatever
`modify` is (so `modify` is not run); when the node exists and `modify` is nil
it returns the map the node holds, and list and store are as they were; when
the node exists and `modify` is supplied it returns the map `modify` returned,
that map is stored at the key, and the keys, the map object held under every
other key, every level's chain of nodes and `currentLevel` are as before.  Read
through the store of map objects, the content under another key is then
unchanged provided `modify` left the content of that key's map object as it
was. -/
theorem searchOrModify_outcomes (s : SkipList Nat) (h : SkipList.Reachable s)
    (key : Int) (store : MapStore) (hmin : s.minKey ≤ key) :
    ∃ nodes maps, s.contents = .ok nodes ∧ s.mapContents store = .ok maps ∧
      (lookupKey key nodes = none → ∀ modifier : Option (Modifier Nat MapStore),
        s.SearchOrModify key modifier store = (.ok none, s, store)) ∧
      (∀ old, lookupKey key nodes = some old →
        s.SearchOrModify key (none : Option (Modifier Nat MapStore)) store =
          (.ok old, s, store)) ∧
      (∀ old, lookupKey key nodes = some old → ∀ (f : Modifier Nat MapStore) v store1,
        f old store = (.ok v, store1) →
        ∃ s1 nodes1 maps1, s.SearchOrModify key (some f) store = (.ok v, s1, store1) ∧
          s1.contents = .ok nodes1 ∧ s1.mapContents store1 = .ok maps1 ∧
          (∀ k, lookupKey k nodes1 = if k = key then some v else lookupKey k nodes) ∧
          nodes1.map Prod.fst = nodes.map Prod.fst ∧
          (∀ i, s1.levelNodes i = s.levelNodes i) ∧
          s1.currentLevel = s.currentLevel ∧
          lookupKey key maps1 = some (readMap store1 v) ∧
          (∀ k, k ≠ key →
            (∀ m, lookupKey k nodes = some m → readMap store1 m = readMap store m) →
            lookupKey k maps1 = lookupKey k maps)) := by
  obtain ⟨nodes, hc, ha, hn, hb⟩ := SearchOrModify_bindings s h key store hmin
  refine ⟨nodes, _, hc, mapContents_eq hc store, ha, hn, ?_⟩
  intro old hold f v store1 hf
  obtain ⟨s1, nodes1, h1, hc1, hl, hkeys, hlev, hcl⟩ := hb old hold f v store1 hf
  refine ⟨s1, nodes1, _, h1, hc1, mapContents_eq hc1 store1, hl, hkeys, hlev, hcl, ?_, ?_⟩
  · rw [lookupKey_readMap, hl key, if_pos rfl]; rfl
  · intro k hk hframe
    exact lookupKey_readMap_frame (by rw [hl k, if_neg hk]) hframe

/-- Instance of C14 (as amended): `SearchOrModify(5, _)` on the list in which
keys 5 and 6 hold the same map. -/
theorem searchOrModify_outcomes_witness :
    ∃ nodes maps, sharedList.contents = .ok nodes ∧
      sharedList.mapContents sharedStore = .ok maps ∧
      (lookupKey 5 nodes = none → ∀ modifier : Option (Modifier Nat MapStore),
        sharedList.SearchOrModify 5 modifier sharedStore =
          (.ok none, sharedList, sharedStore)) ∧
      (∀ old, lookupKey 5 nodes = some old →
        sharedList.SearchOrModify 5 (none : Option (Modifier Nat MapStore)) sharedStore =
          (.ok old, sharedList, sharedStore)) ∧
      (∀ old, lookupKey 5 nodes = some old → ∀ (f : Modifier Nat MapStore) v store1,
        f old sharedStore = (.ok v, store1) →
        ∃ s1 nodes1 maps1,
          sharedList.SearchOrModify 5 (some f) sharedStore = (.ok v, s1, store1) ∧
          s1.contents = .ok nodes1 ∧ s1.mapContents store1 = .ok maps1 ∧
          (∀ k, lookupKey k nodes1 = if k = 5 then some v else lookupKey k nodes) ∧
          nodes1.map Prod.fst = nodes.map Prod.fst ∧
          (∀ i, s1.levelNodes i = sharedList.levelNodes i) ∧
          s1.currentLevel = sharedList.currentLevel ∧
          lookupKey 5 maps1 = some (readMap store1 v) ∧
          (∀ k, k ≠ 5 →
            (∀ m, lookupKey k nodes = some m → readMap store1 m = readMap sharedStore m) →
            lookupKey k maps1 = lookupKey k maps)) :=
  searchOrModify_outcomes sharedList sharedList_reachable 5 sharedStore (by decide)

/-- Counterexample to C14 as stated: keys 5 and 6 hold the same map `{"p"}`;
`SearchOrModify(5, modify)` with a `modify` that writes `"z"` into the map it
is given returns that map, the list itself is as it was, and the content under
the other key 6 is now `{"p", "z"}`: the value of another node has changed. -/
theorem searchOrModify_outcomes_counterexample :
    SkipList.Reachable sharedList ∧ sharedList.minKey ≤ 5 ∧
    sharedList.mapContents sharedStore =
      .ok [(5, some [("p", true)]), (6, some [("p", true)]), (7, none)] ∧
    ∃ store1,
      sharedList.SearchOrModify 5 (some writeZ) sharedStore =
        (.ok (some 0), sharedList, store1) ∧
      sharedList.mapContents store1 =
        .ok [(5, some [("p", true), ("z", true)]), (6, some [("p", true), ("z", true)]),
          (7, none)] ∧
      ¬ (∀ maps maps1, sharedList.mapContents sharedStore = .ok maps →
          sharedList.mapContents store1 = .ok maps1 →
          ∀ k, k ≠ 5 → lookupKey k maps1 = lookupKey k maps) := by
  refine ⟨sharedList_reachable, by decide, rfl, _, rfl, rfl, ?_⟩
  intro hall
  have h6 := hall _ _ rfl rfl 6 (by decide)
  revert h6
  decide

theorem Rep.AddOrModify_error_iff {ε : Type} {s : SkipList μ} {hdr : Nat} {L : List (Entry μ)}
    (rep : Rep s hdr L) {key : Int} (hmin : s.minKey ≤ key) (value : Option μ)
    (modifier : Option (Modifier μ ε)) (env : ε) (draws : Nat → Bool) (x : Fault) :
    ((s.AddOrModify key value modifier env draws).1 = .error x ↔
      ∃ old f, lookupKey key (L.map (fun e => (e.key, e.vals))) = some old ∧
        modifier = some f ∧ (f old env).1 = .error x) ∧
    (∀ old f, lookupKey key (L.map (fun e => (e.key, e.vals))) = some old →
      modifier = some f → (f old env).1 = .error x →
      s.AddOrModify key value modifier env draws = (.error x, s, (f old env).2)) := by
  rcases rep.find key with ⟨hnone, Lo, Hi, hL, hlo, hhi⟩ | ⟨Lo, e, Hi, hL, hk, hsome⟩
  · subst hL
    obtain ⟨lvl, s1, h1, _⟩ := rep.AddOrModify_absent hmin hlo hhi value modifier env draws
    rw [h1, hnone]
    constructor
    · constructor
      · intro h; cases h
      · rintro ⟨old, f, hold, _⟩; cases hold
    · intro old f hold; cases hold
  · subst hL; subst hk
    rw [hsome]
    cases modifier with
    | none =>
      obtain ⟨s1, h1, _⟩ := rep.AddOrModify_present_none hmin value env draws
      rw [h1]
      constructor
      · constructor
        · intro h; cases h
        · rintro ⟨old, f, _, hf, _⟩; cases hf
      · intro old f _ hf; cases hf
    | some g =>
      cases hg : g e.vals env with
      | mk r env1 =>
        cases r with
        | error y =>
          rw [rep.AddOrModify_present_error hmin value g env env1 y draws hg]
          constructor
          · constructor
            · intro h
              have hy : y = x := by simpa using h
              subst hy
              exact ⟨e.vals, g, rfl, rfl, by rw [hg]⟩
            · rintro ⟨old, f, hold, hf, hx⟩
              cases hold; cases hf
              rw [hg] at hx
              have hy : y = x := by simpa using hx
              subst hy
              rfl
          · intro old f hold hf hx
            cases hold; cases hf
            rw [hg] at hx ⊢
            have hy : y = x := by simpa using hx
            subst hy
            rfl
        | ok v =>
          obtain ⟨s1, h1, _⟩ := rep.AddOrModify_present_ok hmin value g env env1 v draws hg
          rw [h1]
          constructor
          · constructor
            · intro h; cases h
            · rintro ⟨old, f, hold, hf, hx⟩
              cases hold; cases hf
              rw [hg] at hx; cases hx
          · intro old f hold hf hx
            cases hold; cases hf
            rw [hg] at hx; cases hx

theorem Rep.SearchOrModify_error_iff {ε : Type} {s : SkipList μ} {hdr : Nat}
    {L : List (Entry μ)} (rep : Rep s hdr L) {key : Int} (hmin : s.minKey ≤ key)
    (modifier : Option (Modifier μ ε)) (env : ε) (x : Fault) :
    ((s.SearchOrModify key modifier env).1 = .error x ↔
      ∃ old f, lookupKey key (L.map (fun e => (e.key, e.vals))) = some old ∧
        modifier = some f ∧ (f old env).1 = .error x) ∧
    (∀ old f, lookupKey key (L.map (fun e => (e.key, e.vals))) = some old →
      modifier = some f → (f old env).1 = .error x →
      s.SearchOrModify key modifier env = (.error x, s, (f old env).2)) := by
  rcases rep.find key with ⟨hnone, Lo, Hi, hL, hlo, hhi⟩ | ⟨Lo, e, Hi, hL, hk, hsome⟩
  · subst hL
    rw [rep.SearchOrModify_absent hmin hlo hhi modifier env, hnone]
    constructor
    · constructor
      · intro h; cases h
      · rintro ⟨old, f, hold, _⟩; cases hold
    · intro old f hold; cases hold
  · subst hL; subst hk
    rw [hsome]
    cases modifier with
    | none =>
      rw [rep.SearchOrModify_none hmin env]
      constructor
      · constructor
        · intro h; cases h
        · rintro ⟨old, f, _, hf, _⟩; cases hf
      · intro old f _ hf; cases hf
    | some g =>
      cases hg : g e.vals env with
      | mk r env1 =>
        cases r with
        | error y =>
          rw [rep.SearchOrModify_error hmin g env env1 y hg]
          constructor
          · constructor
            · intro h
              have hy : y = x := by simpa using h
              subst hy
              exact ⟨e.vals, g, rfl, rfl, by rw [hg]⟩
            · rintro ⟨old, f, hold, hf, hx⟩
              cases hold; cases hf
              rw [hg] at hx
              have hy : y = x := by simpa using hx
              subst hy
              rfl
          · intro old f hold hf hx
            cases hold; cases hf
            rw [hg] at hx ⊢
            have hy : y = x := by simpa using hx
            subst hy
            rfl
        | ok v =>
          obtain ⟨s1, h1, _⟩ := rep.SearchOrModify_ok hmin g env env1 v hg
          rw [h1]
          constructor
          · constructor
            · intro h; cases h
            · rintro ⟨old, f, hold, hf, hx⟩
              cases hold; cases hf
              rw [hg] at hx; cases hx
          · intro old f hold hf hx
            cases hold; cases hf
            rw [hg] at hx; cases hx

theorem Rep.DeleteOrModify_error_iff {ε : Type} {s : SkipList μ} {hdr : Nat}
    {L : List (Entry μ)} (rep : Rep s hdr L) {key : Int} (hmin : s.minKey ≤ key)
    (modifyOrDelete : Option (Decider μ ε)) (env : ε) (x : Fault) :
    ((s.DeleteOrModify key modifyOrDelete env).1 = .error x ↔
      ∃ old f, lookupKey key (L.map (fun e => (e.key, e.vals))) = some old ∧
        modifyOrDelete = some f ∧ (f old env).1 = .error x) ∧
    (∀ old f, lookupKey key (L.map (fun e => (e.key, e.vals))) = some old →
      modifyOrDelete = some f → (f old env).1 = .error x →
      s.DeleteOrModify key modifyOrDelete env = (.error x, s, (f old env).2)) := by
  rcases rep.find key with ⟨hnone, Lo, Hi, hL, hlo, hhi⟩ | ⟨Lo, e, Hi, hL, hk, hsome⟩
  · subst hL
    rw [rep.DeleteOrModify_absent hmin hlo hhi modifyOrDelete env, hnone]
    constructor
    · constructor
      · intro h; cases h
      · rintro ⟨old, f, hold, _⟩; cases hold
    · intro old f hold; cases hold
  · subst hL; subst hk
    rw [hsome]
    cases modifyOrDelete with
    | none =>
      obtain ⟨s1, h1, _⟩ := rep.DeleteOrModify_none hmin env
      rw [h1]
      constructor
      · constructor
        · intro h; cases h
        · rintro ⟨old, f, _, hf, _⟩; cases hf
      · intro old f _ hf; cases hf
    | some g =>
      cases hg : g e.vals env with
      | mk r env1 =>
        cases r with
        | error y =>
          rw [rep.DeleteOrModify_error hmin g env env1 y hg]
          constructor
          · constructor
            · intro h
              have hy : y = x := by simpa using h
              subst hy
              exact ⟨e.vals, g, rfl, rfl, by rw [hg]⟩
            · rintro ⟨old, f, hold, hf, hx⟩
              cases hold; cases hf
              rw [hg] at hx
              have hy : y = x := by simpa using hx
              subst hy
              rfl
          · intro old f hold hf hx
            cases hold; cases hf
            rw [hg] at hx ⊢
            have hy : y = x := by simpa using hx
            subst hy
            rfl
        | ok bv =>
          obtain ⟨b, v⟩ := bv
          have hok : ∃ r s1, s.DeleteOrModify e.key (some g) env = (.ok r, s1, env1) := by
            cases b with
            | true =>
              obtain ⟨s1, h1, _⟩ := rep.DeleteOrModify_delete hmin g env env1 v hg
              exact ⟨_, _, h1⟩
            | false =>
              obtain ⟨s1, h1, _⟩ := rep.DeleteOrModify_keep hmin g env env1 v hg
              exact ⟨_, _, h1⟩
          obtain ⟨r, s1, h1⟩ := hok
          rw [h1]
          constructor
          · constructor
            · intro h; cases h
            · rintro ⟨old, f, hold, hf, hx⟩
              cases hold; cases hf
              rw [hg] at hx; cases hx
          · intro old f hold hf hx
            cases hold; cases hf
            rw [hg] at hx; cases hx

/-- C15 (as amended): `Init` panics exactly when `maxLevels < 1`.  On a
reachable skip list whose nodes hold maps by reference: with `key < minKey`,
`AddOrModify`, `SearchOrModify` and `DeleteOrModify` panic with their
precondition message and leave the list and the store of maps as they were (no
callback ran); with `key ≥ minKey` each of them panics exactly when a node has
the key, a callback is supplied and that callback panics on the map the node
holds, and then the panic is the callback's, the list (nodes, links, the map
object each node holds, `currentLevel`) is as it was, and the store of maps is
as the callback left it.  `SearchRange` panics with a precondition message,
list unchanged, exactly when `keyMin < minKey`, `keyMax < minKey` or
`keyMin ≥ keyMax`, and returns with the list unchanged otherwise. -/
theorem skiplist_preconditions (s : SkipList Nat) (h : SkipList.Reachable s)
    (key keyMin keyMax : Int) (value : Option Nat) (modifier : Option (Modifier Nat MapStore))
    (modifyOrDelete : Option (Decider Nat MapStore)) (store : MapStore) (draws : Nat → Bool) :
    (∀ (s0 : SkipList Nat) (levels least : Int),
      (levels < 1 → ∃ msg, s0.Init levels least = (.error (.precondition msg), s0)) ∧
      (1 ≤ levels → (s0.Init levels least).1 = .ok ())) ∧
    (key < s.minKey →
      (∃ msg, s.AddOrModify key value modifier store draws =
        (.error (.precondition msg), s, store)) ∧
      (∃ msg, s.SearchOrModify key modifier store = (.error (.precondition msg), s, store)) ∧
      (∃ msg, s.DeleteOrModify key modifyOrDelete store =
        (.error (.precondition msg), s, store))) ∧
    (s.minKey ≤ key → ∃ nodes, s.contents = .ok nodes ∧
      (∀ x,
        ((s.AddOrModify key value modifier store draws).1 = .error x ↔
          ∃ old f, lookupKey key nodes = some old ∧ modifier = some f ∧
            (f old store).1 = .error x) ∧
        ((s.SearchOrModify key modifier store).1 = .error x ↔
          ∃ old f, lookupKey key nodes = some old ∧ modifier = some f ∧
            (f old store).1 = .error x) ∧
        ((s.DeleteOrModify key modifyOrDelete store).1 = .error x ↔
          ∃ old f, lookupKey key nodes = some old ∧ modifyOrDelete = some f ∧
            (f old store).1 = .error x)) ∧
      (∀ old f x, lookupKey key nodes = some old → modifier = some f →
        (f old store).1 = .error x →
        s.AddOrModify key value modifier store draws = (.error x, s, (f old store).2) ∧
        s.SearchOrModify key modifier store = (.error x, s, (f old store).2)) ∧
      (∀ old f x, lookupKey key nodes = some old → modifyOrDelete = some f →
        (f old store).1 = .error x →
        s.DeleteOrModify key modifyOrDelete store = (.error x, s, (f old store).2))) ∧
    ((keyMin < s.minKey ∨ keyMax < s.minKey ∨ keyMin ≥ keyMax) →
      ∃ msg, s.SearchRange keyMin keyMax = (.error (.precondition msg), s)) ∧
    (¬ (keyMin < s.minKey ∨ keyMax < s.minKey ∨ keyMin ≥ keyMax) →
      ∃ r, s.SearchRange keyMin keyMax = (.ok r, s)) := by
  obtain ⟨hdr, L, rep⟩ := reachable_rep h
  refine ⟨?_, ?_, ?_, ?_, ?_⟩
  · intro s0 levels least
    constructor
    · intro hl
      refine ⟨"Maximum number of levels should be greater than or equal to 1", ?_⟩
      unfold SkipList.Init
      rw [if_pos hl]
    · intro hl
      exact (Rep.of_Init s0 levels least hl).1
  · intro hlt
    exact ⟨⟨_, AddOrModify_below s hlt value modifier store draws⟩,
      ⟨_, SearchOrModify_below s hlt modifier store⟩,
      ⟨_, DeleteOrModify_below s hlt modifyOrDelete store⟩⟩
  · intro hmin
    refine ⟨_, rep.contents_eq, ?_, ?_, ?_⟩
    · intro x
      exact ⟨(rep.AddOrModify_error_iff hmin value modifier store draws x).1,
        (rep.SearchOrModify_error_iff hmin modifier store x).1,
        (rep.DeleteOrModify_error_iff hmin modifyOrDelete store x).1⟩
    · intro old f x hold hf hx
      exact ⟨(rep.AddOrModify_error_iff hmin value modifier store draws x).2 old f hold hf hx,
        (rep.SearchOrModify_error_iff hmin modifier store x).2 old f hold hf hx⟩
    · intro old f x hold hf hx
      exact (rep.DeleteOrModify_error_iff hmin modifyOrDelete store x).2 old f hold hf hx
  · intro hbad
    by_cases h1 : keyMin < s.minKey ∨ keyMax < s.minKey
    · refine ⟨"keyMin and keyMax must be greater than or equal to minKey", ?_⟩
      unfold SkipList.SearchRange
      rw [if_pos h1]
    · refine ⟨"keyMin must be less than keyMax", ?_⟩
      unfold SkipList.SearchRange
      rw [if_neg h1, if_pos (by omega)]
  · intro hgood
    exact ⟨_, rep.SearchRange_contents (by omega) (by omega)⟩

/-- Instance of C15 (as amended) on the list in which keys 5 and 6 hold the
same map, with key 5, callbacks that write and then panic, and the range
`[5, 5)`. -/
theorem skiplist_preconditions_witness :
    (∀ (s0 : SkipList Nat) (levels least : Int),
      (levels < 1 → ∃ msg, s0.Init levels least = (.error (.precondition msg), s0)) ∧
      (1 ≤ levels → (s0.Init levels least).1 = .ok ())) ∧
    ((5 : Int) < sharedList.minKey →
      (∃ msg, sharedList.AddOrModify 5 none (some writeZThenPanic) sharedStore neverPromote =
        (.error (.precondition msg), sharedList, sharedStore)) ∧
      (∃ msg, sharedList.SearchOrModify 5 (some writeZThenPanic) sharedStore =
        (.error (.precondition msg), sharedList, sharedStore)) ∧
      (∃ msg, sharedList.DeleteOrModify 5 (some decideZThenPanic) sharedStore =
        (.error (.precondition msg), sharedList, sharedStore))) ∧
    (sharedList.minKey ≤ 5 → ∃ nodes, sharedList.contents = .ok nodes ∧
      (∀ x,
        ((sharedList.AddOrModify 5 none (some writeZThenPanic) sharedStore neverPromote).1 =
            .error x ↔
          ∃ old f, lookupKey 5 nodes = some old ∧ some writeZThenPanic = some f ∧
            (f old sharedStore).1 = .error x) ∧
        ((sharedList.SearchOrModify 5 (some writeZThenPanic) sharedStore).1 = .error x ↔
          ∃ old f, lookupKey 5 nodes = some old ∧ some writeZThenPanic = some f ∧
            (f old sharedStore).1 = .error x) ∧
        ((sharedList.DeleteOrModify 5 (some decideZThenPanic) sharedStore).1 = .error x ↔
          ∃ old f, lookupKey 5 nodes = some old ∧ some decideZThenPanic = some f ∧
            (f old sharedStore).1 = .error x)) ∧
      (∀ old f x, lookupKey 5 nodes = some old → some writeZThenPanic = some f →
        (f old sharedStore).1 = .error x →
        sharedList.AddOrModify 5 none (some writeZThenPanic) sharedStore neverPromote =
          (.error x, sharedList, (f old sharedStore).2) ∧
        sharedList.SearchOrModify 5 (some writeZThenPanic) sharedStore =
          (.error x, sharedList, (f old sharedStore).2)) ∧
      (∀ old f x, lookupKey 5 nodes = some old → some decideZThenPanic = some f →
        (f old sharedStore).1 = .error x →
        sharedList.DeleteOrModify 5 (some decideZThenPanic) sharedStore =
          (.error x, sharedList, (f old sharedStore).2))) ∧
    (((5 : Int) < sharedList.minKey ∨ (5 : Int) < sharedList.minKey ∨ (5 : Int) ≥ 5) →
      ∃ msg, sharedList.SearchRange 5 5 = (.error (.precondition msg), sharedList)) ∧
    (¬ ((5 : Int) < sharedList.minKey ∨ (5 : Int) < sharedList.minKey ∨ (5 : Int) ≥ 5) →
      ∃ r, sharedList.SearchRange 5 5 = (.ok r, sharedList)) :=
  skiplist_preconditions sharedList sharedList_reachable 5 5 5 none (some writeZThenPanic)
    (some decideZThenPanic) sharedStore neverPromote

/-- Counterexample to C15 as stated, on a reachable list with keys `≥ minKey`:
`AddOrModify(7, nil, merge)` with a `merge` that writes into the map it is
given panics, because key 7 holds the nil map, so a call with valid arguments
fails and a callback has been invoked; and `SearchOrModify(5, modify)` and
`DeleteOrModify(5, decide)` with callbacks that write `"z"` and then panic fail
and leave `"z"` in the map of key 5 (and of key 6, which holds the same map):
the values are not as they were. -/
theorem skiplist_preconditions_counterexample :
    SkipList.Reachable sharedList ∧ sharedList.minKey ≤ 5 ∧ sharedList.minKey ≤ 7 ∧
    sharedList.AddOrModify 7 none (some writeZ) sharedStore neverPromote =
      (.error .runtime, sharedList, sharedStore) ∧
    sharedList.SearchOrModify 5 (some writeZThenPanic) sharedStore =
      (.error .runtime, sharedList, [[("p", true), ("z", true)]]) ∧
    sharedList.DeleteOrModify 5 (some decideZThenPanic) sharedStore =
      (.error .runtime, sharedList, [[("p", true), ("z", true)]]) ∧
    sharedList.mapContents sharedStore =
      .ok [(5, some [("p", true)]), (6, some [("p", true)]), (7, none)] ∧
    sharedList.mapContents [[("p", true), ("z", true)]] =
      .ok [(5, some [("p", true), ("z", true)]), (6, some [("p", true), ("z", true)]),
        (7, none)] ∧
    ¬ (∀ x, (sharedList.AddOrModify 7 none (some writeZ) sharedStore neverPromote).1 =
        .error x → (7 : Int) < sharedList.minKey) ∧
    ¬ (∀ x, (sharedList.SearchOrModify 5 (some writeZThenPanic) sharedStore).1 = .error x →
        sharedList.mapContents (sharedList.SearchOrModify 5 (some writeZThenPanic)
          sharedStore).2.2 = sharedList.mapContents sharedStore) := by
  refine ⟨sharedList_reachable, by decide, by decide, rfl, rfl, rfl, rfl, rfl, ?_, ?_⟩
  · intro hall
    have := hall .runtime rfl
    revert this
    decide
  · intro hall
    have h5 := hall .runtime rfl
    have h6 : lookupKey 6 [(5, some [("p", true), ("z", true)]),
        (6, some [("p", true), ("z", true)]), ((7 : Int), (none : MemberMap))] =
        lookupKey 6 [(5, some [("p", true)]), (6, some [("p", true)]), (7, none)] := by
      have e1 : sharedList.mapContents (sharedList.SearchOrModify 5 (some writeZThenPanic)
          sharedStore).2.2 = .ok [(5, some [("p", true), ("z", true)]),
            (6, some [("p", true), ("z", true)]), (7, none)] := rfl
      have e2 : sharedList.mapContents sharedStore =
          .ok [(5, some [("p", true)]), (6, some [("p", true)]), (7, none)] := rfl
      rw [e1, e2] at h5
      injection h5 with h5
      rw [h5]
    revert h6
    decide

/-! ### DebugPrint -/

theorem debugRow_eq {heap : List (Node μ)} {i : Nat} (F : List (Entry μ))
    (hk : ∀ e ∈ F, keyAt heap e.ptr = some e.key) (cur : Option Nat) (fuel : Nat)
    (hw : Walk heap i cur (F.map Entry.ptr)) (hfuel : F.length < fuel) :
    debugRow heap i fuel cur = .ok (renderKeys (F.map Entry.key)) := by
  induction F generalizing cur fuel with
  | nil =>
    have : cur = none := hw
    subst this
    cases fuel with
    | zero => omega
    | succ f => rfl
  | cons a rest ih =>
    obtain ⟨hcur, nx, hnx, hw1⟩ := hw
    subst hcur
    cases fuel with
    | zero => omega
    | succ f =>
      unfold debugRow
      simp only [hk a (by simp), hnx,
        ih (fun e he => hk e (List.mem_cons_of_mem _ he)) nx f hw1 (by simp at hfuel; omega)]
      rfl

theorem Rep.debugRow_level {s : SkipList μ} {hdr : Nat} {L : List (Entry μ)} (rep : Rep s hdr L)
    (i : Nat) (hi : (i : Int) < s.maxLevels) :
    ∃ cur, nextAt s.heap hdr i = some cur ∧
      debugRow s.heap i s.heap.length cur =
        .ok (renderKeys ((L.filter (fun e => decide (i ≤ e.height))).map Entry.key)) := by
  have hc := rep.chain i hi
  refine ⟨_, hc.head, ?_⟩
  refine debugRow_eq _ (fun e he => rep.key_eq e (List.mem_filter.mp he).1) _ _ hc.toWalk ?_
  have h1 : (L.filter (fun e => decide (i ≤ e.height))).length ≤ L.length :=
    List.length_filter_le _ _
  have := rep.size
  omega

theorem Rep.debugRows_eq {s : SkipList μ} {hdr : Nat} {L : List (Entry μ)} (rep : Rep s hdr L)
    (n i : Nat) (hn : ((i + n : Nat) : Int) ≤ s.maxLevels) :
    ∃ out, debugRows s n i = .ok out ∧ out.length = n ∧
      ∀ j, j < n → out[j]? = some (toString (i + j) ++ ":" ++
        renderKeys ((L.filter (fun e => decide (i + j ≤ e.height))).map Entry.key)) := by
  induction n generalizing i with
  | zero => exact ⟨[], rfl, rfl, fun j hj => by omega⟩
  | succ n ih =>
    obtain ⟨rest, h1, h2, h3⟩ := ih (i + 1) (by push_cast at hn ⊢; omega)
    obtain ⟨cur, hcur, hrow⟩ := rep.debugRow_level i (by push_cast at hn ⊢; omega)
    refine ⟨(toString i ++ ":" ++
      renderKeys ((L.filter (fun e => decide (i ≤ e.height))).map Entry.key)) :: rest,
      ?_, ?_, ?_⟩
    · unfold debugRows
      simp only [rep.header_eq, hcur, hrow, h1]
    · simp [h2]
    · intro j hj
      cases j with
      | zero => simp
      | succ j =>
        have := h3 j (by omega)
        simp only [List.getElem?_cons_succ, this]
        have he : i + 1 + j = i + (j + 1) := by omega
        rw [he]

theorem Rep.DebugPrint_eq {s : SkipList μ} {hdr : Nat} {L : List (Entry μ)} (rep : Rep s hdr L) :
    ∃ out, s.DebugPrint = .ok out ∧ out.length = (s.currentLevel + 1).toNat ∧
      ∀ j, j < out.length → out[j]? = some (toString j ++ ":" ++
        renderKeys ((L.filter (fun e => decide (j ≤ e.height))).map Entry.key)) := by
  have hb := rep.level_bounds
  obtain ⟨out, h1, h2, h3⟩ := rep.debugRows_eq (s.currentLevel + 1).toNat 0
    (by push_cast; omega)
  refine ⟨out, ?_, h2, ?_⟩
  · unfold SkipList.DebugPrint
    rw [if_neg (by omega)]
    exact h1
  · intro j hj
    have := h3 j (by omega)
    simpa using this

theorem filter_sublist_filter {α : Type} (l : List α) (p q : α → Bool)
    (h : ∀ a, p a = true → q a = true) : (l.filter p).Sublist (l.filter q) := by
  induction l with
  | nil => exact List.Sublist.refl _
  | cons a rest ih =>
    by_cases hp : p a = true
    · rw [List.filter_cons_of_pos hp, List.filter_cons_of_pos (h a hp)]
      exact List.Sublist.cons₂ a ih
    · rw [List.filter_cons_of_neg hp]
      by_cases hq : q a = true
      · rw [List.filter_cons_of_pos hq]
        exact List.Sublist.cons a ih
      · rw [List.filter_cons_of_neg hq]
        exact ih

theorem chainOf_sublist_lower (L : List (Entry μ)) {i j : Nat} (h : j ≤ i) :
    (chainOf L i).Sublist (chainOf L j) := by
  unfold chainOf
  refine List.Sublist.map _ (filter_sublist_filter L _ _ ?_)
  intro a ha
  simp only [decide_eq_true_eq] at ha ⊢
  omega

/-- C17: on a reachable skip list, for every level `i` below `maxLevels` the
nodes met by following the level-`i` links from the header have strictly
increasing keys (hence pairwise distinct ones) and form a sublist of the
level-0 chain; `DebugPrint` returns one row per level `0..currentLevel`, and
row `i` is the text `i:` followed by the keys of level `i`, each followed by a
comma. -/
theorem ordering_invariant (s : SkipList μ) (h : SkipList.Reachable s) :
    (∀ i : Nat, (i : Int) < s.maxLevels →
      ∃ rows, s.levelContents i = .ok rows ∧
        (rows.map Prod.fst).Pairwise (fun a b => a < b) ∧ (rows.map Prod.fst).Nodup ∧
        ∃ rows0, s.contents = .ok rows0 ∧ rows.Sublist rows0) ∧
    (∃ out, s.DebugPrint = .ok out ∧ out.length = (s.currentLevel + 1).toNat ∧
      ∀ i, i < out.length → ∃ rows, s.levelContents i = .ok rows ∧
        out[i]? = some (toString i ++ ":" ++ renderKeys (rows.map Prod.fst))) := by
  obtain ⟨hdr, L, rep⟩ := reachable_rep h
  have hb := rep.level_bounds
  constructor
  · intro i hi
    have hs : ((L.filter (fun e => decide (i ≤ e.height))).map
        (fun e => (e.key, e.vals))).map Prod.fst |>.Pairwise (fun a b => a < b) := by
      rw [List.map_map, List.pairwise_map]
      exact rep.sorted.sublist (List.filter_sublist _)
    refine ⟨_, rep.levelContents_eq i hi, hs, ?_, _, rep.contents_eq, ?_⟩
    · exact hs.imp (fun hab => ne_of_lt hab)
    · exact List.Sublist.map _ (List.filter_sublist _)
  · obtain ⟨out, h1, h2, h3⟩ := rep.DebugPrint_eq
    refine ⟨out, h1, h2, ?_⟩
    intro i hi
    refine ⟨_, rep.levelContents_eq i (by omega), ?_⟩
    rw [h3 i hi, List.map_map]
    rfl

/-- Instance of C17: the list of the `DebugPrint` test (keys 5, 6, 7 with
`maxLevels = 1`), whose only row is `0:5,6,7,`. -/
theorem ordering_invariant_witness :
    ((∀ i : Nat, (i : Int) < debugList.maxLevels →
      ∃ rows, debugList.levelContents i = .ok rows ∧
        (rows.map Prod.fst).Pairwise (fun a b => a < b) ∧ (rows.map Prod.fst).Nodup ∧
        ∃ rows0, debugList.contents = .ok rows0 ∧ rows.Sublist rows0) ∧
    (∃ out, debugList.DebugPrint = .ok out ∧ out.length = (debugList.currentLevel + 1).toNat ∧
      ∀ i, i < out.length → ∃ rows, debugList.levelContents i = .ok rows ∧
        out[i]? = some (toString i ++ ":" ++ renderKeys (rows.map Prod.fst)))) ∧
    debugList.DebugPrint = .ok ["0:5,6,7,"] :=
  ⟨ordering_invariant debugList debugList_reachable, rfl⟩

/-- C18: on a reachable skip list the chain of level `i` (below `maxLevels`) is
a sublist of the chain of every level `j ≤ i`, so a node linked into level `i`
is linked into every lower level; and when `DeleteOrModify(key)` returns true,
the node that carried `key` on level 0 is linked into no level of the list it
leaves. -/
theorem monotone_participation {ε : Type} (s : SkipList μ) (h : SkipList.Reachable s)
    (key : Int) (modifyOrDelete : Option (Decider μ ε)) (env : ε) :
    (∀ i j : Nat, j ≤ i → (i : Int) < s.maxLevels →
      ∃ upper lower, s.levelNodes i = .ok upper ∧ s.levelNodes j = .ok lower ∧
        upper.Sublist lower) ∧
    ((s.DeleteOrModify key modifyOrDelete env).1 = .ok true →
      ∃ p, (∃ ps0, s.levelNodes 0 = .ok ps0 ∧ p ∈ ps0) ∧ keyAt s.heap p = some key ∧
        ∀ i : Nat, (i : Int) < s.maxLevels →
          ∃ ps, (s.DeleteOrModify key modifyOrDelete env).2.1.levelNodes i = .ok ps ∧
            p ∉ ps) := by
  obtain ⟨hdr, L, rep⟩ := reachable_rep h
  constructor
  · intro i j hji hi
    exact ⟨_, _, rep.levelNodes_eq i hi, rep.levelNodes_eq j (by omega),
      chainOf_sublist_lower L hji⟩
  · intro htrue
    obtain ⟨Lo, e, Hi, hL, hk, rep1, hml, _⟩ :=
      rep.DeleteOrModify_true key modifyOrDelete env htrue
    subst hL
    have hpos := rep.maxLevels_pos
    refine ⟨e.ptr, ⟨_, rep.levelNodes_eq 0 (by omega), ?_⟩, ?_, ?_⟩
    · exact mem_chainOf.mpr ⟨e, by simp, Nat.zero_le _, rfl⟩
    · rw [← hk]; exact rep.key_eq e (by simp)
    · intro i hi
      refine ⟨_, rep1.levelNodes_eq i (by rw [hml]; exact hi), ?_⟩
      intro hm
      obtain ⟨x, hx, _, hp⟩ := mem_chainOf.mp hm
      exact rep.ptr_ne_mid x hx hp

/-- Instance of C18: the two-node list and the deletion of key 5, whose node is
linked into levels 0..3. -/
theorem monotone_participation_witness :
    (∀ i j : Nat, j ≤ i → (i : Int) < tallList.maxLevels →
      ∃ upper lower, tallList.levelNodes i = .ok upper ∧ tallList.levelNodes j = .ok lower ∧
        upper.Sublist lower) ∧
    ((tallList.DeleteOrModify 5 (none : Option (Decider MapContent Unit)) ()).1 = .ok true →
      ∃ p, (∃ ps0, tallList.levelNodes 0 = .ok ps0 ∧ p ∈ ps0) ∧
        keyAt tallList.heap p = some 5 ∧
        ∀ i : Nat, (i : Int) < tallList.maxLevels →
          ∃ ps, (tallList.DeleteOrModify 5 (none : Option (Decider MapContent Unit))
              ()).2.1.levelNodes i =
              .ok ps ∧
            p ∉ ps) :=
  monotone_participation tallList tallList_reachable 5 none ()

/-- C19: on a reachable skip list `currentLevel` lies in `[-1, maxLevels-1]`;
the header's forward link is non-nil at every level `i ≤ currentLevel` and nil
at every level above it (below `maxLevels`), so `currentLevel` is the highest
level at which the header has a non-nil link; and `currentLevel = -1` exactly
when the list has no node. -/
theorem currentLevel_invariant (s : SkipList μ) (h : SkipList.Reachable s) :
    -1 ≤ s.currentLevel ∧ s.currentLevel < s.maxLevels ∧
    (∃ hdr, s.header = some hdr ∧
      ∀ i : Nat, (i : Int) < s.maxLevels →
        ((i : Int) ≤ s.currentLevel → ∃ q, nextAt s.heap hdr i = some (some q)) ∧
        (s.currentLevel < (i : Int) → nextAt s.heap hdr i = some none)) ∧
    (s.currentLevel = -1 ↔ s.contents = .ok []) := by
  obtain ⟨hdr, L, rep⟩ := reachable_rep h
  have hb := rep.level_bounds
  refine ⟨hb.1, hb.2, ⟨hdr, rep.header_eq, ?_⟩, ?_⟩
  · intro i hi
    rw [(rep.chain i hi).head]
    constructor
    · intro hle
      rcases rep.level_top with h1 | ⟨e, he, h1⟩
      · omega
      · have hm : e.ptr ∈ chainOf L i := mem_chainOf.mpr ⟨e, he, by omega, rfl⟩
        cases hl : chainOf L i with
        | nil => rw [hl] at hm; cases hm
        | cons a rest => exact ⟨a, rfl⟩
    · intro hgt
      rw [chainOf_eq_nil_of_lt]
      · rfl
      · intro e he
        have := rep.level_ge e he
        omega
  · rw [rep.contents_eq]
    constructor
    · intro hcl
      cases L with
      | nil => rfl
      | cons a rest =>
        have := rep.level_ge a (by simp)
        omega
    · intro hnil
      have hL : L = [] := by
        have := Except.ok.inj hnil
        exact List.map_eq_nil_iff.mp this
      rcases rep.level_top with h1 | ⟨e, he, _⟩
      · exact h1
      · rw [hL] at he; cases he

/-- Instance of C19: the list left by deleting key 5 from the two-node list,
which empties levels 1..3 at once: `currentLevel` goes from 3 to 0, and to `-1`
once key 6 is deleted as well. -/
theorem currentLevel_invariant_witness :
    (-1 ≤ (tallList.DeleteOrModify 5 (none : Option (Decider MapContent Unit)) ()).2.1.currentLevel
        ∧
      (tallList.DeleteOrModify 5 (none : Option (Decider MapContent Unit)) ()).2.1.currentLevel <
        (tallList.DeleteOrModify 5 (none : Option (Decider MapContent Unit)) ()).2.1.maxLevels ∧
      (∃ hdr, (tallList.DeleteOrModify 5 (none : Option (Decider MapContent Unit)) ()).2.1.header =
          some hdr ∧
        ∀ i : Nat,
          (i : Int) < (tallList.DeleteOrModify 5 (none : Option (Decider MapContent Unit))
              ()).2.1.maxLevels →
          ((i : Int) ≤
              (tallList.DeleteOrModify 5 (none : Option (Decider MapContent Unit))
                  ()).2.1.currentLevel →
            ∃ q, nextAt (tallList.DeleteOrModify 5 (none : Option (Decider MapContent Unit))
                ()).2.1.heap
              hdr i = some (some q)) ∧
          ((tallList.DeleteOrModify 5 (none : Option (Decider MapContent Unit)) ()).2.1.currentLevel
              <
              (i : Int) →
            nextAt (tallList.DeleteOrModify 5 (none : Option (Decider MapContent Unit)) ()).2.1.heap
              hdr i = some none)) ∧
      ((tallList.DeleteOrModify 5 (none : Option (Decider MapContent Unit)) ()).2.1.currentLevel =
          -1 ↔
        (tallList.DeleteOrModify 5 (none : Option (Decider MapContent Unit)) ()).2.1.contents = .ok
            [])) ∧
    tallList.currentLevel = 3 ∧
    (tallList.DeleteOrModify 5 (none : Option (Decider MapContent Unit)) ()).2.1.currentLevel = 0 ∧
    ((tallList.DeleteOrModify 5 (none : Option (Decider MapContent Unit)) ()).2.1.DeleteOrModify 6
      (none : Option (Decider MapContent Unit)) ()).2.1.currentLevel = -1 :=
  ⟨currentLevel_invariant _ (SkipList.Reachable.delete tallList 5 none () tallList_reachable),
    rfl, rfl, rfl⟩

theorem generateRandLevelLoop_spec (maxLevels : Int) (draws : Nat → Bool) (fuel level : Nat)
    (hlevel : (level : Int) ≤ maxLevels - 1) (hfuel : maxLevels.toNat < fuel + level) :
    ∃ lvl, generateRandLevelLoop maxLevels draws fuel level = .ok lvl ∧ level ≤ lvl ∧
      (lvl : Int) ≤ maxLevels - 1 ∧ (∀ j, level ≤ j → j < lvl → draws j = true) ∧
      ((lvl : Int) < maxLevels - 1 → draws lvl = false) := by
  induction fuel generalizing level with
  | zero => omega
  | succ f ih =>
    unfold generateRandLevelLoop
    by_cases hc : (draws level && decide ((level : Int) < maxLevels - 1)) = true
    · rw [if_pos hc]
      simp only [Bool.and_eq_true, decide_eq_true_eq] at hc
      obtain ⟨lvl, h1, h2, h3, h4, h5⟩ := ih (level + 1) (by push_cast; omega) (by omega)
      refine ⟨lvl, h1, by omega, h3, ?_, h5⟩
      intro j hj1 hj2
      by_cases hj : j = level
      · rw [hj]; exact hc.1
      · exact h4 j (by omega) hj2
    · rw [if_neg hc]
      refine ⟨level, rfl, le_refl _, hlevel, fun j h1 h2 => by omega, ?_⟩
      intro hlt
      simp only [Bool.and_eq_true, decide_eq_true_eq, not_and] at hc
      cases hd : draws level with
      | false => rfl
      | true => exact absurd hlt (hc hd)

/-- C20: for every skip list with `maxLevels ≥ 1` and every sequence of draws,
`generateRandLevel` returns (the loop ends) a level `lvl` with
`0 ≤ lvl ≤ maxLevels - 1`; the first `lvl` draws all indicate promote and,
unless `lvl = maxLevels - 1`, draw `lvl` does not; hence `lvl` is
`min(k, maxLevels - 1)` when `k` is the number of leading promoting draws,
`maxLevels - 1` when every draw promotes, and `0` when `maxLevels = 1`. -/
theorem generateRandLevel_result (s : SkipList μ) (draws : Nat → Bool) (hpos : 1 ≤ s.maxLevels) :
    ∃ lvl, generateRandLevel s draws = .ok lvl ∧
      (lvl : Int) ≤ s.maxLevels - 1 ∧
      (∀ j, j < lvl → draws j = true) ∧
      ((lvl : Int) < s.maxLevels - 1 → draws lvl = false) ∧
      (∀ k : Nat, (∀ j, j < k → draws j = true) → draws k = false →
        (lvl : Int) = min (k : Int) (s.maxLevels - 1)) ∧
      ((∀ j, draws j = true) → (lvl : Int) = s.maxLevels - 1) ∧
      (s.maxLevels = 1 → lvl = 0) := by
  obtain ⟨lvl, h1, _, h3, h4, h5⟩ :=
    generateRandLevelLoop_spec s.maxLevels draws (s.maxLevels.toNat + 1) 0
      (by push_cast; omega) (by omega)
  refine ⟨lvl, h1, h3, fun j hj => h4 j (Nat.zero_le _) hj, h5, ?_, ?_, ?_⟩
  · intro k hk hkf
    have hle : lvl ≤ k := by
      by_contra hcon
      have := h4 k (Nat.zero_le _) (by omega)
      rw [hkf] at this; cases this
    by_cases hlt : lvl < k
    · have hge : ¬ ((lvl : Int) < s.maxLevels - 1) := by
        intro hx
        have := h5 hx
        rw [hk lvl hlt] at this; cases this
      rw [min_eq_right (by omega)]
      omega
    · have : lvl = k := by omega
      subst this
      rw [min_eq_left h3]
  · intro hall
    by_contra hne
    have := h5 (by omega)
    rw [hall lvl] at this; cases this
  · intro hone
    omega

/-- Instance of C20: five levels and draws that promote three times. -/
theorem generateRandLevel_result_witness :
    ∃ lvl, generateRandLevel tallList promoteThrice = .ok lvl ∧
      (lvl : Int) ≤ tallList.maxLevels - 1 ∧
      (∀ j, j < lvl → promoteThrice j = true) ∧
      ((lvl : Int) < tallList.maxLevels - 1 → promoteThrice lvl = false) ∧
      (∀ k : Nat, (∀ j, j < k → promoteThrice j = true) → promoteThrice k = false →
        (lvl : Int) = min (k : Int) (tallList.maxLevels - 1)) ∧
      ((∀ j, promoteThrice j = true) → (lvl : Int) = tallList.maxLevels - 1) ∧
      (tallList.maxLevels = 1 → lvl = 0) :=
  generateRandLevel_result tallList promoteThrice (by decide)

theorem Rep.currentLevel_unique {s t : SkipList μ} {hdr hdr1 : Nat} {L : List (Entry μ)}
    (rs : Rep s hdr L) (rt : Rep t hdr1 L) : s.currentLevel = t.currentLevel := by
  have hs := rs.level_ge
  have ht := rt.level_ge
  have hbs := rs.level_bounds
  have hbt := rt.level_bounds
  rcases rs.level_top with h1 | ⟨e, he, h1⟩ <;> rcases rt.level_top with h2 | ⟨e2, he2, h2⟩
  · omega
  · have := hs e2 he2; omega
  · have := ht e he; omega
  · have := hs e2 he2; have := ht e he; omega

/-- C22: on a reachable skip list, inserting a key (`≥ minKey`) that the list
does not hold, with any value, any merge callback and any draws for the level
of the new node, returns normally; deleting that key right after with a nil
callback returns `true`, and the list it leaves has the same header, at every
level below `maxLevels` the same sequence of linked nodes (so the same forward
links), the same keys and values in every node, and the same `currentLevel`,
`maxLevels` and `minKey` as before the insertion. -/
theorem insert_then_delete_restores {ε : Type} (s : SkipList μ) (h : SkipList.Reachable s)
    (key : Int) (value : Option μ) (modifier : Option (Modifier μ ε)) (env : ε)
    (draws : Nat → Bool) (nodes : List (Int × Option μ))
    (hmin : s.minKey ≤ key) (hnodes : s.contents = .ok nodes)
    (habsent : lookupKey key nodes = none) :
    ∃ lvl s1 s2, generateRandLevel s draws = .ok lvl ∧
      s.AddOrModify key value modifier env draws = (.ok (), s1, env) ∧
      s1.currentLevel = max s.currentLevel lvl ∧
      s1.DeleteOrModify key (none : Option (Decider μ ε)) env = (.ok true, s2, env) ∧
      s2.header = s.header ∧
      (∀ i : Nat, (i : Int) < s.maxLevels →
        ∃ ps, s.levelNodes i = .ok ps ∧ s2.levelNodes i = .ok ps) ∧
      (∀ i : Nat, (i : Int) < s.maxLevels →
        ∃ kvs, s.levelContents i = .ok kvs ∧ s2.levelContents i = .ok kvs) ∧
      s2.contents = .ok nodes ∧
      s2.currentLevel = s.currentLevel ∧ s2.maxLevels = s.maxLevels ∧
      s2.minKey = s.minKey := by
  obtain ⟨hdr, L, rep⟩ := reachable_rep h
  rw [rep.contents_eq] at hnodes
  cases hnodes
  rcases rep.find key with ⟨_, Lo, Hi, hL, hlo, hhi⟩ | ⟨Lo, e, Hi, hL, hk, hl⟩
  · subst hL
    obtain ⟨lvl, s1, hadd, hlvl, rep1, hM1, hm1, hc1⟩ :=
      rep.AddOrModify_absent hmin hlo hhi value modifier env draws
    have hmin1 : s1.minKey ≤ (⟨s.heap.length, key, value, lvl⟩ : Entry μ).key := by
      rw [hm1]; exact hmin
    obtain ⟨s2, hdel, rep2, hM2, hm2⟩ := rep1.DeleteOrModify_none hmin1 env
    refine ⟨lvl, s1, s2, hlvl, hadd, hc1, hdel, ?_, ?_, ?_, ?_, ?_, ?_, ?_⟩
    · rw [rep2.header_eq, rep.header_eq]
    · intro i hi
      exact ⟨_, rep.levelNodes_eq i hi, rep2.levelNodes_eq i (by rw [hM2, hM1]; exact hi)⟩
    · intro i hi
      exact ⟨_, rep.levelContents_eq i hi,
        rep2.levelContents_eq i (by rw [hM2, hM1]; exact hi)⟩
    · exact rep2.contents_eq
    · exact rep2.currentLevel_unique rep
    · rw [hM2, hM1]
    · rw [hm2, hm1]
  · rw [hl] at habsent
    cases habsent

/-- Instance of C22: key 7 inserted into the two-node list with draws that
always promote goes to level 4 and raises `currentLevel` from 3 to 4; deleting
it brings `currentLevel` back to 3 and the rows of every level back to what
they were. -/
theorem insert_then_delete_restores_witness :
    (∃ lvl s1 s2, generateRandLevel tallList alwaysPromote = .ok lvl ∧
      tallList.AddOrModify 7 (some [("c", true)]) (none : Option (Modifier MapContent Unit)) ()
        alwaysPromote = (.ok (), s1, ()) ∧
      s1.currentLevel = max tallList.currentLevel lvl ∧
      s1.DeleteOrModify 7 (none : Option (Decider MapContent Unit)) () = (.ok true, s2, ()) ∧
      s2.header = tallList.header ∧
      (∀ i : Nat, (i : Int) < tallList.maxLevels →
        ∃ ps, tallList.levelNodes i = .ok ps ∧ s2.levelNodes i = .ok ps) ∧
      (∀ i : Nat, (i : Int) < tallList.maxLevels →
        ∃ kvs, tallList.levelContents i = .ok kvs ∧ s2.levelContents i = .ok kvs) ∧
      s2.contents = .ok [(5, some [("a", true)]), (6, some [("b", true)])] ∧
      s2.currentLevel = tallList.currentLevel ∧ s2.maxLevels = tallList.maxLevels ∧
      s2.minKey = tallList.minKey) ∧
    tallList.currentLevel = 3 ∧
    (tallList.AddOrModify 7 (some [("c", true)]) (none : Option (Modifier MapContent Unit)) ()
      alwaysPromote).2.1.currentLevel = 4 ∧
    ((tallList.AddOrModify 7 (some [("c", true)]) (none : Option (Modifier MapContent Unit)) ()
      alwaysPromote).2.1.DeleteOrModify 7 (none : Option (Decider MapContent Unit))
          ()).2.1.currentLevel
      = 3 :=
  ⟨insert_then_delete_restores tallList tallList_reachable 7 (some [("c", true)]) none ()
      alwaysPromote [(5, some [("a", true)]), (6, some [("b", true)])] (by decide) rfl rfl,
    rfl, rfl, rfl⟩

theorem rankView_ext : ∀ (L1 L2 : List (Entry MapContent)),
    L1.Pairwise (fun a b => a.key < b.key) → L2.Pairwise (fun a b => a.key < b.key) →
    (∀ e ∈ L1, mapKeys e.vals ≠ []) → (∀ e ∈ L2, mapKeys e.vals ≠ []) →
    (∀ r, membersAt L1 r = membersAt L2 r) →
    L1.map (fun e => (e.key, mapKeys e.vals)) = L2.map (fun e => (e.key, mapKeys e.vals)) := by
  intro L1
  induction L1 with
  | nil =>
    intro L2 _ _ _ hne2 h
    cases L2 with
    | nil => rfl
    | cons b L2 =>
      exfalso
      have hb := h b.key
      rw [membersAt_cons, if_pos rfl] at hb
      have : mapKeys b.vals = [] := by
        have h0 : membersAt ([] : List (Entry MapContent)) b.key = [] := rfl
        rw [h0] at hb
        exact (List.append_eq_nil.mp hb.symm).1
      exact hne2 b (List.mem_cons_self _ _) this
  | cons a L1 ih =>
    intro L2 hs1 hs2 hne1 hne2 h
    have hs1c := List.pairwise_cons.mp hs1
    have ha0 : membersAt L1 a.key = [] :=
      membersAt_eq_nil (fun x hx => by have := hs1c.1 x hx; omega)
    cases L2 with
    | nil =>
      exfalso
      have hb := h a.key
      rw [membersAt_cons, if_pos rfl, ha0, List.append_nil] at hb
      exact hne1 a (List.mem_cons_self _ _) hb
    | cons b L2 =>
      have hs2c := List.pairwise_cons.mp hs2
      have hb0 : membersAt L2 b.key = [] :=
        membersAt_eq_nil (fun x hx => by have := hs2c.1 x hx; omega)
      have hk : a.key = b.key := by
        rcases lt_trichotomy a.key b.key with hlt | heq | hgt
        · exfalso
          have hb := h a.key
          rw [membersAt_cons, if_pos rfl, ha0, List.append_nil,
            membersAt_eq_nil (L := b :: L2)] at hb
          · exact hne1 a (List.mem_cons_self _ _) hb
          · intro x hx
            rcases List.mem_cons.mp hx with rfl | hx
            · omega
            · have := hs2c.1 x hx; omega
        · exact heq
        · exfalso
          have hb := h b.key
          rw [membersAt_cons b, if_pos rfl, hb0, List.append_nil,
            membersAt_eq_nil (L := a :: L1)] at hb
          · exact hne2 b (List.mem_cons_self _ _) hb.symm
          · intro x hx
            rcases List.mem_cons.mp hx with rfl | hx
            · omega
            · have := hs1c.1 x hx; omega
      have hv : mapKeys a.vals = mapKeys b.vals := by
        have hb := h a.key
        rw [membersAt_cons, if_pos rfl, ha0, membersAt_cons, if_pos hk.symm, List.append_nil] at hb
        have hb0a : membersAt L2 a.key = [] := by rw [hk]; exact hb0
        rw [hb0a, List.append_nil] at hb
        exact hb
      have htail : ∀ r, membersAt L1 r = membersAt L2 r := by
        intro r
        by_cases hr : r = a.key
        · subst hr
          rw [ha0, hk, hb0]
        · have hb := h r
          rw [membersAt_cons, if_neg (Ne.symm hr), membersAt_cons,
            if_neg (by rw [← hk]; exact Ne.symm hr)] at hb
          exact hb
      have := ih L2 hs1c.2 hs2c.2 (fun e he => hne1 e (List.mem_cons_of_mem _ he))
        (fun e he => hne2 e (List.mem_cons_of_mem _ he)) htail
      simp only [List.map_cons, hk, hv, this]

theorem membersIn_eq_view (L : List (Entry MapContent)) (lo hi : Int) :
    membersIn L lo hi =
      (((L.map (fun e => (e.key, mapKeys e.vals))).filter
        (fun p => decide (lo ≤ p.1 ∧ p.1 < hi))).map Prod.snd).flatten := by
  induction L with
  | nil => rfl
  | cons a L ih =>
    unfold membersIn at ih ⊢
    by_cases h : lo ≤ a.key ∧ a.key < hi
    · simp only [List.filter_cons, h, decide_True, if_true, List.map_cons, fillMembers,
        List.flatten_cons, and_self, ih]
    · simpa [List.filter_cons, h] using ih

theorem Model.vals_nonempty {s : SortedSet} {hdr : Nat} {L : List (Entry MapContent)}
    {d : Dictionary}
    (md : Model s hdr L d) : ∀ e ∈ L, mapKeys e.vals ≠ [] := by
  intro e he
  obtain ⟨l, hl, hne, _⟩ := md.members e he
  rw [hl, mapKeys_some]
  intro h
  exact hne (List.map_eq_nil_iff.mp h)

theorem Add_negative (s : SortedSet) (m : String) {r : Int} (hr : r < 0) (draws : Nat → Bool) :
    s.Add m r draws =
      (.error (.precondition "Rank must be greater than or equal to zero"), s) := by
  unfold SortedSet.Add
  rw [if_pos hr]

theorem GetRange_invalid (s : SortedSet) {lo hi : Int} (h : ¬ (0 ≤ lo ∧ lo < hi)) :
    ∃ f, s.GetRange lo hi = (.error f, s) := by
  unfold SortedSet.GetRange
  by_cases h1 : lo < 0 ∨ hi < 0
  · rw [if_pos h1]; exact ⟨_, rfl⟩
  · rw [if_neg h1, if_pos (by omega)]; exact ⟨_, rfl⟩

theorem GetRange_invalid_eq (s1 s2 : SortedSet) {lo hi : Int} (h : ¬ (0 ≤ lo ∧ lo < hi)) :
    (s1.GetRange lo hi).1 = (s2.GetRange lo hi).1 ∧ (s1.GetRange lo hi).2 = s1 ∧
      (s2.GetRange lo hi).2 = s2 := by
  unfold SortedSet.GetRange
  by_cases h1 : lo < 0 ∨ hi < 0
  · rw [if_pos h1, if_pos h1]; exact ⟨rfl, rfl, rfl⟩
  · rw [if_neg h1, if_pos (by omega), if_neg h1, if_pos (by omega)]; exact ⟨rfl, rfl, rfl⟩

theorem SameMembers.call_agree {s1 s2 : SortedSet} (h : SameMembers s1 s2) (c : Call)
    (draws1 draws2 : Nat → Bool) :
    (s1.call draws1 c).1 = (s2.call draws2 c).1 ∧
      SameMembers (s1.call draws1 c).2 (s2.call draws2 c).2 := by
  obtain ⟨hdr1, L1, hdr2, L2, d, m1, m2, hm⟩ := h
  cases c with
  | Add m r =>
    simp only [SortedSet.call]
    by_cases hr : r < 0
    · rw [Add_negative s1 m hr, Add_negative s2 m hr]
      exact ⟨rfl, hdr1, L1, hdr2, L2, d, m1, m2, hm⟩
    · have hr0 : 0 ≤ r := by omega
      cases hd : assocLookup m d with
      | some r0 =>
        rw [m1.Add_duplicate hd hr0, m2.Add_duplicate hd hr0]
        exact ⟨rfl, hdr1, L1, hdr2, L2, d, m1, m2, hm⟩
      | none =>
        obtain ⟨t1, K1, e1, n1, a1, _⟩ := m1.Add_new hd hr0 draws1
        obtain ⟨t2, K2, e2, n2, a2, _⟩ := m2.Add_new hd hr0 draws2
        rw [e1, e2]
        refine ⟨rfl, hdr1, K1, hdr2, K2, _, n1, n2, ?_⟩
        intro r1
        rw [a1 r1, a2 r1, hm r, hm r1]
  | Remove m =>
    simp only [SortedSet.call]
    cases hd : assocLookup m d with
    | none =>
      rw [m1.Remove_absent hd, m2.Remove_absent hd]
      exact ⟨rfl, hdr1, L1, hdr2, L2, d, m1, m2, hm⟩
    | some r =>
      obtain ⟨t1, K1, e1, n1, a1, _⟩ := m1.Remove_present hd
      obtain ⟨t2, K2, e2, n2, a2, _⟩ := m2.Remove_present hd
      rw [e1, e2]
      refine ⟨rfl, hdr1, K1, hdr2, K2, _, n1, n2, ?_⟩
      intro r1
      rw [a1 r1, a2 r1, hm r, hm r1]
  | Get r =>
    simp only [SortedSet.call]
    by_cases hr : r < 0
    · rw [Get_negative s1 hr, Get_negative s2 hr]
      exact ⟨rfl, hdr1, L1, hdr2, L2, d, m1, m2, hm⟩
    · have hr0 : 0 ≤ r := by omega
      rw [m1.Get_eq hr0, m2.Get_eq hr0, hm r]
      exact ⟨rfl, hdr1, L1, hdr2, L2, d, m1, m2, hm⟩
  | GetRange lo hi =>
    simp only [SortedSet.call]
    by_cases hv : 0 ≤ lo ∧ lo < hi
    · have hview := rankView_ext L1 L2 m1.rep.sorted m2.rep.sorted m1.vals_nonempty
        m2.vals_nonempty hm
      rw [m1.GetRange_eq hv.1 hv.2, m2.GetRange_eq hv.1 hv.2, membersIn_eq_view L1,
        membersIn_eq_view L2, hview]
      exact ⟨rfl, hdr1, L1, hdr2, L2, d, m1, m2, hm⟩
    · obtain ⟨e1, e2, e3⟩ := GetRange_invalid_eq s1 s2 hv
      rw [e1, e2, e3]
      exact ⟨rfl, hdr1, L1, hdr2, L2, d, m1, m2, hm⟩
  | Exists m =>
    simp only [SortedSet.call]
    rw [m1.Exists_eq, m2.Exists_eq]
    exact ⟨rfl, hdr1, L1, hdr2, L2, d, m1, m2, hm⟩
  | GetRank m =>
    simp only [SortedSet.call]
    rw [m1.GetRank_eq, m2.GetRank_eq]
    exact ⟨rfl, hdr1, L1, hdr2, L2, d, m1, m2, hm⟩

theorem SameMembers.refl_of_model {s : SortedSet} {hdr : Nat} {L : List (Entry MapContent)}
    {d : Dictionary}
    (md : Model s hdr L d) : SameMembers s s :=
  ⟨hdr, L, hdr, L, d, md, md, fun _ => rfl⟩

theorem SameMembers.model_left {s1 s2 : SortedSet} (h : SameMembers s1 s2) :
    ∃ hdr L d, Model s1 hdr L d := by
  obtain ⟨hdr1, L1, _, _, d, m1, _, _⟩ := h
  exact ⟨hdr1, L1, d, m1⟩

theorem Model.call_returned {s : SortedSet} {hdr : Nat} {L : List (Entry MapContent)}
    {d : Dictionary}
    (md : Model s hdr L d) (c : Call) (hc : c.valid = true) (draws : Nat → Bool) :
    (s.call draws c).1.returned = true := by
  cases c with
  | Add m r =>
    have hr0 : 0 ≤ r := by simpa [Call.valid] using hc
    simp only [SortedSet.call]
    cases hd : assocLookup m d with
    | some r0 => rw [md.Add_duplicate hd hr0]; rfl
    | none =>
      obtain ⟨t1, K1, e1, _⟩ := md.Add_new hd hr0 draws
      rw [e1]; rfl
  | Remove m =>
    simp only [SortedSet.call]
    cases hd : assocLookup m d with
    | none => rw [md.Remove_absent hd]; rfl
    | some r =>
      obtain ⟨t1, K1, e1, _⟩ := md.Remove_present hd
      rw [e1]; rfl
  | Get r =>
    have hr0 : 0 ≤ r := by simpa [Call.valid] using hc
    simp only [SortedSet.call]
    rw [md.Get_eq hr0]; rfl
  | GetRange lo hi =>
    have hv : 0 ≤ lo ∧ lo < hi := by simpa [Call.valid] using hc
    simp only [SortedSet.call]
    rw [md.GetRange_eq hv.1 hv.2]; rfl
  | Exists m =>
    simp only [SortedSet.call]
    rw [md.Exists_eq]; rfl
  | GetRank m =>
    simp only [SortedSet.call]
    rw [md.GetRank_eq]; rfl

theorem SameMembers.run_agree {s1 s2 : SortedSet} (h : SameMembers s1 s2) (cs : List Call)
    (levels1 levels2 : Nat → Nat → Bool) :
    s1.run cs levels1 = s2.run cs levels2 ∧
      SameMembers (s1.runState cs levels1) (s2.runState cs levels2) := by
  induction cs generalizing s1 s2 levels1 levels2 with
  | nil => exact ⟨rfl, h⟩
  | cons c cs ih =>
    obtain ⟨h1, h2⟩ := h.call_agree c (levels1 0) (levels2 0)
    obtain ⟨h3, h4⟩ := ih h2 (fun n => levels1 (n + 1)) (fun n => levels2 (n + 1))
    simp only [SortedSet.run, SortedSet.runState]
    rw [h1, h3]
    exact ⟨rfl, h4⟩

theorem SameMembers.run_returned {s1 s2 : SortedSet} (h : SameMembers s1 s2) (cs : List Call)
    (hvalid : ∀ c ∈ cs, c.valid = true) (levels1 : Nat → Nat → Bool) :
    ∀ r ∈ s1.run cs levels1, r.returned = true := by
  induction cs generalizing s1 s2 levels1 with
  | nil => intro r hr; cases hr
  | cons c cs ih =>
    obtain ⟨hdr, L, d, md⟩ := h.model_left
    have h2 := (SameMembers.refl_of_model md).call_agree c (levels1 0) (levels1 0)
    intro r hr
    simp only [SortedSet.run] at hr
    rcases List.mem_cons.mp hr with rfl | hr
    · exact md.call_returned c (hvalid c (List.mem_cons_self _ _)) _
    · exact ih h2.2 (fun c1 hc1 => hvalid c1 (List.mem_cons_of_mem _ hc1)) _ r hr
theorem run_length (s : SortedSet) (cs : List Call) (levels : Nat → Nat → Bool) :
    (s.run cs levels).length = cs.length := by
  induction cs generalizing s levels with
  | nil => rfl
  | cons c cs ih => simp only [SortedSet.run, List.length_cons, ih]

/-- C21: take any sequence of calls of `Add`, `Remove`, `Get`, `GetRange`,
`Exists` and `GetRank` whose arguments meet the preconditions, and run it twice
from a freshly initialised sorted set, the two runs differing only in the
random draws that decide the level of each inserted node. Then every call
returns (none panics), there is one reply per call, and the two runs hand back
the same reply to every call: the same booleans, the same ranks and the same
member lists for `Get` and `GetRange` (hence the same sets, rank by rank in
ascending order). -/
theorem levels_unobservable (s0 : SortedSet) (cs : List Call)
    (levels1 levels2 : Nat → Nat → Bool) (hvalid : ∀ c ∈ cs, c.valid = true) :
    (SortedSet.Init s0).2.run cs levels1 = (SortedSet.Init s0).2.run cs levels2 ∧
      ((SortedSet.Init s0).2.run cs levels1).length = cs.length ∧
      (∀ r ∈ (SortedSet.Init s0).2.run cs levels1, r.returned = true) ∧
      (∀ r ∈ (SortedSet.Init s0).2.run cs levels2, r.returned = true) := by
  have h := SameMembers.refl_of_model (init_model s0)
  exact ⟨(h.run_agree cs levels1 levels2).1, run_length _ cs levels1,
    h.run_returned cs hvalid levels1, h.run_returned cs hvalid levels2⟩

/-- Instance of C21: the sample calls run once with every node at level 0 and
once with every node at the top level 31 give the same thirteen replies, though
the two skip lists end with different shapes. -/
theorem levels_unobservable_witness :
    (fresh.run sampleCalls (fun _ => neverPromote) =
        fresh.run sampleCalls (fun _ => alwaysPromote) ∧
      (fresh.run sampleCalls (fun _ => neverPromote)).length = sampleCalls.length ∧
      (∀ r ∈ fresh.run sampleCalls (fun _ => neverPromote), r.returned = true) ∧
      (∀ r ∈ fresh.run sampleCalls (fun _ => alwaysPromote), r.returned = true)) ∧
    fresh.run sampleCalls (fun _ => neverPromote) =
      [.flag (.ok true), .flag (.ok true), .flag (.ok true), .flag (.ok false),
        .members (.ok ["Hello", "World"]), .members (.ok ["Hello", "World", "World2"]),
        .flag (.ok true), .rank (.ok 6), .flag (.ok true), .flag (.ok false),
        .members (.ok ["World"]), .members (.ok ["World", "World2"]), .rank (.ok (-1))] ∧
    (fresh.runState sampleCalls (fun _ => neverPromote)).skiplist.currentLevel = 0 ∧
    (fresh.runState sampleCalls (fun _ => alwaysPromote)).skiplist.currentLevel = 31 :=
  ⟨levels_unobservable SortedSet.zero sampleCalls (fun _ => neverPromote)
      (fun _ => alwaysPromote) (by decide),
    rfl, rfl, rfl⟩

end SSet
